import Mathlib

/-!
Verification of the reinplacing-pass specification and of the numeric helper
library `torch/_inductor/runtime/triton_helpers.py`.

The first part embeds the comparison/reduction helpers
(`minimum_with_index`, `maximum_with_index`, `welford_combine`) shallowly:
scalar values are modelled as `Option Int`, where `none` plays the role of an
IEEE NaN payload (every ordered comparison against it is false, and `x != x`
detects it), and `some v` is an ordinary totally ordered value.  The helpers
only ever compare values, so this captures their branching behaviour exactly.

The second part models the reinplacing pass itself (its graph IR, alias and
liveness analysis, decision engine and rewriter) from the specification, and
proves the spec's testable properties against that model.
-/

namespace TritonHelpers

/-- A scalar as seen by the triton comparison helpers: `none` models a NaN
(all ordered comparisons with it are false), `some x` an ordinary value. -/
abbrev FVal := Option Int

/-- `x != x`, the NaN test used by the helpers. -/
def fisnan (a : FVal) : Bool := a.isNone

/-- IEEE-style `<`: false whenever either side is NaN. -/
def flt : FVal → FVal → Bool
  | some x, some y => decide (x < y)
  | _, _ => false

/-- IEEE-style `>`: false whenever either side is NaN. -/
def fgt : FVal → FVal → Bool
  | some x, some y => decide (y < x)
  | _, _ => false

/-- IEEE-style `==`: false whenever either side is NaN. -/
def feq : FVal → FVal → Bool
  | some x, some y => decide (x = y)
  | _, _ => false

/-- The `equal` mask computed by `minimum_with_index`/`maximum_with_index`:
ordinary equality, with two NaNs considered equal. -/
def eqN (a b : FVal) : Bool := feq a b || (fisnan a && fisnan b)

/-- The full "prefer `a`" ordering of the min reduction: `a < b`, or `a` is
NaN and `b` is not (NaN propagates as the extremal value). -/
def fltN (a b : FVal) : Bool := flt a b || (fisnan a && !fisnan b)

/-- The full "prefer `a`" ordering of the max reduction. -/
def fgtN (a b : FVal) : Bool := fgt a b || (fisnan a && !fisnan b)

/-- `triton_helpers.minimum_with_index`, translated line by line: the masks
are built in the same order as in the source. -/
def minimum_with_index (a b : FVal × Nat) : FVal × Nat :=
  let mask := flt a.1 b.1
  let equal := feq a.1 b.1
  let a_isnan := fisnan a.1
  let b_isnan := fisnan b.1
  let mask := mask || (a_isnan && !b_isnan)
  let equal := equal || (a_isnan && b_isnan)
  let mask := mask || (equal && decide (a.2 < b.2))
  if mask then a else b

/-- `triton_helpers.maximum_with_index`, translated line by line. -/
def maximum_with_index (a b : FVal × Nat) : FVal × Nat :=
  let mask := fgt a.1 b.1
  let equal := feq a.1 b.1
  let a_isnan := fisnan a.1
  let b_isnan := fisnan b.1
  let mask := mask || (a_isnan && !b_isnan)
  let equal := equal || (a_isnan && b_isnan)
  let mask := mask || (equal && decide (a.2 < b.2))
  if mask then a else b

/-- Reduction trees: `tl.reduce` combines the elements of a block with an
arbitrary association, which we model as an arbitrary binary tree. -/
inductive RTree (α : Type) : Type where
  | leaf : α → RTree α
  | node : RTree α → RTree α → RTree α

/-- Combine a whole tree with a binary operation (the shape of the tree is
the association order chosen by `tl.reduce`). -/
def RTree.reduceWith {α : Type} (f : α → α → α) : RTree α → α
  | .leaf a => a
  | .node l r => f (RTree.reduceWith f l) (RTree.reduceWith f r)

/-- The elements of a reduction tree, in block order. -/
def RTree.toList {α : Type} : RTree α → List α
  | .leaf a => [a]
  | .node l r => RTree.toList l ++ RTree.toList r

/-- `triton_helpers.min_with_index`: `tl.reduce` with `minimum_with_index`. -/
def min_with_index (t : RTree (FVal × Nat)) : FVal × Nat :=
  t.reduceWith minimum_with_index

/-- `triton_helpers.max_with_index`: `tl.reduce` with `maximum_with_index`. -/
def max_with_index (t : RTree (FVal × Nat)) : FVal × Nat :=
  t.reduceWith maximum_with_index

/-- The common shape of both `*_with_index` combiners: pick `a` exactly when
it is strictly preferred, or tied with the lower index. -/
def selectLow (ltb : FVal → FVal → Bool) (a b : FVal × Nat) : FVal × Nat :=
  if ltb a.1 b.1 || (eqN a.1 b.1 && decide (a.2 < b.2)) then a else b

/-- `triton_helpers.welford_combine` over exact rationals: the weight ratio
is guarded so that a zero combined weight yields ratio `0`. -/
def welford_combine (mean_1 m2_1 weight_1 mean_2 m2_2 weight_2 : ℚ) :
    ℚ × ℚ × ℚ :=
  let delta := mean_2 - mean_1
  let new_weight := weight_1 + weight_2
  let w2_over_w := if new_weight = 0 then 0 else weight_2 / new_weight
  (mean_1 + delta * w2_over_w,
   m2_1 + m2_2 + delta * delta * weight_1 * w2_over_w,
   new_weight)

/-- The guarded weight ratio of `welford_combine`, exposed on its own. -/
def w2_over_w (weight_1 weight_2 : ℚ) : ℚ :=
  if weight_1 + weight_2 = 0 then 0 else weight_2 / (weight_1 + weight_2)

end TritonHelpers

namespace Reinplace

/-- Modelled from the spec: one mutation slot of a candidate call.  The
excerpt does not contain `reinplace_inplaceable_ops_core` itself (only its
tests), so the candidate shape is taken from §3/§4 of the spec: a mutated
argument `dst`, the value `src` whose elementwise image (`op`) the call
writes into it, as in `sin(x, out)` where `src = x`, `dst = out`. -/
structure Slot where
  op : Nat
  src : Nat
  dst : Nat
deriving DecidableEq

instance : Inhabited Slot := ⟨⟨0, 0, 0⟩⟩

/-- Modelled from the spec: the node kinds of the dataflow graph consumed by
the pass (§3 Data Model).  Values are identified with the index of the
instruction that binds them.  `mutcand` is the functional (auto-functionalized)
form of a mutating call: per-slot `flags` record slots already rewritten to
mutate in place, `cloneMeta` the slots marked clone-only, `userInplace`
whether the user explicitly requested the in-place call. -/
inductive Instr where
  | input : Instr
  | freshbuf : Instr
  | unary (op : Nat) (src : Nat) : Instr
  | binop (x y : Nat) : Instr
  | view (src : Nat) : Instr
  | mutcand (slots : List Slot) (extraReads : List Nat) (userInplace : Bool)
      (flags : List Bool) (cloneMeta : List Bool) : Instr
  | proj (k : Nat) (c : Nat) : Instr
  | copyInto (dst src : Nat) : Instr
deriving DecidableEq

instance : Inhabited Instr := ⟨.freshbuf⟩

/-- Modelled from the spec: a graph is its instruction list in program order
plus the list of returned values. -/
structure Graph where
  instrs : List Instr
  outputs : List Nat
deriving DecidableEq

/-- The instruction binding value `v` (a `freshbuf` placeholder out of
range). -/
def getI (g : Graph) (v : Nat) : Instr := g.instrs.getD v .freshbuf

/-- Is `v` literally a declared graph input? -/
def isInput (g : Graph) (v : Nat) : Bool :=
  match getI g v with
  | .input => true
  | _ => false

/-- Modelled from the spec (§4.1 Alias/Storage Analysis): chase view edges
(and already-reinplaced projections, whose value is the mutated argument) to
the base value owning the storage; fuelled because it is defined on raw
graphs. -/
def baseOfF (g : Graph) : Nat → Nat → Nat
  | 0, v => v
  | fuel + 1, v =>
    match getI g v with
    | .view s => baseOfF g fuel s
    | .copyInto d _ => baseOfF g fuel d
    | .proj k c =>
      match getI g c with
      | .mutcand slots _ _ flags _ =>
        if flags.getD k false then baseOfF g fuel (slots.getD k default).dst
        else v
      | _ => v
    | _ => v

/-- The base (storage owner) of a value. -/
def baseOf (g : Graph) (v : Nat) : Nat := baseOfF g g.instrs.length v

/-- Chase only already-reinplaced projections (value identity, not storage):
used for the "is the mutated argument itself a declared graph input" test. -/
def resolveF (g : Graph) : Nat → Nat → Nat
  | 0, v => v
  | fuel + 1, v =>
    match getI g v with
    | .proj k c =>
      match getI g c with
      | .mutcand slots _ _ flags _ =>
        if flags.getD k false then resolveF g fuel (slots.getD k default).dst
        else v
      | _ => v
    | _ => v

/-- The value a reinplaced projection chain denotes. -/
def resolveV (g : Graph) (v : Nat) : Nat := resolveF g g.instrs.length v

/-- The values an instruction reads (view creation and projection read no
data; a copy reads its source and writes its destination). -/
def Instr.readsOf : Instr → List Nat
  | .input => []
  | .freshbuf => []
  | .unary _ s => [s]
  | .binop x y => [x, y]
  | .view _ => []
  | .proj _ _ => []
  | .copyInto _ s => [s]
  | .mutcand slots extra _ _ _ => slots.map Slot.src ++ extra

/-- Modelled from the spec (§4.2/§4.3): while scanning the program after a
candidate, the decision engine tracks two facts about the mutated base `b`
and the candidate's functional result `j`: `st.1` ("synced") — the storage of
`b` as rewritten would hold exactly the original value of `j`; `st.2`
("agree") — it would hold exactly the original value of `b`.  A read is only
admissible if the fact for the storage it touches holds. -/
def checkReads (g : Graph) (b : Nat) (j : Option Nat) (st : Bool × Bool)
    (rs : List Nat) : Bool :=
  rs.all fun r =>
    if baseOf g r = b then st.2
    else if some (baseOf g r) = j then st.1
    else true

/-- Modelled from the spec (§4.3): the effect of one later instruction on the
scan state, or `none` if it performs an inadmissible read.  A copy of the
candidate's result into the base is the publish point (§8): it re-establishes
agreement on `b`.  Foreign writes into `b` or `j` update the two facts
accordingly. -/
def mstep (g : Graph) (b : Nat) (j : Option Nat) (st : Bool × Bool)
    (i : Instr) : Option (Bool × Bool) :=
  if checkReads g b j st i.readsOf then
    match i with
    | .copyInto d s =>
      if baseOf g d = b then
        if some (baseOf g s) = j then some (st.1, true)
        else if baseOf g s = b then some st
        else some (false, true)
      else if some (baseOf g d) = j then some (true, false)
      else some st
    | .mutcand slots _ _ flags _ =>
      some ((slots.zip flags).foldl
        (fun acc sf =>
          if sf.2 then
            if baseOf g sf.1.dst = b then (false, true)
            else if some (baseOf g sf.1.dst) = j then (true, false)
            else acc
          else acc)
        st)
    | _ => some st
  else none

/-- Run the scan over a list of later instructions. -/
def mrun (g : Graph) (b : Nat) (j : Option Nat) (st0 : Bool × Bool)
    (is : List Instr) : Option (Bool × Bool) :=
  is.foldl (fun acc i => acc.bind fun st => mstep g b j st i) (some st0)

/-- Modelled from the spec (§4.2): at the end of the program the declared
outputs are read, and a base that is a declared graph input is observed by
the caller, so each needs its fact to hold. -/
def endCheck (g : Graph) (b : Nat) (j : Option Nat) (st : Bool × Bool) : Bool :=
  checkReads g b j st g.outputs && (!isInput g b || st.2)

/-- The value bound to the functional result of slot `k` of the candidate at
`c`, if any node projects it out. -/
def findProj (g : Graph) (c k : Nat) : Option Nat :=
  (List.range g.instrs.length).find? fun q =>
    decide (getI g q = Instr.proj k c)

/-- Modelled from the spec (§4.3 decision rule, second bullet together with
the §8 "view precision" and "sequential fusion" refinements): slot `k` of the
candidate at `p` may be rewritten to mutate in place if no other slot of the
same call mutates the same base and the scan of the rest of the program
(plus the end-of-program reads) never reads a stale storage. -/
def slotSafe (g : Graph) (p k : Nat) : Bool :=
  match getI g p with
  | .mutcand slots _ _ _ _ =>
    let sl := slots.getD k default
    let b := baseOf g sl.dst
    let j := findProj g p k
    (List.range slots.length).all
      (fun i => i == k || !(baseOf g (slots.getD i default).dst == b)) &&
    match mrun g b j (true, false) (g.instrs.drop (p + 1)) with
    | none => false
    | some st => endCheck g b j st
  | _ => false

/-- Set the reinplaced flag of slot `k` of the candidate at `p`. -/
def setFlag (g : Graph) (p k : Nat) : Graph :=
  let i' :=
    match getI g p with
    | .mutcand slots extra ui flags clones =>
      Instr.mutcand slots extra ui (flags.set k true) clones
    | i => i
  { g with instrs := g.instrs.set p i' }

/-- Mark slot `k` of the candidate at `p` clone-only. -/
def setClone (g : Graph) (p k : Nat) : Graph :=
  let i' :=
    match getI g p with
    | .mutcand slots extra ui flags clones =>
      Instr.mutcand slots extra ui flags (clones.set k true)
    | i => i
  { g with instrs := g.instrs.set p i' }

/-- Modelled from the spec (§4.3): decide one slot.  Already-rewritten slots
are no longer candidates; clone-only metadata is honored without re-deriving
(§7); a mutated argument that is itself a declared graph input is protected
unless the call is an explicit user-requested in-place op (§4.3 first
bullet); otherwise the safety scan decides, and an unsafe slot is marked
clone-only and bumps the diagnostic counter (§4.3 side effect). -/
def decideSlot (st : Graph × Nat) (p k : Nat) : Graph × Nat :=
  let g := st.1
  match getI g p with
  | .mutcand slots _ ui flags clones =>
    if flags.getD k false then st
    else if clones.getD k false then st
    else if isInput g (resolveV g (slots.getD k default).dst) && !ui then
      (setClone g p k, st.2)
    else if slotSafe g p k then (setFlag g p k, st.2)
    else (setClone g p k, st.2 + 1)
  | _ => st

/-- Decide every slot of the candidate at `p`, in order. -/
def decideCand (st : Graph × Nat) (p : Nat) : Graph × Nat :=
  match getI st.1 p with
  | .mutcand slots _ _ _ _ =>
    (List.range slots.length).foldl (fun acc k => decideSlot acc p k) st
  | _ => st

/-- Modelled from the spec (§6): the pass entry point.  It walks the graph in
program order deciding and rewriting each candidate, and returns the
rewritten graph together with the number of "possibly missed reinplacing
opportunities" recorded (§9: the process-wide counter is modelled as an
explicit result). -/
def pass (g : Graph) : Graph × Nat :=
  (List.range g.instrs.length).foldl decideCand (g, 0)

/-- Total number of clone-only marks in the graph (what the tests read from
`meta["only_clone_these_tensors"]`). -/
def cloneCount (g : Graph) : Nat :=
  (g.instrs.map fun i =>
    match i with
    | .mutcand _ _ _ _ clones => clones.countP id
    | _ => 0).sum

/-- Is slot `k` of the candidate at `p` flagged as reinplaced? -/
def flagged (g : Graph) (p k : Nat) : Bool :=
  match getI g p with
  | .mutcand _ _ _ flags _ => flags.getD k false
  | _ => false

/-- Is slot `k` of the candidate at `p` marked clone-only? -/
def cloned (g : Graph) (p k : Nat) : Bool :=
  match getI g p with
  | .mutcand _ _ _ _ clones => clones.getD k false
  | _ => false

/-- A runtime value: a single storage cell id, or the tuple of per-slot
results of a candidate. -/
inductive SVal where
  | one (s : Nat)
  | many (ss : List Nat)
deriving DecidableEq

/-- Interpreter state: per-value storage binding, the store, and the not yet
consumed caller inputs. -/
structure ExSt where
  env : List SVal
  store : List Int
  inp : List Int
deriving DecidableEq

/-- The storage cell bound to value `v`. -/
def sidOf (st : ExSt) (v : Nat) : Nat :=
  match st.env.getD v (.one 0) with
  | .one s => s
  | .many _ => 0

/-- The content value `v` denotes. -/
def readV (st : ExSt) (v : Nat) : Int := st.store.getD (sidOf st v) 0

/-- Execute the slots of a candidate in order: every slot appends its result
as a fresh cell (so cell numbering does not depend on the flags), and a
reinplaced slot additionally publishes the result into its argument's cell;
the returned list holds the per-slot cell of the call's tuple value. -/
def slotsExec (sid : Slot → Nat) :
    List Int → List ((Slot × Int) × Bool) → List Int × List Nat
  | store, [] => (store, [])
  | store, x :: rest =>
    let entry := if x.2 then sid x.1.1 else store.length
    let store1 := store ++ [x.1.2]
    let store2 := if x.2 then store1.set (sid x.1.1) x.1.2 else store1
    let r := slotsExec sid store2 rest
    (r.1, entry :: r.2)

/-- Modelled from the spec: small-step interpreter.  Elementwise operations
are opaque (`IU`/`IB` interpret the op codes); tensor contents are modelled
as one abstract cell per storage.  A functional candidate allocates a fresh
cell per slot; a reinplaced slot instead publishes its result into the
mutated argument's cell (a dummy cell is still allocated so that cell
numbering is independent of the flags). -/
def stepI (IU : Nat → Int → Int) (IB : Int → Int → Int) (st : ExSt) :
    Instr → ExSt
  | .input =>
    { env := st.env ++ [.one st.store.length],
      store := st.store ++ [st.inp.headD 0], inp := st.inp.tail }
  | .freshbuf =>
    { env := st.env ++ [.one st.store.length],
      store := st.store ++ [0], inp := st.inp }
  | .unary op s =>
    { env := st.env ++ [.one st.store.length],
      store := st.store ++ [IU op (readV st s)], inp := st.inp }
  | .binop x y =>
    { env := st.env ++ [.one st.store.length],
      store := st.store ++ [IB (readV st x) (readV st y)], inp := st.inp }
  | .view s =>
    { env := st.env ++ [st.env.getD s (.one 0)], store := st.store,
      inp := st.inp }
  | .proj k c =>
    { env := st.env ++
        [.one (match st.env.getD c (.one 0) with
               | .many ss => ss.getD k 0
               | .one s => s)],
      store := st.store, inp := st.inp }
  | .copyInto d s =>
    { env := st.env ++ [st.env.getD d (.one 0)],
      store := st.store.set (sidOf st d) (readV st s), inp := st.inp }
  | .mutcand slots _ _ flags _ =>
    let ress := slots.map fun sl => IU sl.op (readV st sl.src)
    let r := slotsExec (fun sl => sidOf st sl.dst) st.store
      ((slots.zip ress).zip flags)
    { env := st.env ++ [.many r.2], store := r.1, inp := st.inp }

/-- Number of storage cells an instruction allocates. -/
def allocCount : Instr → Nat
  | .input => 1
  | .freshbuf => 1
  | .unary _ _ => 1
  | .binop _ _ => 1
  | .view _ => 0
  | .proj _ _ => 0
  | .copyInto _ _ => 0
  | .mutcand slots _ _ _ _ => slots.length

/-- Cells allocated by the first `q` instructions. -/
def storsBefore (g : Graph) (q : Nat) : Nat :=
  ((g.instrs.take q).map allocCount).sum

/-- The cell owned by base value `v` (meaningful when `baseOf` stops at
`v`: at a projection it is the dummy cell of that slot, otherwise the cell
the instruction allocates). -/
def sidAt (g : Graph) (v : Nat) : Nat :=
  match getI g v with
  | .proj k c => storsBefore g c + k
  | _ => storsBefore g v

/-- Does the alias chase stop at `v`, making `v` own a storage cell? -/
def baseKind (g : Graph) (v : Nat) : Bool :=
  match getI g v with
  | .input => true
  | .freshbuf => true
  | .unary _ _ => true
  | .binop _ _ => true
  | .proj k c =>
    match getI g c with
    | .mutcand _ _ _ flags _ => !flags.getD k false
    | _ => true
  | _ => false

/-- The allocation block a base value's cell lives in: a projection's cell
belongs to its candidate, every other base owns its cell directly. -/
def ownerOf (g : Graph) (x : Nat) : Nat :=
  match getI g x with
  | .proj _ c => c
  | _ => x

/-- The storage binding every value receives (the closed-form specification
of the interpreter's environment). -/
def envSpec (g : Graph) (v : Nat) : SVal :=
  match getI g v with
  | .mutcand slots _ _ flags _ =>
    .many ((List.range slots.length).map fun i =>
      if flags.getD i false then sidAt g (baseOf g (slots.getD i default).dst)
      else storsBefore g v + i)
  | _ => .one (sidAt g (baseOf g v))

/-- Run the first `q` instructions of a graph. -/
def execPre (IU : Nat → Int → Int) (IB : Int → Int → Int) (g : Graph)
    (q : Nat) (ins : List Int) : ExSt :=
  (g.instrs.take q).foldl (stepI IU IB) ⟨[], [], ins⟩

/-- Replace the instruction at `p` (used to reason uniformly about
`setFlag`/`setClone`, which only swap candidate metadata). -/
def setMut (g : Graph) (p : Nat) (i : Instr) : Graph :=
  ⟨g.instrs.set p i, g.outputs⟩

/-- The in-place writes a candidate performs, separated from its
allocations. -/
def wfold (sid : Slot → Nat) (A : List Int)
    (l : List ((Slot × Int) × Bool)) : List Int :=
  l.foldl (fun st x => if x.2 then st.set (sid x.1.1) x.1.2 else st) A

/-- The scan-state update of a candidate's writes, folded over the same list
the interpreter folds over. -/
def mfoldD (g : Graph) (b : Nat) (j : Option Nat) (ms : Bool × Bool)
    (l : List ((Slot × Int) × Bool)) : Bool × Bool :=
  l.foldl (fun acc x =>
    if x.2 then
      if baseOf g x.1.1.dst = b then (false, true)
      else if some (baseOf g x.1.1.dst) = j then (true, false)
      else acc
    else acc) ms

/-- The store part of the simulation invariant, over bare stores. -/
def storeRel (sb sj : Nat) (A A' : List Int) (ms : Bool × Bool) : Prop :=
  A'.length = A.length ∧
  (∀ s, s ≠ sb → s ≠ sj → A'.getD s 0 = A.getD s 0) ∧
  (ms.1 = true → A'.getD sb 0 = A.getD sj 0) ∧
  (ms.2 = true → A'.getD sb 0 = A.getD sb 0)

/-- Run a whole graph on a list of caller inputs. -/
def execG (IU : Nat → Int → Int) (IB : Int → Int → Int) (g : Graph)
    (ins : List Int) : ExSt :=
  g.instrs.foldl (stepI IU IB) ⟨[], [], ins⟩

/-- The positions of the declared graph inputs. -/
def inputPositions (g : Graph) : List Nat :=
  (List.range g.instrs.length).filter fun v => isInput g v

/-- The externally observable result of a graph: the returned values and the
final contents of the caller-visible input tensors. -/
def obs (IU : Nat → Int → Int) (IB : Int → Int → Int) (g : Graph)
    (ins : List Int) : List Int × List Int :=
  let st := execG IU IB g ins
  (g.outputs.map (readV st), (inputPositions g).map (readV st))

/-- Is `v` a defined, storage-carrying (non-tuple) value reference when used
at position `p`? -/
def okRef (g : Graph) (p v : Nat) : Bool :=
  decide (v < p) &&
  match getI g v with
  | .mutcand _ _ _ _ _ => false
  | _ => true

/-- Well-formedness of the instruction at `p` (references point backwards to
storage-carrying values; projections are unique per slot and in range;
metadata lists have one entry per slot). -/
def wfInstr (g : Graph) (p : Nat) : Bool :=
  match getI g p with
  | .input => true
  | .freshbuf => true
  | .unary _ s => okRef g p s
  | .binop x y => okRef g p x && okRef g p y
  | .view s => okRef g p s
  | .proj k c =>
    decide (c < p) &&
    (match getI g c with
     | .mutcand slots _ _ _ _ => decide (k < slots.length)
     | _ => false) &&
    ((List.range g.instrs.length).all fun q =>
      q == p || !(getI g q == Instr.proj k c))
  | .copyInto d s => okRef g p d && okRef g p s
  | .mutcand slots extra _ flags clones =>
    (flags.length == slots.length) && (clones.length == slots.length) &&
    slots.all (fun sl => okRef g p sl.src && okRef g p sl.dst) &&
    extra.all (okRef g p)

/-- Modelled from the spec (§7): the graphs the pass accepts — no dangling
or forward references, no malformed projections. -/
def WFg (g : Graph) : Bool :=
  ((List.range g.instrs.length).all fun p => wfInstr g p) &&
  g.outputs.all fun o => okRef g g.instrs.length o

/-- The context of a single rewrite step: a well-formed graph with an
undecided candidate slot that the safety scan accepts. -/
structure StepCtx where
  g : Graph
  p : Nat
  k : Nat
  slots : List Slot
  extra : List Nat
  ui : Bool
  flags : List Bool
  clones : List Bool
  hwf : WFg g = true
  hp : getI g p = Instr.mutcand slots extra ui flags clones
  hk : k < slots.length
  hfl : flags.getD k false = false
  hsafe : slotSafe g p k = true

/-- The rewritten graph of a step. -/
def StepCtx.g2 (C : StepCtx) : Graph := setFlag C.g C.p C.k

/-- The mutated argument of the rewritten slot. -/
def StepCtx.dst (C : StepCtx) : Nat := (C.slots.getD C.k default).dst

/-- The base value whose storage the rewritten slot now mutates. -/
def StepCtx.bval (C : StepCtx) : Nat := baseOf C.g C.dst

/-- The cell of the mutated base. -/
def StepCtx.sb (C : StepCtx) : Nat := sidAt C.g C.bval

/-- The (now dummy) cell of the slot's functional result. -/
def StepCtx.sj (C : StepCtx) : Nat := storsBefore C.g C.p + C.k

/-- The value bound to the slot's functional result, if projected. -/
def StepCtx.jopt (C : StepCtx) : Option Nat := findProj C.g C.p C.k

/-- The safety-scan state after processing positions `p+1 .. q-1`. -/
def msAt (C : StepCtx) (q : Nat) : Option (Bool × Bool) :=
  mrun C.g C.bval C.jopt (true, false)
    ((C.g.instrs.drop (C.p + 1)).take (q - (C.p + 1)))

/-- The store-level simulation invariant between the original and the
rewritten graph after `q` instructions, indexed by the safety scan state:
away from the two affected cells the stores agree; when the scan records
"synced" the rewritten base cell holds the original functional result; when
it records "agree" it holds the original base content. -/
def simInv (IU : Nat → Int → Int) (IB : Int → Int → Int) (C : StepCtx)
    (ins : List Int) (q : Nat) (ms : Bool × Bool) : Prop :=
  (execPre IU IB C.g2 q ins).inp = (execPre IU IB C.g q ins).inp ∧
  (∀ s, s ≠ C.sb → s ≠ C.sj →
    (execPre IU IB C.g2 q ins).store.getD s 0 =
      (execPre IU IB C.g q ins).store.getD s 0) ∧
  (ms.1 = true →
    (execPre IU IB C.g2 q ins).store.getD C.sb 0 =
      (execPre IU IB C.g q ins).store.getD C.sj 0) ∧
  (ms.2 = true →
    (execPre IU IB C.g2 q ins).store.getD C.sb 0 =
      (execPre IU IB C.g q ins).store.getD C.sb 0)

/-- Two graphs are observationally equal: same outputs and same final input
contents under every interpretation of the opaque ops and every input. -/
def obsEq (g g' : Graph) : Prop :=
  ∀ (IU : Nat → Int → Int) (IB : Int → Int → Int) (ins : List Int),
    obs IU IB g ins = obs IU IB g' ins

/-- Does an instruction write into the storage of base `b` (a copy whose
destination resolves to `b`, or an already-rewritten candidate slot mutating
`b`)?  This is the notion of "republishing the base" used by the scan. -/
def writesB (g : Graph) (b : Nat) : Instr → Bool
  | .copyInto d _ => baseOf g d == b
  | .mutcand slots _ _ flags _ =>
    (slots.zip flags).any fun sf => sf.2 && (baseOf g sf.1.dst == b)
  | _ => false

/-- Does an instruction read a value whose storage is base `b`? -/
def readsB (g : Graph) (b : Nat) (i : Instr) : Bool :=
  i.readsOf.any fun r => baseOf g r == b

/-- Number of mutation slots of the candidate at `p` (0 for other nodes). -/
def slotsLen (g : Graph) (p : Nat) : Nat :=
  match getI g p with
  | .mutcand slots _ _ _ _ => slots.length
  | _ => 0

/-- Slot `k` of the candidate at `p` has been decided (rewritten in place or
marked clone-only). -/
def slotDecided (g : Graph) (p k : Nat) : Bool := flagged g p k || cloned g p k

/-- Every slot of every candidate in the graph has been decided. -/
def allDecided (g : Graph) : Bool :=
  (List.range g.instrs.length).all fun p =>
    (List.range (slotsLen g p)).all fun k => slotDecided g p k

/-- The metadata lists of the candidate at `p` have one entry per slot. -/
def candOK (g : Graph) (p : Nat) : Prop :=
  match getI g p with
  | .mutcand slots _ _ flags clones =>
    flags.length = slots.length ∧ clones.length = slots.length
  | _ => True

/-- One instruction is a version of another with possibly more decision
metadata set: identical shape, flags and clone marks only ever turn on. -/
def instrMono (i i' : Instr) : Prop :=
  i' = i ∨
  ∃ s e u f c f' c', i = Instr.mutcand s e u f c ∧
    i' = Instr.mutcand s e u f' c' ∧
    f'.length = f.length ∧ c'.length = c.length ∧
    (∀ k, f.getD k false = true → f'.getD k false = true) ∧
    (∀ k, c.getD k false = true → c'.getD k false = true)

/-- One graph is a version of another with possibly more decisions made. -/
def graphMono (g g' : Graph) : Prop :=
  g'.instrs.length = g.instrs.length ∧ g'.outputs = g.outputs ∧
  ∀ q, instrMono (getI g q) (getI g' q)

/-- The mutated argument of slot `k` of the candidate at `p`. -/
def slotDstD (g : Graph) (p k : Nat) : Nat :=
  match getI g p with
  | .mutcand slots _ _ _ _ => (slots.getD k default).dst
  | _ => 0

/-- Is the candidate at `p` an explicit user-requested in-place call? -/
def userInplaceOf (g : Graph) (p : Nat) : Bool :=
  match getI g p with
  | .mutcand _ _ ui _ _ => ui
  | _ => false

/-- A single-slot candidate (`sin(x, out)`-style custom mutating call). -/
def mc1 (op src dst : Nat) (ui : Bool) : Instr :=
  .mutcand [⟨op, src, dst⟩] [] ui [false] [false]

/-- The graph of `test_multiple_mutations`: `sin(x,out); sin(out,out);
sin(out,out); return out` with `out` a graph input, traced functionally (each
step reads the previous step's functional result) with the final copy back
into `out`.  Op code 0 stands for `sin`. -/
def Gchain : Graph :=
  ⟨[.input, .input, mc1 0 0 1 true, .proj 0 2, mc1 0 3 3 true,
    .proj 0 4, mc1 0 5 5 true, .proj 0 6, .copyInto 1 7], [7]⟩

/-- The graph of `test_multiple_intermediate`: the same chain over a local
`out = torch.empty_like(x)`. -/
def GchainLocal : Graph :=
  ⟨[.input, .freshbuf, mc1 0 0 1 true, .proj 0 2, mc1 0 3 3 true,
    .proj 0 4, mc1 0 5 5 true, .proj 0 6], [7]⟩

/-- The graph of `test_multi_output_intermediate`: `sin_cos(x, out1, out2);
return out1, out2, x**2` over two local buffers.  Op codes 0/1/2 stand for
`sin`/`cos`/`square`. -/
def GsinCos : Graph :=
  ⟨[.input, .freshbuf, .freshbuf,
    .mutcand [⟨0, 0, 1⟩, ⟨1, 0, 2⟩] [] true [false, false] [false, false],
    .proj 0 3, .proj 1 3, .unary 2 0], [4, 5, 6]⟩

/-- The graph of `test_view_inplaced2`: mutate `select(arg0)` (a view of the
input), publish the result via `copy_(arg0, getitem)`, and return
`another_view` (a second view of the same base) — read only after the
copy. -/
def GviewAfter : Graph :=
  ⟨[.input, .view 0, .view 0, mc1 0 1 1 false, .proj 0 3,
    .copyInto 0 4], [2]⟩

/-- The graph of `test_views_not_inplaced`: as `GviewAfter`, but
`another_view` is read (`* 10`, op code 3) before the copy is published. -/
def GviewBefore : Graph :=
  ⟨[.input, .view 0, .view 0, mc1 0 1 1 false, .proj 0 3,
    .unary 3 2, .copyInto 0 4], [5]⟩

/-- The graph of `test_counters`: `out = empty_like(x);
auto_functionalized(sin, x, out); y = out * new_out; return new_out, y` —
the mutated buffer `out` is read again after the call. -/
def Gcounters : Graph :=
  ⟨[.input, .freshbuf, mc1 0 0 1 false, .proj 0 2, .binop 1 3], [3, 4]⟩

/-- The graph of `test_dont_modify_input`: `return x.index_put((y,), c)` —
the mutated argument is the graph input itself and the call is not a
user-requested in-place op.  Op code 3 stands for `index_put`; the index
tensor `y` is an extra read. -/
def GdontModifyInput : Graph :=
  ⟨[.input, .input, .mutcand [⟨3, 0, 0⟩] [1] false [false] [false],
    .proj 0 2], [3]⟩

/-- The graph of `test_should_modify_input`: `x.index_put_((y,), c)` — the
user explicitly called the in-place variant, and the tracer publishes the
result back into the input. -/
def GshouldModifyInput : Graph :=
  ⟨[.input, .input, .mutcand [⟨3, 0, 0⟩] [1] true [false] [false],
    .proj 0 2, .copyInto 0 3], [3]⟩

/-- The graph of `test_dont_modify_live`: `x = x.cos(); x2 = x.index_put(..);
return x2, x` — the functional input of the candidate stays live. -/
def GdontModifyLive : Graph :=
  ⟨[.input, .input, .unary 1 0,
    .mutcand [⟨3, 2, 2⟩] [1] false [false] [false], .proj 0 3], [4, 2]⟩

/-- The graph of `test_dont_modify_view_of_live`: the candidate mutates
`alias(x)` while `x` itself is read afterwards (`x.cos()`). -/
def GdontModifyViewOfLive : Graph :=
  ⟨[.input, .input, .unary 1 0, .view 2,
    .mutcand [⟨3, 3, 3⟩] [1] false [false] [false], .proj 0 4, .unary 1 2,
    .binop 5 6], [7]⟩

end Reinplace

namespace TritonHelpers

theorem minimum_eq_selectLow (a b : FVal × Nat) :
    minimum_with_index a b = selectLow fltN a b := rfl

theorem maximum_eq_selectLow (a b : FVal × Nat) :
    maximum_with_index a b = selectLow fgtN a b := rfl

theorem eqN_symm (a b : FVal) : eqN a b = eqN b a := by
  rcases a with _ | x <;> rcases b with _ | y <;>
    simp [eqN, feq, fisnan, eq_comm]

theorem eqN_trans {a b c : FVal} (h1 : eqN a b = true) (h2 : eqN b c = true) :
    eqN a c = true := by
  rcases a with _ | x <;> rcases b with _ | y <;> rcases c with _ | z <;>
    simp_all [eqN, feq, fisnan]

theorem fltN_irrefl (a : FVal) : fltN a a = false := by
  rcases a with _ | x <;> simp [fltN, flt, fisnan]

theorem fltN_total (a b : FVal) : (fltN a b || eqN a b || fltN b a) = true := by
  rcases a with _ | x <;> rcases b with _ | y <;>
    simp [fltN, flt, eqN, feq, fisnan] <;> omega

theorem fltN_trans {a b c : FVal} (h1 : fltN a b = true)
    (h2 : fltN b c = true) : fltN a c = true := by
  rcases a with _ | x <;> rcases b with _ | y <;> rcases c with _ | z <;>
    simp_all [fltN, flt, fisnan] <;> omega

theorem fltN_eqN_trans {a b c : FVal} (h1 : fltN a b = true)
    (h2 : eqN b c = true) : fltN a c = true := by
  rcases a with _ | x <;> rcases b with _ | y <;> rcases c with _ | z <;>
    simp_all [fltN, flt, eqN, feq, fisnan]

theorem eqN_fltN_trans {a b c : FVal} (h1 : eqN a b = true)
    (h2 : fltN b c = true) : fltN a c = true := by
  rcases a with _ | x <;> rcases b with _ | y <;> rcases c with _ | z <;>
    simp_all [fltN, flt, eqN, feq, fisnan]

theorem fgtN_irrefl (a : FVal) : fgtN a a = false := by
  rcases a with _ | x <;> simp [fgtN, fgt, fisnan]

theorem fgtN_total (a b : FVal) : (fgtN a b || eqN a b || fgtN b a) = true := by
  rcases a with _ | x <;> rcases b with _ | y <;>
    simp [fgtN, fgt, eqN, feq, fisnan] <;> omega

theorem fgtN_trans {a b c : FVal} (h1 : fgtN a b = true)
    (h2 : fgtN b c = true) : fgtN a c = true := by
  rcases a with _ | x <;> rcases b with _ | y <;> rcases c with _ | z <;>
    simp_all [fgtN, fgt, fisnan] <;> omega

theorem fgtN_eqN_trans {a b c : FVal} (h1 : fgtN a b = true)
    (h2 : eqN b c = true) : fgtN a c = true := by
  rcases a with _ | x <;> rcases b with _ | y <;> rcases c with _ | z <;>
    simp_all [fgtN, fgt, eqN, feq, fisnan]

theorem eqN_fgtN_trans {a b c : FVal} (h1 : eqN a b = true)
    (h2 : fgtN b c = true) : fgtN a c = true := by
  rcases a with _ | x <;> rcases b with _ | y <;> rcases c with _ | z <;>
    simp_all [fgtN, fgt, eqN, feq, fisnan]

/-- For any ordering with the properties of `fltN`/`fgtN`, reducing a tree
with `selectLow` returns an element of the tree that is extremal and, among
all elements tied with it, carries the least index. -/
theorem reduce_selectLow_spec (ltb : FVal → FVal → Bool)
    (hirr : ∀ a, ltb a a = false)
    (htot : ∀ a b, (ltb a b || eqN a b || ltb b a) = true)
    (htrans : ∀ a b c, ltb a b = true → ltb b c = true → ltb a c = true)
    (hlte : ∀ a b c, ltb a b = true → eqN b c = true → ltb a c = true)
    (helt : ∀ a b c, eqN a b = true → ltb b c = true → ltb a c = true)
    (t : RTree (FVal × Nat)) :
    (t.reduceWith (selectLow ltb)) ∈ t.toList ∧
    (∀ p ∈ t.toList,
      (ltb (t.reduceWith (selectLow ltb)).1 p.1 ||
        eqN (t.reduceWith (selectLow ltb)).1 p.1) = true) ∧
    (∀ p ∈ t.toList, eqN (t.reduceWith (selectLow ltb)).1 p.1 = true →
      (t.reduceWith (selectLow ltb)).2 ≤ p.2) := by
  induction t with
  | leaf a =>
    refine ⟨by simp [RTree.toList, RTree.reduceWith], ?_, ?_⟩
    · intro p hp
      simp only [RTree.toList, List.mem_singleton] at hp
      rw [hp]
      have h := htot a.1 a.1
      rw [hirr a.1] at h
      simp only [Bool.false_or, Bool.or_false] at h
      simp [RTree.reduceWith, h]
    · intro p hp _
      simp only [RTree.toList, List.mem_singleton] at hp
      rw [hp]
      simp [RTree.reduceWith]
  | node l r ihl ihr =>
    obtain ⟨hmeml, hordl, hidxl⟩ := ihl
    obtain ⟨hmemr, hordr, hidxr⟩ := ihr
    set r1 := l.reduceWith (selectLow ltb) with hr1
    set r2 := r.reduceWith (selectLow ltb) with hr2
    have hred : (RTree.node l r).reduceWith (selectLow ltb) =
        selectLow ltb r1 r2 := rfl
    by_cases hmask : (ltb r1.1 r2.1 || (eqN r1.1 r2.1 && decide (r1.2 < r2.2))) = true
    · -- the combiner picks the left result
      have hpick : (RTree.node l r).reduceWith (selectLow ltb) = r1 := by
        rw [hred]; simp [selectLow, hmask]
      rw [hpick]
      refine ⟨by simp [RTree.toList, hmeml], ?_, ?_⟩
      · intro p hp
        simp only [RTree.toList, List.mem_append] at hp
        rcases hp with hp | hp
        · exact hordl p hp
        · -- go through r2
          have h2 := hordr p hp
          rcases Bool.or_eq_true_iff.mp hmask with hlt | heq
          · rcases Bool.or_eq_true_iff.mp h2 with h2' | h2'
            · exact Bool.or_eq_true_iff.mpr (Or.inl (htrans _ _ _ hlt h2'))
            · exact Bool.or_eq_true_iff.mpr (Or.inl (hlte _ _ _ hlt h2'))
          · have heq' := (Bool.and_eq_true_iff.mp heq).1
            rcases Bool.or_eq_true_iff.mp h2 with h2' | h2'
            · exact Bool.or_eq_true_iff.mpr (Or.inl (helt _ _ _ heq' h2'))
            · exact Bool.or_eq_true_iff.mpr (Or.inr (eqN_trans heq' h2'))
      · intro p hp hpe
        simp only [RTree.toList, List.mem_append] at hp
        rcases hp with hp | hp
        · exact hidxl p hp hpe
        · -- tie with an element of the right subtree
          rcases Bool.or_eq_true_iff.mp hmask with hlt | heq
          · -- r1 strictly below r2: but p is tied with r1 and above r2, contra
            exfalso
            have h2 := hordr p hp
            have hpe' : eqN p.1 r1.1 = true := by rw [eqN_symm]; exact hpe
            have hple : ltb p.1 r2.1 = true := helt _ _ _ hpe' hlt
            rcases Bool.or_eq_true_iff.mp h2 with h2' | h2'
            · have : ltb p.1 p.1 = true := htrans _ _ _ hple h2'
              exact absurd this (by simp [hirr])
            · have : ltb p.1 p.1 = true := hlte _ _ _ hple h2'
              exact absurd this (by simp [hirr])
          · obtain ⟨heq', hidx⟩ := Bool.and_eq_true_iff.mp heq
            have hp2 : eqN r2.1 p.1 = true :=
              eqN_trans (by rw [eqN_symm]; exact heq') hpe
            have := hidxr p hp hp2
            have hlt12 : r1.2 < r2.2 := of_decide_eq_true hidx
            omega
    · -- the combiner picks the right result
      have hpick : (RTree.node l r).reduceWith (selectLow ltb) = r2 := by
        rw [hred]; simp only [selectLow]
        rw [if_neg (by simp_all)]
      rw [hpick]
      have hnlt : ltb r1.1 r2.1 = false := by
        rcases h : ltb r1.1 r2.1 with _ | _
        · rfl
        · exfalso; apply hmask; simp [h]
      have hback : (eqN r1.1 r2.1 || ltb r2.1 r1.1) = true := by
        have := htot r1.1 r2.1
        rcases Bool.or_eq_true_iff.mp this with h | h
        · rcases Bool.or_eq_true_iff.mp h with h' | h'
          · rw [h'] at hnlt; exact absurd hnlt (by simp)
          · simp [h']
        · simp [h]
      refine ⟨by simp [RTree.toList, hmemr], ?_, ?_⟩
      · intro p hp
        simp only [RTree.toList, List.mem_append] at hp
        rcases hp with hp | hp
        · have h1 := hordl p hp
          rcases Bool.or_eq_true_iff.mp hback with hbe | hbl
          · rcases Bool.or_eq_true_iff.mp h1 with h1' | h1'
            · exact Bool.or_eq_true_iff.mpr
                (Or.inl (helt _ _ _ (by rw [eqN_symm]; exact hbe) h1'))
            · exact Bool.or_eq_true_iff.mpr
                (Or.inr (eqN_trans (by rw [eqN_symm]; exact hbe) h1'))
          · rcases Bool.or_eq_true_iff.mp h1 with h1' | h1'
            · exact Bool.or_eq_true_iff.mpr (Or.inl (htrans _ _ _ hbl h1'))
            · exact Bool.or_eq_true_iff.mpr (Or.inl (hlte _ _ _ hbl h1'))
        · exact hordr p hp
      · intro p hp hpe
        simp only [RTree.toList, List.mem_append] at hp
        rcases hp with hp | hp
        · -- p in the left subtree tied with r2
          rcases Bool.or_eq_true_iff.mp hback with hbe | hbl
          · -- r1 tied with r2: mask said the index tiebreak chose r2
            have hnidx : ¬ r1.2 < r2.2 := by
              intro hc
              apply hmask
              have : (eqN r1.1 r2.1 && decide (r1.2 < r2.2)) = true := by
                simp [hbe, hc]
              simp [this]
            have hp1 : eqN r1.1 p.1 = true := eqN_trans hbe hpe
            have := hidxl p hp hp1
            omega
          · -- r2 strictly below r1, yet p (left) tied with r2: contra with hordl
            exfalso
            have h1 := hordl p hp
            have hple : ltb r2.1 p.1 = true := by
              rcases Bool.or_eq_true_iff.mp h1 with h1' | h1'
              · exact htrans _ _ _ hbl h1'
              · exact hlte _ _ _ hbl h1'
            have : ltb r2.1 r2.1 = true :=
              hlte _ _ _ hple (by rw [eqN_symm]; exact hpe)
            exact absurd this (by simp [hirr])
        · exact hidxr p hp hpe

theorem minimum_with_index_fun_eq : minimum_with_index = selectLow fltN :=
  funext fun a => funext fun b => minimum_eq_selectLow a b

theorem maximum_with_index_fun_eq : maximum_with_index = selectLow fgtN :=
  funext fun a => funext fun b => maximum_eq_selectLow a b

theorem eqN_fltN_false {a b : FVal} (h : eqN a b = true) : fltN a b = false := by
  rcases a with _ | x <;> rcases b with _ | y <;>
    simp_all [fltN, flt, eqN, feq, fisnan]

theorem eqN_fgtN_false {a b : FVal} (h : eqN a b = true) : fgtN a b = false := by
  rcases a with _ | x <;> rcases b with _ | y <;>
    simp_all [fgtN, fgt, eqN, feq, fisnan]

/-- C9: `minimum_with_index` and `maximum_with_index` break ties
deterministically toward the lowest index: whenever the two values compare
equal — two NaNs counting as equal — the result carries the smaller of the
two indices; consequently the `min_with_index` / `max_with_index` reductions
return an element that is extremal for the NaN-propagating order and whose
index is the lowest among all positions attaining that extremal value. -/
theorem C9_lowest_index_tiebreak :
    (∀ (a : FVal) (ai : Nat) (b : FVal) (bi : Nat), eqN a b = true →
      (minimum_with_index (a, ai) (b, bi)).2 = min ai bi ∧
      (maximum_with_index (a, ai) (b, bi)).2 = min ai bi) ∧
    (∀ t : RTree (FVal × Nat),
      min_with_index t ∈ t.toList ∧
      (∀ p ∈ t.toList,
        (fltN (min_with_index t).1 p.1 || eqN (min_with_index t).1 p.1) = true) ∧
      (∀ p ∈ t.toList, eqN (min_with_index t).1 p.1 = true →
        (min_with_index t).2 ≤ p.2)) ∧
    (∀ t : RTree (FVal × Nat),
      max_with_index t ∈ t.toList ∧
      (∀ p ∈ t.toList,
        (fgtN (max_with_index t).1 p.1 || eqN (max_with_index t).1 p.1) = true) ∧
      (∀ p ∈ t.toList, eqN (max_with_index t).1 p.1 = true →
        (max_with_index t).2 ≤ p.2)) := by
  refine ⟨?_, ?_, ?_⟩
  · intro a ai b bi h
    constructor
    · rw [minimum_eq_selectLow]
      simp only [selectLow, eqN_fltN_false h, h, Bool.false_or, Bool.true_and]
      by_cases hab : ai < bi
      · rw [if_pos (by simpa using hab)]
        show ai = min ai bi
        omega
      · rw [if_neg (by simpa using hab)]
        show bi = min ai bi
        omega
    · rw [maximum_eq_selectLow]
      simp only [selectLow, eqN_fgtN_false h, h, Bool.false_or, Bool.true_and]
      by_cases hab : ai < bi
      · rw [if_pos (by simpa using hab)]
        show ai = min ai bi
        omega
      · rw [if_neg (by simpa using hab)]
        show bi = min ai bi
        omega
  · intro t
    have h := reduce_selectLow_spec fltN fltN_irrefl fltN_total
      (fun _ _ _ => fltN_trans) (fun _ _ _ => fltN_eqN_trans)
      (fun _ _ _ => eqN_fltN_trans) t
    simpa [min_with_index, minimum_with_index_fun_eq] using h
  · intro t
    have h := reduce_selectLow_spec fgtN fgtN_irrefl fgtN_total
      (fun _ _ _ => fgtN_trans) (fun _ _ _ => fgtN_eqN_trans)
      (fun _ _ _ => eqN_fgtN_trans) t
    simpa [max_with_index, maximum_with_index_fun_eq] using h

theorem C9_lowest_index_tiebreak_witness :
    (minimum_with_index (some 5, 4) (some 5, 2)).2 = min 4 2 ∧
    (min_with_index
      (RTree.node (RTree.leaf (none, 3)) (RTree.leaf (none, 1)))).2 ≤ 1 :=
  ⟨(C9_lowest_index_tiebreak.1 (some 5) 4 (some 5) 2 (by decide)).1,
   (C9_lowest_index_tiebreak.2.1
      (RTree.node (RTree.leaf (none, 3)) (RTree.leaf (none, 1)))).2.2
      (none, 1) (by simp [RTree.toList]) (by decide)⟩

/-- C10: `welford_combine` is total even when both weights are zero: the
weight ratio is taken to be `0` whenever the combined weight is `0` (so the
guarded division is never used with a zero divisor), and combining two
zero-weight states returns `(mean_1, m2_1 + m2_2, 0)`, the mean unchanged. -/
theorem C10_welford_combine_total :
    (∀ mean_1 m2_1 weight_1 mean_2 m2_2 weight_2 : ℚ,
      welford_combine mean_1 m2_1 weight_1 mean_2 m2_2 weight_2 =
        (mean_1 + (mean_2 - mean_1) * w2_over_w weight_1 weight_2,
         m2_1 + m2_2 + (mean_2 - mean_1) * (mean_2 - mean_1) * weight_1 *
           w2_over_w weight_1 weight_2,
         weight_1 + weight_2)) ∧
    (∀ w1 w2 : ℚ, w1 + w2 = 0 → w2_over_w w1 w2 = 0) ∧
    (∀ mean_1 m2_1 mean_2 m2_2 : ℚ,
      welford_combine mean_1 m2_1 0 mean_2 m2_2 0 =
        (mean_1, m2_1 + m2_2, 0)) := by
  refine ⟨fun _ _ _ _ _ _ => rfl, ?_, ?_⟩
  · intro w1 w2 h
    simp [w2_over_w, h]
  · intro m1 s1 m2 s2
    simp [welford_combine]

theorem C10_welford_combine_total_witness :
    w2_over_w 0 0 = 0 ∧ welford_combine 1 2 0 3 4 0 = (1, 6, 0) := by
  constructor
  · exact C10_welford_combine_total.2.1 0 0 (by norm_num)
  · have h := C10_welford_combine_total.2.2 1 2 3 4
    rw [h]
    norm_num

end TritonHelpers

namespace Reinplace

/-- C4: for the chained `sin(x,out); sin(out,out); sin(out,out)` graphs (the
buffer a graph input with a final publish copy, and a local buffer), all
three candidates are rewritten to mutate in place, the diagnostic counter is
incremented zero times, and the final buffer holds the triple composition of
the operation applied to the original input — the intermediate chain steps
do not count as conflicting live uses. -/
theorem C4_sequential_fusion :
    ((pass Gchain).2 = 0 ∧
      flagged (pass Gchain).1 2 0 = true ∧
      flagged (pass Gchain).1 4 0 = true ∧
      flagged (pass Gchain).1 6 0 = true ∧
      ∀ (IU : Nat → Int → Int) (IB : Int → Int → Int) (x w : Int),
        obs IU IB (pass Gchain).1 [x, w] =
          ([IU 0 (IU 0 (IU 0 x))], [x, IU 0 (IU 0 (IU 0 x))])) ∧
    ((pass GchainLocal).2 = 0 ∧
      flagged (pass GchainLocal).1 2 0 = true ∧
      flagged (pass GchainLocal).1 4 0 = true ∧
      flagged (pass GchainLocal).1 6 0 = true ∧
      ∀ (IU : Nat → Int → Int) (IB : Int → Int → Int) (x : Int),
        obs IU IB (pass GchainLocal).1 [x] =
          ([IU 0 (IU 0 (IU 0 x))], [x])) :=
  ⟨⟨by decide, by decide, by decide, by decide, fun _ _ _ _ => rfl⟩,
   ⟨by decide, by decide, by decide, by decide, fun _ _ _ => rfl⟩⟩

/-- C5: the two mutated output buffers of the `sin_cos` call are decided and
rewritten independently: both are reinplaced, no clone is required, the
counter stays zero, and the two buffers hold the two distinct results
(op 0 = `sin` applied to x and op 1 = `cos` applied to x). -/
theorem C5_multi_output_isolation :
    (pass GsinCos).2 = 0 ∧
    flagged (pass GsinCos).1 3 0 = true ∧
    flagged (pass GsinCos).1 3 1 = true ∧
    cloneCount (pass GsinCos).1 = 0 ∧
    ∀ (IU : Nat → Int → Int) (IB : Int → Int → Int) (x : Int),
      obs IU IB (pass GsinCos).1 [x] = ([IU 0 x, IU 1 x, IU 2 x], [x]) :=
  ⟨by decide, by decide, by decide, by decide, fun _ _ _ => rfl⟩

/-- C6: mutating a view of a base while a second unrelated view of the same
base exists: if the second view is read only after the publish copy, the
pass requires zero clones; if it is read before the copy, exactly one
argument is marked clone-only. -/
theorem C6_view_precision :
    cloneCount (pass GviewAfter).1 = 0 ∧
    flagged (pass GviewAfter).1 3 0 = true ∧
    cloneCount (pass GviewBefore).1 = 1 ∧
    cloned (pass GviewBefore).1 3 0 = true ∧
    flagged (pass GviewBefore).1 3 0 = false := by
  decide

/-- C7: in the `test_counters` scenario the mutated output buffer is read
again after the call, so the candidate resolves to clone-required through
the liveness/aliasing branch and the diagnostic counter reads exactly 1;
by contrast the graph-input protection branch (`test_dont_modify_input`)
marks a clone without touching the counter. -/
theorem C7_counter_exactness :
    (pass Gcounters).2 = 1 ∧
    cloned (pass Gcounters).1 2 0 = true ∧
    flagged (pass Gcounters).1 2 0 = false ∧
    cloneCount (pass Gcounters).1 = 1 ∧
    (pass GdontModifyInput).2 = 0 ∧
    cloned (pass GdontModifyInput).1 2 0 = true ∧
    flagged (pass GdontModifyInput).1 2 0 = false := by
  decide

end Reinplace

namespace Reinplace

theorem getD_set_eq' {α : Type} (l : List α) (k : Nat) (a d : α)
    (h : k < l.length) : (l.set k a).getD k d = a := by
  simp [List.getD_eq_getElem?_getD, List.getElem?_set_self',
    List.getElem?_eq_getElem h]

theorem getD_set_ne' {α : Type} (l : List α) (k k' : Nat) (a d : α)
    (h : k ≠ k') : (l.set k a).getD k' d = l.getD k' d := by
  simp [List.getD_eq_getElem?_getD, List.getElem?_set_ne h]

theorem getD_set_mono {l : List Bool} {k k' : Nat}
    (h : l.getD k' false = true) : (l.set k true).getD k' false = true := by
  by_cases hk : k = k'
  · subst hk
    by_cases hl : k < l.length
    · rw [getD_set_eq' _ _ _ _ hl]
    · rw [List.set_eq_of_length_le (by omega)]; exact h
  · rw [getD_set_ne' _ _ _ _ _ hk]; exact h

theorem getI_set_ne {g : Graph} {p q : Nat} {i : Instr} (h : q ≠ p) :
    getI ⟨g.instrs.set p i, g.outputs⟩ q = getI g q := by
  simp only [getI]
  exact getD_set_ne' _ _ _ _ _ fun hpq => h hpq.symm

theorem getI_set_self {g : Graph} {p : Nat} {i : Instr}
    (h : p < g.instrs.length) : getI ⟨g.instrs.set p i, g.outputs⟩ p = i := by
  simp only [getI]
  exact getD_set_eq' _ _ _ _ h

theorem setFlag_instrs (g : Graph) (p k : Nat) :
    setFlag g p k = ⟨g.instrs.set p
      (match getI g p with
       | .mutcand slots extra ui flags clones =>
         Instr.mutcand slots extra ui (flags.set k true) clones
       | i => i), g.outputs⟩ := rfl

theorem setClone_instrs (g : Graph) (p k : Nat) :
    setClone g p k = ⟨g.instrs.set p
      (match getI g p with
       | .mutcand slots extra ui flags clones =>
         Instr.mutcand slots extra ui flags (clones.set k true)
       | i => i), g.outputs⟩ := rfl

theorem getI_out_of_range {g : Graph} {p : Nat} (h : ¬ p < g.instrs.length) :
    getI g p = .freshbuf := by
  simp only [getI]
  rw [List.getD_eq_default]
  omega

theorem setFlag_noop {g : Graph} {p k : Nat} (h : ¬ p < g.instrs.length) :
    setFlag g p k = g := by
  rw [setFlag_instrs, List.set_eq_of_length_le (by omega)]

theorem setClone_noop {g : Graph} {p k : Nat} (h : ¬ p < g.instrs.length) :
    setClone g p k = g := by
  rw [setClone_instrs, List.set_eq_of_length_le (by omega)]

theorem getI_setFlag_self (g : Graph) (p k : Nat) :
    getI (setFlag g p k) p =
      match getI g p with
      | .mutcand slots extra ui flags clones =>
        Instr.mutcand slots extra ui (flags.set k true) clones
      | i => i := by
  by_cases h : p < g.instrs.length
  · rw [setFlag_instrs]
    exact getI_set_self h
  · rw [setFlag_noop h, getI_out_of_range h]

theorem getI_setClone_self (g : Graph) (p k : Nat) :
    getI (setClone g p k) p =
      match getI g p with
      | .mutcand slots extra ui flags clones =>
        Instr.mutcand slots extra ui flags (clones.set k true)
      | i => i := by
  by_cases h : p < g.instrs.length
  · rw [setClone_instrs]
    exact getI_set_self h
  · rw [setClone_noop h, getI_out_of_range h]

theorem instrMono_refl (i : Instr) : instrMono i i := Or.inl rfl

theorem instrMono_trans {a b c : Instr} (h1 : instrMono a b)
    (h2 : instrMono b c) : instrMono a c := by
  rcases h2 with rfl | ⟨s, e, u, f, cl, f', cl', hb, hc, hlf, hlc, hmf, hmc⟩
  · exact h1
  · rcases h1 with rfl | ⟨s0, e0, u0, f0, cl0, f1, cl1, ha, hb', hlf', hlc',
      hmf', hmc'⟩
    · exact Or.inr ⟨s, e, u, f, cl, f', cl', hb, hc, hlf, hlc, hmf, hmc⟩
    · rw [hb'] at hb
      obtain ⟨hs, he, hu, hf, hcl⟩ := Instr.mutcand.inj hb
      subst hs he hu hf hcl
      exact Or.inr ⟨s0, e0, u0, f0, cl0, f', cl', ha, hc,
        hlf.trans hlf', hlc.trans hlc',
        fun k hk => hmf k (hmf' k hk), fun k hk => hmc k (hmc' k hk)⟩

theorem graphMono_refl (g : Graph) : graphMono g g :=
  ⟨rfl, rfl, fun _ => instrMono_refl _⟩

theorem graphMono_trans {a b c : Graph} (h1 : graphMono a b)
    (h2 : graphMono b c) : graphMono a c :=
  ⟨h2.1.trans h1.1, h2.2.1.trans h1.2.1,
   fun q => instrMono_trans (h1.2.2 q) (h2.2.2 q)⟩

theorem graphMono_setFlag (g : Graph) (p k : Nat) :
    graphMono g (setFlag g p k) := by
  refine ⟨by simp [setFlag_instrs], by simp [setFlag_instrs], fun q => ?_⟩
  by_cases h : q = p
  · subst h
    rw [getI_setFlag_self]
    cases hi : getI g q with
    | mutcand s e u f c =>
      exact Or.inr ⟨s, e, u, f, c, f.set k true, c, rfl, rfl,
        List.length_set .., rfl, fun _ hk => getD_set_mono hk, fun _ hk => hk⟩
    | _ => exact Or.inl rfl
  · rw [setFlag_instrs, getI_set_ne h]
    exact instrMono_refl _

theorem graphMono_setClone (g : Graph) (p k : Nat) :
    graphMono g (setClone g p k) := by
  refine ⟨by simp [setClone_instrs], by simp [setClone_instrs], fun q => ?_⟩
  by_cases h : q = p
  · subst h
    rw [getI_setClone_self]
    cases hi : getI g q with
    | mutcand s e u f c =>
      exact Or.inr ⟨s, e, u, f, c, f, c.set k true, rfl, rfl, rfl,
        List.length_set .., fun _ hk => hk, fun _ hk => getD_set_mono hk⟩
    | _ => exact Or.inl rfl
  · rw [setClone_instrs, getI_set_ne h]
    exact instrMono_refl _

theorem slotDecided_mono {g g' : Graph} (h : graphMono g g') {p k : Nat}
    (hd : slotDecided g p k = true) : slotDecided g' p k = true := by
  rcases h.2.2 p with heq | ⟨s, e, u, f, c, f', c', ha, hb, _, _, hmf, hmc⟩
  · simpa only [slotDecided, flagged, cloned, heq] using hd
  · simp only [slotDecided, flagged, cloned, ha, Bool.or_eq_true] at hd
    simp only [slotDecided, flagged, cloned, hb, Bool.or_eq_true]
    rcases hd with hd | hd
    · exact Or.inl (hmf _ hd)
    · exact Or.inr (hmc _ hd)

theorem slotsLen_mono {g g' : Graph} (h : graphMono g g') (p : Nat) :
    slotsLen g' p = slotsLen g p := by
  rcases h.2.2 p with heq | ⟨s, e, u, f, c, f', c', ha, hb, _, _, _, _⟩
  · simp only [slotsLen, heq]
  · simp only [slotsLen, ha, hb]

theorem candOK_mono {g g' : Graph} (h : graphMono g g') {p : Nat}
    (hc : candOK g p) : candOK g' p := by
  rcases h.2.2 p with heq | ⟨s, e, u, f, c, f', c', ha, hb, hlf, hlc, _, _⟩
  · simpa only [candOK, heq] using hc
  · simp only [candOK, ha] at hc
    simp only [candOK, hb]
    exact ⟨hlf.trans hc.1, hlc.trans hc.2⟩

theorem decideSlot_mono (st : Graph × Nat) (p k : Nat) :
    graphMono st.1 (decideSlot st p k).1 := by
  simp only [decideSlot]
  split
  · split
    · exact graphMono_refl _
    · split
      · exact graphMono_refl _
      · split
        · exact graphMono_setClone _ _ _
        · split
          · exact graphMono_setFlag _ _ _
          · exact graphMono_setClone _ _ _
  · exact graphMono_refl _

theorem decideSlot_of_decided {st : Graph × Nat} {p k : Nat}
    (h : slotDecided st.1 p k = true) : decideSlot st p k = st := by
  simp only [decideSlot]
  split
  next slots extra ui flags clones heq =>
    simp only [slotDecided, flagged, cloned, heq, Bool.or_eq_true] at h
    split
    · rfl
    · split
      · rfl
      · rcases h with h | h <;> simp_all
  next => rfl

theorem decideSlot_decides {st : Graph × Nat} {p k : Nat}
    (hc : candOK st.1 p) (hk : k < slotsLen st.1 p) :
    slotDecided (decideSlot st p k).1 p k = true := by
  simp only [decideSlot]
  split
  next slots extra ui flags clones heq =>
    simp only [candOK, heq] at hc
    simp only [slotsLen, heq] at hk
    split
    next h1 =>
      rw [List.getD_eq_getElem?_getD] at h1
      simp [slotDecided, flagged, heq, h1]
    next h1 =>
      split
      next h2 =>
        rw [List.getD_eq_getElem?_getD] at h2
        simp [slotDecided, cloned, heq, h2]
      next h2 =>
        split
        · simp only [slotDecided, cloned, getI_setClone_self, heq,
            Bool.or_eq_true]
          rw [getD_set_eq' _ _ _ _ (by omega)]
          simp
        · split
          · simp only [slotDecided, flagged, getI_setFlag_self, heq,
              Bool.or_eq_true]
            rw [getD_set_eq' _ _ _ _ (by omega)]
            simp
          · simp only [slotDecided, cloned, getI_setClone_self, heq,
              Bool.or_eq_true]
            rw [getD_set_eq' _ _ _ _ (by omega)]
            simp
  next heq =>
    simp only [slotsLen, heq] at hk
    cases (getI st.1 p) <;> omega

theorem foldl_decideSlot_mono (p : Nat) (ks : List Nat) (st : Graph × Nat) :
    graphMono st.1 ((ks.foldl (fun acc k => decideSlot acc p k) st).1) := by
  induction ks generalizing st with
  | nil => exact graphMono_refl _
  | cons k0 ks ih =>
    exact graphMono_trans (decideSlot_mono st p k0) (ih _)

theorem foldl_decideSlot_decides (p : Nat) (ks : List Nat) (st : Graph × Nat)
    (hc : candOK st.1 p) (hks : ∀ k ∈ ks, k < slotsLen st.1 p) :
    ∀ k ∈ ks,
      slotDecided ((ks.foldl (fun acc k => decideSlot acc p k) st).1) p k =
        true := by
  induction ks generalizing st with
  | nil => intro k hk; cases hk
  | cons k0 ks ih =>
    intro k hk
    simp only [List.foldl_cons]
    have hmono := decideSlot_mono st p k0
    rcases List.mem_cons.mp hk with rfl | hk'
    · have hd := decideSlot_decides hc (hks k (by simp))
      exact slotDecided_mono (foldl_decideSlot_mono p ks _) hd
    · refine ih _ (candOK_mono hmono hc) ?_ k hk'
      intro k1 hk1
      rw [slotsLen_mono hmono]
      exact hks k1 (by simp [hk1])

theorem decideCand_mono (st : Graph × Nat) (p : Nat) :
    graphMono st.1 (decideCand st p).1 := by
  simp only [decideCand]
  split
  · exact foldl_decideSlot_mono _ _ _
  · exact graphMono_refl _

theorem slotsLen_out_of_range {g : Graph} {p : Nat}
    (h : ¬ p < g.instrs.length) : slotsLen g p = 0 := by
  simp only [slotsLen, getI_out_of_range h]

theorem decideCand_decides (st : Graph × Nat) (p : Nat) (hc : candOK st.1 p) :
    ∀ k, k < slotsLen st.1 p → slotDecided (decideCand st p).1 p k = true := by
  intro k hk
  simp only [decideCand]
  split
  next slots extra ui flags clones heq =>
    refine foldl_decideSlot_decides p (List.range slots.length) st hc ?_ k ?_
    · intro k' hk'
      simp only [slotsLen, heq]
      exact List.mem_range.mp hk'
    · simp only [slotsLen, heq] at hk
      exact List.mem_range.mpr hk
  next hne =>
    exfalso
    have h0 : slotsLen st.1 p = 0 := by
      simp only [slotsLen]
    omega

theorem foldl_decideCand_mono (ps : List Nat) (st : Graph × Nat) :
    graphMono st.1 ((ps.foldl decideCand st).1) := by
  induction ps generalizing st with
  | nil => exact graphMono_refl _
  | cons p0 ps ih => exact graphMono_trans (decideCand_mono st p0) (ih _)

theorem foldl_decideCand_decides (ps : List Nat) (st : Graph × Nat)
    (hcand : ∀ p, candOK st.1 p)
    (hprev : ∀ p k, p ∉ ps → k < slotsLen st.1 p →
      slotDecided st.1 p k = true) :
    ∀ p k, k < slotsLen ((ps.foldl decideCand st).1) p →
      slotDecided ((ps.foldl decideCand st).1) p k = true := by
  induction ps generalizing st with
  | nil =>
    intro p k hk
    exact hprev p k (by simp) hk
  | cons p0 ps ih =>
    simp only [List.foldl_cons]
    apply ih
    · intro p
      exact candOK_mono (decideCand_mono st p0) (hcand p)
    · intro p k hp hk
      by_cases hpp : p = p0
      · subst hpp
        rw [slotsLen_mono (decideCand_mono st p)] at hk
        exact decideCand_decides st p (hcand p) k hk
      · have hq : p ∉ p0 :: ps := by
          simp only [List.mem_cons, not_or]
          exact ⟨hpp, hp⟩
        rw [slotsLen_mono (decideCand_mono st p0)] at hk
        exact slotDecided_mono (decideCand_mono st p0) (hprev p k hq hk)

theorem candOK_of_WF {g : Graph} (h : WFg g = true) (p : Nat) : candOK g p := by
  by_cases hp : p < g.instrs.length
  · have hw : ((List.range g.instrs.length).all fun p => wfInstr g p) = true := by
      have h' := h
      simp only [WFg, Bool.and_eq_true] at h'
      exact h'.1
    have h1 := List.all_eq_true.mp hw p (List.mem_range.mpr hp)
    simp only [candOK]
    split
    next slots extra ui flags clones heq =>
      simp only [wfInstr, heq, Bool.and_eq_true, beq_iff_eq] at h1
      exact ⟨h1.1.1.1, h1.1.1.2⟩
    next => trivial
  · simp only [candOK, getI_out_of_range hp]

theorem pass_allDecided {g : Graph} (hc : ∀ p, candOK g p) :
    allDecided (pass g).1 = true := by
  simp only [allDecided, List.all_eq_true]
  intro p hp k hk
  refine foldl_decideCand_decides (List.range g.instrs.length) (g, 0) hc
    ?_ p k (List.mem_range.mp hk)
  intro p' k' hp' hk'
  exfalso
  have : ¬ p' < g.instrs.length := fun hlt => hp' (List.mem_range.mpr hlt)
  rw [slotsLen_out_of_range this] at hk'
  omega

theorem pass_of_allDecided {g : Graph} (h : allDecided g = true) :
    pass g = (g, 0) := by
  have hid : ∀ p, decideCand (g, 0) p = (g, 0) := by
    intro p
    simp only [decideCand]
    split
    next slots extra ui flags clones heq =>
      have hp : p < g.instrs.length := by
        by_contra hc
        rw [getI_out_of_range hc] at heq
        cases heq
      have hdec : ∀ k, k < slots.length → slotDecided g p k = true := by
        intro k hk
        have := List.all_eq_true.mp h p (List.mem_range.mpr hp)
        refine List.all_eq_true.mp this k (List.mem_range.mpr ?_)
        simpa only [slotsLen, heq] using hk
      have : ∀ ks : List Nat, (∀ k ∈ ks, k < slots.length) →
          ks.foldl (fun acc k => decideSlot acc p k)
            ((g, 0) : Graph × Nat) = (g, 0) := by
        intro ks
        induction ks with
        | nil => intro _; rfl
        | cons k0 ks ih =>
          intro hks
          simp only [List.foldl_cons]
          rw [decideSlot_of_decided (hdec k0 (hks k0 (by simp)))]
          exact ih fun k hk => hks k (by simp [hk])
      exact this _ fun k hk => List.mem_range.mp hk
    next => rfl
  have hall : ∀ ps : List Nat,
      ps.foldl decideCand ((g, 0) : Graph × Nat) = (g, 0) := by
    intro ps
    induction ps with
    | nil => rfl
    | cons p0 ps ih =>
      simp only [List.foldl_cons]
      rw [hid p0]
      exact ih
  exact hall _

/-- C8: the pass is idempotent — on a well-formed graph a second run leaves
the rewritten graph unchanged and triggers no further rewrites and no
further diagnostic-counter increments. -/
theorem C8_pass_idempotent {g : Graph} (h : WFg g = true) :
    pass (pass g).1 = ((pass g).1, 0) :=
  pass_of_allDecided (pass_allDecided (candOK_of_WF h))

theorem C8_pass_idempotent_witness :
    WFg Gcounters = true ∧
    pass (pass Gcounters).1 = ((pass Gcounters).1, 0) :=
  ⟨by decide, C8_pass_idempotent (by decide)⟩

theorem isInput_mono {g g' : Graph} (h : graphMono g g') (v : Nat) :
    isInput g' v = isInput g v := by
  rcases h.2.2 v with heq | ⟨s, e, u, f, c, f', c', ha, hb, _, _, _, _⟩
  · simp only [isInput, heq]
  · simp only [isInput, ha, hb]

theorem slotDstD_mono {g g' : Graph} (h : graphMono g g') (p k : Nat) :
    slotDstD g' p k = slotDstD g p k := by
  rcases h.2.2 p with heq | ⟨s, e, u, f, c, f', c', ha, hb, _, _, _, _⟩
  · simp only [slotDstD, heq]
  · simp only [slotDstD, ha, hb]

theorem userInplaceOf_mono {g g' : Graph} (h : graphMono g g') (p : Nat) :
    userInplaceOf g' p = userInplaceOf g p := by
  rcases h.2.2 p with heq | ⟨s, e, u, f, c, f', c', ha, hb, _, _, _, _⟩
  · simp only [userInplaceOf, heq]
  · simp only [userInplaceOf, ha, hb]

theorem resolveF_mono {g g' : Graph} (h : graphMono g g') :
    ∀ (fuel v : Nat), isInput g (resolveF g fuel v) = true →
      resolveF g' fuel v = resolveF g fuel v := by
  intro fuel
  induction fuel with
  | zero => intro v _; rfl
  | succ n ih =>
    intro v hv
    cases hi : getI g v
    case proj k cand =>
      have heq : getI g' v = Instr.proj k cand := by
        rcases h.2.2 v with heq | ⟨s, e, u, f, c, f', c', ha, hb, _, _, _, _⟩
        · rw [heq, hi]
        · rw [hi] at ha; simp at ha
      have hR : resolveF g (n + 1) v =
          (match getI g cand with
           | Instr.mutcand slots _ _ flags _ =>
             if flags.getD k false then
               resolveF g n (slots.getD k default).dst
             else v
           | _ => v) := by
        simp only [resolveF, hi]
      have hL : resolveF g' (n + 1) v =
          (match getI g' cand with
           | Instr.mutcand slots _ _ flags _ =>
             if flags.getD k false then
               resolveF g' n (slots.getD k default).dst
             else v
           | _ => v) := by
        simp only [resolveF, heq]
      rw [hR] at hv
      rw [hL, hR]
      rcases h.2.2 cand with heq2 | ⟨s2, e2, u2, f2, c2, f2', c2', ha2, hb2,
        _, _, hmf2, _⟩
      · rw [heq2]
        cases hc : getI g cand
        case mutcand slots ex ui fl cl =>
          rw [hc] at hv
          have hv' : isInput g
              (if fl.getD k false = true then
                resolveF g n (slots.getD k default).dst
              else v) = true := hv
          show (if fl.getD k false = true then
              resolveF g' n (slots.getD k default).dst
            else v) =
            (if fl.getD k false = true then
              resolveF g n (slots.getD k default).dst
            else v)
          by_cases hfl : fl.getD k false = true
          · rw [if_pos hfl, if_pos hfl]
            rw [if_pos hfl] at hv'
            exact ih _ hv'
          · rw [if_neg hfl, if_neg hfl]
        all_goals rfl
      · rw [ha2] at hv
        rw [ha2, hb2]
        have hv' : isInput g
            (if f2.getD k false = true then
              resolveF g n ((s2.getD k default).dst)
            else v) = true := hv
        show (if f2'.getD k false = true then
            resolveF g' n ((s2.getD k default).dst)
          else v) =
          (if f2.getD k false = true then
            resolveF g n ((s2.getD k default).dst)
          else v)
        by_cases hfl : f2.getD k false = true
        · rw [if_pos (hmf2 _ hfl), if_pos hfl]
          rw [if_pos hfl] at hv'
          exact ih _ hv'
        · exfalso
          rw [if_neg hfl] at hv'
          simp only [isInput, hi] at hv'
          exact Bool.noConfusion hv'
    all_goals {
      have hleft : resolveF g' (n + 1) v = v := by
        rcases h.2.2 v with heq | ⟨s, e, u, f, c, f', c', ha, hb, _, _, _, _⟩
        · simp only [resolveF, heq, hi]
        · simp only [resolveF, hb]
      rw [hleft]
      simp only [resolveF, hi]
    }

theorem resolveV_mono {g g' : Graph} (h : graphMono g g') (v : Nat)
    (hv : isInput g (resolveV g v) = true) : resolveV g' v = resolveV g v := by
  simp only [resolveV]
  rw [h.1]
  exact resolveF_mono h _ v hv

theorem flagged_setClone (g : Graph) (p' k' p k : Nat) :
    flagged (setClone g p' k') p k = flagged g p k := by
  by_cases hp : p = p'
  · subst hp
    simp only [flagged, getI_setClone_self]
    cases hi : getI g p <;> simp only [hi]
  · simp only [flagged, setClone_instrs, getI_set_ne hp]

theorem flagged_setFlag_other (g : Graph) (p' k' p k : Nat)
    (h : ¬ (p = p' ∧ k = k')) :
    flagged (setFlag g p' k') p k = flagged g p k := by
  by_cases hp : p = p'
  · subst hp
    have hk : k ≠ k' := fun hkk => h ⟨rfl, hkk⟩
    simp only [flagged, getI_setFlag_self]
    cases hi : getI g p <;> simp only [hi]
    exact getD_set_ne' _ _ _ _ _ fun hkk => hk hkk.symm
  · simp only [flagged, setFlag_instrs, getI_set_ne hp]

theorem flagged_decideSlot_other (st : Graph × Nat) (p' k' p k : Nat)
    (h : ¬ (p = p' ∧ k = k')) :
    flagged (decideSlot st p' k').1 p k = flagged st.1 p k := by
  simp only [decideSlot]
  split
  · split
    · rfl
    · split
      · rfl
      · split
        · exact flagged_setClone _ _ _ _ _
        · split
          · exact flagged_setFlag_other _ _ _ _ _ h
          · exact flagged_setClone _ _ _ _ _
  · rfl

theorem decideSlot_no_flag_input {g : Graph} {st : Graph × Nat} {p k : Nat}
    (hmono : graphMono g st.1)
    (hin : isInput g (resolveV g (slotDstD g p k)) = true)
    (hui : userInplaceOf g p = false) :
    flagged (decideSlot st p k).1 p k = flagged st.1 p k := by
  simp only [decideSlot]
  split
  next slots extra ui flags clones heq =>
    split
    · rfl
    · split
      · rfl
      · have hdst : (slots.getD k default).dst = slotDstD g p k := by
          have := slotDstD_mono hmono p k
          simp only [slotDstD, heq] at this
          exact this
        have hguard :
            isInput st.1 (resolveV st.1 (slots.getD k default).dst) = true ∧
              ui = false := by
          constructor
          · rw [hdst, resolveV_mono hmono _ hin, isInput_mono hmono]
            exact hin
          · have := userInplaceOf_mono hmono p
            simp only [userInplaceOf, heq] at this
            rw [this]
            exact hui
        have hcond : (isInput st.1
            (resolveV st.1 (slots.getD k default).dst) && !ui) = true := by
          rw [hguard.1, hguard.2]
          rfl
        rw [if_pos hcond]
        exact flagged_setClone _ _ _ _ _
  next => rfl

theorem foldl_decideSlot_no_flag {g : Graph} {p k : Nat}
    (hin : isInput g (resolveV g (slotDstD g p k)) = true)
    (hui : userInplaceOf g p = false) :
    ∀ (ks : List Nat) (st : Graph × Nat) (p' : Nat), graphMono g st.1 →
      flagged ((ks.foldl (fun acc k' => decideSlot acc p' k') st).1) p k =
        flagged st.1 p k := by
  intro ks
  induction ks with
  | nil => intro st p' _; rfl
  | cons k0 ks ih =>
    intro st p' hmono
    simp only [List.foldl_cons]
    rw [ih _ p' (graphMono_trans hmono (decideSlot_mono st p' k0))]
    by_cases hpk : p = p' ∧ k = k0
    · obtain ⟨rfl, rfl⟩ := hpk
      exact decideSlot_no_flag_input hmono hin hui
    · exact flagged_decideSlot_other st p' k0 p k hpk

theorem foldl_decideCand_no_flag {g : Graph} {p k : Nat}
    (hin : isInput g (resolveV g (slotDstD g p k)) = true)
    (hui : userInplaceOf g p = false) :
    ∀ (ps : List Nat) (st : Graph × Nat), graphMono g st.1 →
      flagged ((ps.foldl decideCand st).1) p k = flagged st.1 p k := by
  intro ps
  induction ps with
  | nil => intro st _; rfl
  | cons p0 ps ih =>
    intro st hmono
    simp only [List.foldl_cons]
    rw [ih _ (graphMono_trans hmono (decideCand_mono st p0))]
    simp only [decideCand]
    split
    · exact foldl_decideSlot_no_flag hin hui _ st p0 hmono
    · rfl

/-- C2: a candidate slot whose mutated argument is a declared graph input is
never rewritten to mutate in place unless the call is an explicit
user-requested in-place op — and for such an explicit call (the
`index_put_` test) mutating the input is permitted and performed, with the
observable behaviour preserved. -/
theorem C2_input_protection :
    (∀ (g : Graph) (p k : Nat),
      isInput g (resolveV g (slotDstD g p k)) = true →
      userInplaceOf g p = false →
      flagged (pass g).1 p k = flagged g p k) ∧
    (isInput GshouldModifyInput
        (resolveV GshouldModifyInput (slotDstD GshouldModifyInput 2 0)) =
        true ∧
      userInplaceOf GshouldModifyInput 2 = true ∧
      flagged (pass GshouldModifyInput).1 2 0 = true ∧
      ∀ (IU : Nat → Int → Int) (IB : Int → Int → Int) (x y : Int),
        obs IU IB (pass GshouldModifyInput).1 [x, y] =
          ([IU 3 x], [IU 3 x, y])) := by
  constructor
  · intro g p k hin hui
    exact foldl_decideCand_no_flag hin hui _ (g, 0) (graphMono_refl g)
  · exact ⟨by decide, by decide, by decide, fun _ _ _ _ => rfl⟩

theorem C2_input_protection_witness :
    flagged (pass GdontModifyInput).1 2 0 = flagged GdontModifyInput 2 0 :=
  C2_input_protection.1 GdontModifyInput 2 0 (by decide) (by decide)

theorem wfI {g : Graph} (h : WFg g = true) {p : Nat}
    (hp : p < g.instrs.length) : wfInstr g p = true := by
  have h' := h
  simp only [WFg, Bool.and_eq_true] at h'
  exact List.all_eq_true.mp h'.1 p (List.mem_range.mpr hp)

theorem wfOut {g : Graph} (h : WFg g = true) {o : Nat} (ho : o ∈ g.outputs) :
    okRef g g.instrs.length o = true := by
  have h' := h
  simp only [WFg, Bool.and_eq_true] at h'
  exact List.all_eq_true.mp h'.2 o ho

theorem okRef_lt {g : Graph} {p v : Nat} (h : okRef g p v = true) : v < p := by
  simp only [okRef, Bool.and_eq_true, decide_eq_true_eq] at h
  exact h.1

theorem okRef_not_mutcand {g : Graph} {p v : Nat} (h : okRef g p v = true) :
    ∀ s e u f c, getI g v ≠ Instr.mutcand s e u f c := by
  intro s e u f c hv
  simp [okRef, hv] at h

theorem okRef_le {g : Graph} {p p' v : Nat} (h : okRef g p v = true)
    (hp : p ≤ p') : okRef g p' v = true := by
  simp only [okRef, Bool.and_eq_true, decide_eq_true_eq] at h ⊢
  exact ⟨by omega, h.2⟩

theorem lt_len_of_getI {g : Graph} {v : Nat} {i : Instr} (h : getI g v = i)
    (hne : i ≠ Instr.freshbuf) : v < g.instrs.length := by
  by_contra hc
  rw [getI_out_of_range hc] at h
  exact hne h.symm

theorem wf_view {g : Graph} (hwf : WFg g = true) {v s : Nat}
    (h : getI g v = .view s) : okRef g v s = true := by
  have hv : v < g.instrs.length := lt_len_of_getI h (by simp)
  have hw := wfI hwf hv
  simp only [wfInstr, h] at hw
  exact hw

theorem wf_unary {g : Graph} (hwf : WFg g = true) {v o s : Nat}
    (h : getI g v = .unary o s) : okRef g v s = true := by
  have hv : v < g.instrs.length := lt_len_of_getI h (by simp)
  have hw := wfI hwf hv
  simp only [wfInstr, h] at hw
  exact hw

theorem wf_binop {g : Graph} (hwf : WFg g = true) {v x y : Nat}
    (h : getI g v = .binop x y) :
    okRef g v x = true ∧ okRef g v y = true := by
  have hv : v < g.instrs.length := lt_len_of_getI h (by simp)
  have hw := wfI hwf hv
  simp only [wfInstr, h, Bool.and_eq_true] at hw
  exact hw

theorem wf_copy {g : Graph} (hwf : WFg g = true) {v d s : Nat}
    (h : getI g v = .copyInto d s) :
    okRef g v d = true ∧ okRef g v s = true := by
  have hv : v < g.instrs.length := lt_len_of_getI h (by simp)
  have hw := wfI hwf hv
  simp only [wfInstr, h, Bool.and_eq_true] at hw
  exact hw

theorem wf_mutcand {g : Graph} (hwf : WFg g = true) {p : Nat}
    {slots : List Slot} {e : List Nat} {u : Bool} {f cl : List Bool}
    (h : getI g p = Instr.mutcand slots e u f cl) :
    f.length = slots.length ∧ cl.length = slots.length ∧
    (∀ sl ∈ slots, okRef g p sl.src = true ∧ okRef g p sl.dst = true) ∧
    (∀ x ∈ e, okRef g p x = true) := by
  have hv : p < g.instrs.length := lt_len_of_getI h (by simp)
  have hw := wfI hwf hv
  simp only [wfInstr, h, Bool.and_eq_true, beq_iff_eq, List.all_eq_true]
    at hw
  refine ⟨hw.1.1.1, hw.1.1.2, fun sl hsl => ?_, fun x hx => hw.2 x hx⟩
  have := hw.1.2 sl hsl
  simpa [Bool.and_eq_true] using this

theorem wf_proj {g : Graph} (hwf : WFg g = true) {v k c : Nat}
    (h : getI g v = Instr.proj k c) :
    c < v ∧
    (∃ slots e u f cl, getI g c = Instr.mutcand slots e u f cl ∧
      k < slots.length) ∧
    ∀ q, q ≠ v → getI g q ≠ Instr.proj k c := by
  have hv : v < g.instrs.length := lt_len_of_getI h (by simp)
  have hw := wfI hwf hv
  simp only [wfInstr, h, Bool.and_eq_true, decide_eq_true_eq] at hw
  obtain ⟨⟨h1, h2⟩, h3⟩ := hw
  refine ⟨h1, ?_, ?_⟩
  · cases hc : getI g c
    case mutcand slots e u f cl =>
      rw [hc] at h2
      simp only [decide_eq_true_eq] at h2
      exact ⟨slots, e, u, f, cl, rfl, h2⟩
    all_goals (rw [hc] at h2; exact Bool.noConfusion h2)
  · intro q hq hcon
    by_cases hql : q < g.instrs.length
    · have := List.all_eq_true.mp h3 q (List.mem_range.mpr hql)
      simp only [Bool.or_eq_true, beq_iff_eq, Bool.not_eq_true',
        beq_eq_false_iff_ne] at this
      rcases this with hh | hh
      · exact hq hh
      · exact hh hcon
    · rw [getI_out_of_range hql] at hcon
      exact Instr.noConfusion hcon

theorem baseOfF_succ (g : Graph) (m v : Nat) :
    baseOfF g (m + 1) v =
      (match getI g v with
       | .view s => baseOfF g m s
       | .copyInto d _ => baseOfF g m d
       | .proj k c =>
         match getI g c with
         | .mutcand slots _ _ flags _ =>
           if flags.getD k false then baseOfF g m (slots.getD k default).dst
           else v
         | _ => v
       | _ => v) := rfl

theorem getD_mem_of_lt {α : Type} {l : List α} {k : Nat} (d : α)
    (h : k < l.length) : l.getD k d ∈ l := by
  rw [List.getD_eq_getElem?_getD, List.getElem?_eq_getElem h]
  exact List.getElem_mem h

theorem baseOfF_fuel {g : Graph} (hwf : WFg g = true) :
    ∀ (v f1 f2 : Nat), v < f1 → v < f2 → baseOfF g f1 v = baseOfF g f2 v := by
  intro v
  induction v using Nat.strong_induction_on with
  | _ v ih =>
    intro f1 f2 h1 h2
    cases f1 with
    | zero => omega
    | succ a =>
      cases f2 with
      | zero => omega
      | succ b =>
        rw [baseOfF_succ, baseOfF_succ]
        cases hv : getI g v
        case view s =>
          have hs := okRef_lt (wf_view hwf hv)
          exact ih s hs a b (by omega) (by omega)
        case copyInto d s =>
          have hd := okRef_lt (wf_copy hwf hv).1
          exact ih d hd a b (by omega) (by omega)
        case proj k c =>
          obtain ⟨hcv, ⟨slots, e, u, f, cl, hc, hk⟩, _⟩ := wf_proj hwf hv
          simp only [hc]
          by_cases hf : f.getD k false = true
          · rw [if_pos hf, if_pos hf]
            have hdst : (slots.getD k default).dst < c :=
              okRef_lt ((wf_mutcand hwf hc).2.2.1 _
                (getD_mem_of_lt default hk)).2
            exact ih _ (by omega) a b (by omega) (by omega)
          · rw [if_neg hf, if_neg hf]
        all_goals rfl

theorem baseOf_stop {g : Graph} {v : Nat}
    (h : ownerOf g v = v ∧ ∀ s, getI g v ≠ .view s ∧
      (∀ d, getI g v ≠ .copyInto v d ∧ getI g v ≠ .copyInto d v) ∧
      True) : True := trivial

theorem baseOf_self {g : Graph} {v : Nat}
    (h : (match getI g v with
          | .view _ => False
          | .copyInto _ _ => False
          | .proj _ _ => False
          | _ => True)) : baseOf g v = v := by
  simp only [baseOf]
  cases hl : g.instrs.length with
  | zero => rfl
  | succ m =>
    rw [baseOfF_succ]
    cases hv : getI g v
    all_goals (rw [hv] at h)
    all_goals first
    | exact h.elim
    | rfl

theorem baseOf_view {g : Graph} (hwf : WFg g = true) {v s : Nat}
    (h : getI g v = .view s) : baseOf g v = baseOf g s := by
  have hv : v < g.instrs.length := lt_len_of_getI h (by simp)
  have hs : s < v := okRef_lt (wf_view hwf h)
  obtain ⟨m, hm⟩ : ∃ m, g.instrs.length = m + 1 :=
    ⟨g.instrs.length - 1, by omega⟩
  simp only [baseOf]
  rw [hm, baseOfF_succ, h]
  exact baseOfF_fuel hwf s m (m + 1) (by omega) (by omega)

theorem baseOf_copy {g : Graph} (hwf : WFg g = true) {v d s : Nat}
    (h : getI g v = .copyInto d s) : baseOf g v = baseOf g d := by
  have hv : v < g.instrs.length := lt_len_of_getI h (by simp)
  have hd : d < v := okRef_lt (wf_copy hwf h).1
  obtain ⟨m, hm⟩ : ∃ m, g.instrs.length = m + 1 :=
    ⟨g.instrs.length - 1, by omega⟩
  simp only [baseOf]
  rw [hm, baseOfF_succ, h]
  exact baseOfF_fuel hwf d m (m + 1) (by omega) (by omega)

theorem baseOf_proj_flagged {g : Graph} (hwf : WFg g = true) {v k c : Nat}
    {slots : List Slot} {e : List Nat} {u : Bool} {f cl : List Bool}
    (h : getI g v = .proj k c) (hc : getI g c = Instr.mutcand slots e u f cl)
    (hf : f.getD k false = true) :
    baseOf g v = baseOf g (slots.getD k default).dst := by
  have hv : v < g.instrs.length := lt_len_of_getI h (by simp)
  obtain ⟨hcv, ⟨slots', e', u', f', cl', hc', hk'⟩, _⟩ := wf_proj hwf h
  rw [hc] at hc'
  obtain ⟨hs, he, hu, hff, hcl⟩ := Instr.mutcand.inj hc'
  subst hs he hu hff hcl
  have hdst : (slots.getD k default).dst < c :=
    okRef_lt ((wf_mutcand hwf hc).2.2.1 _ (getD_mem_of_lt default hk')).2
  obtain ⟨m, hm⟩ : ∃ m, g.instrs.length = m + 1 :=
    ⟨g.instrs.length - 1, by omega⟩
  simp only [baseOf]
  rw [hm, baseOfF_succ]
  simp only [h, hc]
  rw [if_pos hf]
  exact baseOfF_fuel hwf _ m (m + 1) (by omega) (by omega)

theorem baseOf_proj_unflagged {g : Graph} {v k c : Nat}
    {slots : List Slot} {e : List Nat} {u : Bool} {f cl : List Bool}
    (h : getI g v = .proj k c) (hc : getI g c = Instr.mutcand slots e u f cl)
    (hf : f.getD k false = false) : baseOf g v = v := by
  simp only [baseOf]
  cases hl : g.instrs.length with
  | zero => rfl
  | succ m =>
    rw [baseOfF_succ]
    simp only [h, hc]
    rw [if_neg (by rw [hf]; simp)]

theorem baseOf_le {g : Graph} (hwf : WFg g = true) :
    ∀ v, (∀ s e u f c, getI g v ≠ Instr.mutcand s e u f c) →
      baseOf g v ≤ v ∧ baseKind g (baseOf g v) = true ∧
      (∀ s e u f c, getI g (baseOf g v) ≠ Instr.mutcand s e u f c) := by
  intro v
  induction v using Nat.strong_induction_on with
  | _ v ih =>
    intro hnm
    cases hv : getI g v
    case input =>
      rw [baseOf_self (by rw [hv]; trivial)]
      exact ⟨le_rfl, by simp [baseKind, hv], by rw [hv]; intro s e u f c; simp⟩
    case freshbuf =>
      rw [baseOf_self (by rw [hv]; trivial)]
      exact ⟨le_rfl, by simp [baseKind, hv], by rw [hv]; intro s e u f c; simp⟩
    case unary o s =>
      rw [baseOf_self (by rw [hv]; trivial)]
      exact ⟨le_rfl, by simp [baseKind, hv], by rw [hv]; intro s e u f c; simp⟩
    case binop x y =>
      rw [baseOf_self (by rw [hv]; trivial)]
      exact ⟨le_rfl, by simp [baseKind, hv], by rw [hv]; intro s e u f c; simp⟩
    case view s =>
      rw [baseOf_view hwf hv]
      have hok := wf_view hwf hv
      have hs := okRef_lt hok
      have := ih s hs (okRef_not_mutcand hok)
      exact ⟨this.1.trans (by omega), this.2⟩
    case copyInto d s =>
      rw [baseOf_copy hwf hv]
      have hok := (wf_copy hwf hv).1
      have hd := okRef_lt hok
      have := ih d hd (okRef_not_mutcand hok)
      exact ⟨this.1.trans (by omega), this.2⟩
    case proj k c =>
      obtain ⟨hcv, ⟨slots, e, u, f, cl, hc, hk⟩, _⟩ := wf_proj hwf hv
      by_cases hf : f.getD k false = true
      · rw [baseOf_proj_flagged hwf hv hc hf]
        have hok := ((wf_mutcand hwf hc).2.2.1 _ (getD_mem_of_lt default hk)).2
        have hdst := okRef_lt hok
        have := ih _ (by omega) (okRef_not_mutcand hok)
        exact ⟨this.1.trans (by omega), this.2⟩
      · have hf' : f.getD k false = false := by
          cases hval : f.getD k false
          · rfl
          · exact absurd hval hf
        rw [baseOf_proj_unflagged hv hc hf']
        refine ⟨le_rfl, ?_, by rw [hv]; intro s' e' u' f' c'; simp⟩
        have hf2 : f[k]?.getD false = false := by
          rw [← List.getD_eq_getElem?_getD]
          exact hf'
        simp [baseKind, hv, hc, hf2]
    case mutcand slots e u f cl => exact absurd hv (hnm _ _ _ _ _)

theorem storsBefore_succ {g : Graph} {q : Nat} (h : q < g.instrs.length) :
    storsBefore g (q + 1) = storsBefore g q + allocCount (getI g q) := by
  have hgi : getI g q = g.instrs[q] := by
    simp [getI, List.getD_eq_getElem?_getD, List.getElem?_eq_getElem h]
  simp only [storsBefore, List.map_take]
  rw [List.sum_take_succ _ _ (by simpa using h), hgi]
  simp

theorem storsBefore_le_succ (g : Graph) (q : Nat) :
    storsBefore g q ≤ storsBefore g (q + 1) := by
  by_cases h : q < g.instrs.length
  · rw [storsBefore_succ h]
    omega
  · simp only [storsBefore]
    rw [List.take_of_length_le (by omega), List.take_of_length_le (by omega)]

theorem storsBefore_mono (g : Graph) {q q' : Nat} (h : q ≤ q') :
    storsBefore g q ≤ storsBefore g q' := by
  induction q' with
  | zero =>
    have : q = 0 := by omega
    rw [this]
  | succ n ih =>
    by_cases hq : q ≤ n
    · exact (ih hq).trans (storsBefore_le_succ g n)
    · have : q = n + 1 := by omega
      rw [this]

theorem ownerOf_block {g : Graph} (hwf : WFg g = true) {x : Nat}
    (hx : x < g.instrs.length) (hb : baseKind g x = true) :
    ownerOf g x ≤ x ∧ ownerOf g x < g.instrs.length ∧
    storsBefore g (ownerOf g x) ≤ sidAt g x ∧
    sidAt g x < storsBefore g (ownerOf g x + 1) := by
  cases hv : getI g x
  case proj k c =>
    obtain ⟨hcv, ⟨slots, e, u, f, cl, hc, hk⟩, _⟩ := wf_proj hwf hv
    have hcl : c < g.instrs.length := by omega
    refine ⟨by simp [ownerOf, hv]; omega, by simp [ownerOf, hv]; omega, ?_, ?_⟩
    · simp only [ownerOf, sidAt, hv]
      omega
    · simp only [ownerOf, sidAt, hv]
      rw [storsBefore_succ hcl, hc]
      simp only [allocCount]
      omega
  case view s => simp [baseKind, hv] at hb
  case copyInto d s => simp [baseKind, hv] at hb
  case mutcand slots e u f cl => simp [baseKind, hv] at hb
  all_goals {
    refine ⟨by simp [ownerOf, hv], by simp [ownerOf, hv]; omega, ?_, ?_⟩
    · simp only [ownerOf, sidAt, hv]
      exact le_rfl
    · simp only [ownerOf, sidAt, hv]
      rw [storsBefore_succ hx, hv]
      simp only [allocCount]
      omega
  }

theorem sidAt_lt_total {g : Graph} (hwf : WFg g = true) {x : Nat}
    (hx : x < g.instrs.length) (hb : baseKind g x = true) :
    sidAt g x < storsBefore g g.instrs.length := by
  obtain ⟨h1, h2, h3, h4⟩ := ownerOf_block hwf hx hb
  exact lt_of_lt_of_le h4 (storsBefore_mono g (by omega))

theorem sidAt_inj {g : Graph} (hwf : WFg g = true) {x y : Nat}
    (hx : x < g.instrs.length) (hy : y < g.instrs.length)
    (hbx : baseKind g x = true) (hby : baseKind g y = true)
    (heq : sidAt g x = sidAt g y) : x = y := by
  obtain ⟨hx1, hx2, hx3, hx4⟩ := ownerOf_block hwf hx hbx
  obtain ⟨hy1, hy2, hy3, hy4⟩ := ownerOf_block hwf hy hby
  have hoo : ownerOf g x = ownerOf g y := by
    by_contra hne
    rcases Nat.lt_or_ge (ownerOf g x) (ownerOf g y) with hlt | hge
    · have := storsBefore_mono g (show ownerOf g x + 1 ≤ ownerOf g y by omega)
      omega
    · have hlt : ownerOf g y < ownerOf g x := by omega
      have := storsBefore_mono g (show ownerOf g y + 1 ≤ ownerOf g x by omega)
      omega
  cases hvx : getI g x
  case proj k c =>
    obtain ⟨hcv, ⟨slots, e, u, f, cl, hc, hk⟩, huniq⟩ := wf_proj hwf hvx
    cases hvy : getI g y
    case proj k2 c2 =>
      have hcc : c = c2 := by
        simpa [ownerOf, hvx, hvy] using hoo
      subst hcc
      have hkk : k = k2 := by
        simp only [sidAt, hvx, hvy] at heq
        omega
      subst hkk
      by_contra hne
      exact huniq y (fun hyx => hne hyx.symm) hvy
    case input => exfalso; have : c = y := by simpa [ownerOf, hvx, hvy] using hoo
                  rw [this, hvy] at hc; exact Instr.noConfusion hc
    case freshbuf => exfalso; have : c = y := by simpa [ownerOf, hvx, hvy] using hoo
                     rw [this, hvy] at hc; exact Instr.noConfusion hc
    case unary o s => exfalso; have : c = y := by simpa [ownerOf, hvx, hvy] using hoo
                      rw [this, hvy] at hc; exact Instr.noConfusion hc
    case binop a b => exfalso; have : c = y := by simpa [ownerOf, hvx, hvy] using hoo
                      rw [this, hvy] at hc; exact Instr.noConfusion hc
    case view s => simp [baseKind, hvy] at hby
    case copyInto d s => simp [baseKind, hvy] at hby
    case mutcand s2 e2 u2 f2 c2 => simp [baseKind, hvy] at hby
  case view s => simp [baseKind, hvx] at hbx
  case copyInto d s => simp [baseKind, hvx] at hbx
  case mutcand s2 e2 u2 f2 c2 => simp [baseKind, hvx] at hbx
  all_goals {
    cases hvy : getI g y
    case proj k2 c2 =>
      exfalso
      obtain ⟨hcv2, ⟨slots2, e2, u2, f2, cl2, hc2, hk2⟩, _⟩ := wf_proj hwf hvy
      have : x = c2 := by simpa [ownerOf, hvx, hvy] using hoo
      rw [← this, hvx] at hc2
      exact Instr.noConfusion hc2
    case view s2 => simp [baseKind, hvy] at hby
    case copyInto d2 s2 => simp [baseKind, hvy] at hby
    case mutcand s2 e2 u2 f2 c2 => simp [baseKind, hvy] at hby
    all_goals simpa [ownerOf, hvx, hvy] using hoo
  }

theorem rangeMap_getD {α : Type} (f : Nat → α) (q s : Nat) (d : α)
    (h : s < q) : ((List.range q).map f).getD s d = f s := by
  rw [List.getD_eq_getElem?_getD, List.getElem?_eq_getElem (by simpa using h)]
  simp

theorem envSpec_one {g : Graph} {v : Nat}
    (h : ∀ s e u f c, getI g v ≠ Instr.mutcand s e u f c) :
    envSpec g v = .one (sidAt g (baseOf g v)) := by
  cases hv : getI g v
  case mutcand s e u f c => exact absurd hv (h _ _ _ _ _)
  all_goals simp [envSpec, hv]

theorem execPre_zero (IU : Nat → Int → Int) (IB : Int → Int → Int)
    (g : Graph) (ins : List Int) : execPre IU IB g 0 ins = ⟨[], [], ins⟩ :=
  rfl

theorem execPre_succ (IU : Nat → Int → Int) (IB : Int → Int → Int)
    (g : Graph) (ins : List Int) {q : Nat} (h : q < g.instrs.length) :
    execPre IU IB g (q + 1) ins =
      stepI IU IB (execPre IU IB g q ins) (getI g q) := by
  have hgi : getI g q = g.instrs[q] := by
    simp [getI, List.getD_eq_getElem?_getD, List.getElem?_eq_getElem h]
  simp only [execPre]
  rw [List.take_succ, List.getElem?_eq_getElem h]
  simp only [Option.toList_some, List.foldl_append, List.foldl_cons,
    List.foldl_nil, hgi]

theorem slotsExec_store_length (sid : Slot → Nat) :
    ∀ (l : List ((Slot × Int) × Bool)) (store : List Int),
      (slotsExec sid store l).1.length = store.length + l.length := by
  intro l
  induction l with
  | nil => intro store; simp [slotsExec]
  | cons x rest ih =>
    intro store
    simp only [slotsExec]
    rw [ih]
    by_cases hx : x.2 = true <;> simp [hx, List.length_set] <;> omega

theorem slotsExec_entries (sid : Slot → Nat) :
    ∀ (l : List ((Slot × Int) × Bool)) (store : List Int),
      (slotsExec sid store l).2 =
        (List.range l.length).map fun i =>
          if (l.getD i default).2 then sid (l.getD i default).1.1
          else store.length + i := by
  intro l
  induction l with
  | nil => intro store; simp [slotsExec]
  | cons x rest ih =>
    intro store
    have hlen2 : ∀ (s1 : List Int),
        ((if x.2 then (s1 ++ [x.1.2]).set (sid x.1.1) x.1.2
          else s1 ++ [x.1.2])).length = s1.length + 1 := by
      intro s1
      by_cases hx : x.2 = true <;> simp [hx, List.length_set]
    simp only [slotsExec]
    rw [ih, List.length_cons, List.range_succ_eq_map]
    simp only [List.map_cons, List.map_map]
    congr 1
    next =>
      apply List.map_congr_left
      intro a ha
      simp only [Function.comp]
      rw [hlen2]
      have hgd : (x :: rest).getD (a + 1) default = rest.getD a default := by
        simp [List.getD]
      rw [hgd]
      by_cases hx2 : (rest.getD a default).2 = true
      · rw [if_pos hx2, if_pos hx2]
      · rw [if_neg hx2, if_neg hx2]
        omega

theorem execPre_spec (IU : Nat → Int → Int) (IB : Int → Int → Int)
    {g : Graph} (hwf : WFg g = true) (ins : List Int) :
    ∀ q, q ≤ g.instrs.length →
      (execPre IU IB g q ins).env = (List.range q).map (envSpec g) ∧
      (execPre IU IB g q ins).store.length = storsBefore g q := by
  intro q
  induction q with
  | zero => intro _; exact ⟨rfl, rfl⟩
  | succ q ih =>
    intro hq1
    have hq : q < g.instrs.length := by omega
    obtain ⟨ihenv, ihlen⟩ := ih (by omega)
    rw [execPre_succ IU IB g ins hq, storsBefore_succ hq]
    set σ := execPre IU IB g q ins with hσ
    have henvD : ∀ v, v < q → σ.env.getD v (.one 0) = envSpec g v := by
      intro v hv
      rw [ihenv]
      exact rangeMap_getD _ _ _ _ hv
    have hsidOf : ∀ v, v < q →
        (∀ s e u f c, getI g v ≠ Instr.mutcand s e u f c) →
        sidOf σ v = sidAt g (baseOf g v) := by
      intro v hv hnm
      simp only [sidOf]
      rw [henvD v hv, envSpec_one hnm]
    have hrange : List.range (q + 1) = List.range q ++ [q] := List.range_succ q
    cases hv : getI g q
    case input =>
      refine ⟨?_, by simp [stepI, hv, allocCount, ihlen]⟩
      simp only [stepI, hv, ihenv, hrange, List.map_append]
      simp only [List.map_cons, List.map_nil, List.append_cancel_left_eq]
      rw [@envSpec_one g q (by rw [hv]; intro s e u f c; simp), ihlen]
      rw [baseOf_self (by rw [hv]; trivial)]
      simp [sidAt, hv]
    case freshbuf =>
      refine ⟨?_, by simp [stepI, hv, allocCount, ihlen]⟩
      simp only [stepI, hv, ihenv, hrange, List.map_append]
      simp only [List.map_cons, List.map_nil, List.append_cancel_left_eq]
      rw [@envSpec_one g q (by rw [hv]; intro s e u f c; simp), ihlen]
      rw [baseOf_self (by rw [hv]; trivial)]
      simp [sidAt, hv]
    case unary o s =>
      refine ⟨?_, by simp [stepI, hv, allocCount, ihlen]⟩
      simp only [stepI, hv, ihenv, hrange, List.map_append]
      simp only [List.map_cons, List.map_nil, List.append_cancel_left_eq]
      rw [@envSpec_one g q (by rw [hv]; intro s' e u f c; simp), ihlen]
      rw [baseOf_self (by rw [hv]; trivial)]
      simp [sidAt, hv]
    case binop x y =>
      refine ⟨?_, by simp [stepI, hv, allocCount, ihlen]⟩
      simp only [stepI, hv, ihenv, hrange, List.map_append]
      simp only [List.map_cons, List.map_nil, List.append_cancel_left_eq]
      rw [@envSpec_one g q (by rw [hv]; intro s e u f c; simp), ihlen]
      rw [baseOf_self (by rw [hv]; trivial)]
      simp [sidAt, hv]
    case view s =>
      have hok := wf_view hwf hv
      have hs := okRef_lt hok
      refine ⟨?_, by simp [stepI, hv, allocCount, ihlen]⟩
      simp only [stepI, hv, hrange, List.map_append]
      rw [ihenv]  -- hmm env := st.env ++ [st.env.getD s ..]: rewrite both
      simp only [List.map_cons, List.map_nil, List.append_cancel_left_eq]
      rw [rangeMap_getD _ _ _ _ hs]
      rw [envSpec_one (okRef_not_mutcand hok),
        @envSpec_one g q (by rw [hv]; intro s' e u f c; simp)]
      rw [baseOf_view hwf hv]
    case proj k c =>
      obtain ⟨hcv, ⟨slots, e, u, f, cl, hc, hk⟩, _⟩ := wf_proj hwf hv
      refine ⟨?_, by simp [stepI, hv, allocCount, ihlen]⟩
      simp only [stepI, hv, hrange, List.map_append]
      rw [ihenv]
      simp only [List.map_cons, List.map_nil, List.append_cancel_left_eq]
      rw [rangeMap_getD _ _ _ _ (by omega : c < q)]
      rw [@envSpec_one g q (by rw [hv]; intro s' e' u' f' c'; simp)]
      simp only [envSpec, hc]
      rw [rangeMap_getD _ _ _ _ hk]
      by_cases hf : f.getD k false = true
      · rw [if_pos hf, baseOf_proj_flagged hwf hv hc hf]
      · have hf' : f.getD k false = false := by
          cases hval : f.getD k false
          · rfl
          · exact absurd hval hf
        rw [if_neg hf, baseOf_proj_unflagged hv hc hf']
        simp [sidAt, hv, ihlen]
    case copyInto d s =>
      have hok := (wf_copy hwf hv).1
      have hd := okRef_lt hok
      refine ⟨?_, by simp [stepI, hv, allocCount, List.length_set, ihlen]⟩
      simp only [stepI, hv, hrange, List.map_append]
      rw [ihenv]
      simp only [List.map_cons, List.map_nil, List.append_cancel_left_eq]
      rw [rangeMap_getD _ _ _ _ hd]
      rw [envSpec_one (okRef_not_mutcand hok),
        @envSpec_one g q (by rw [hv]; intro s' e u f c; simp)]
      rw [baseOf_copy hwf hv]
    case mutcand slots e u f cl =>
      obtain ⟨hlf, hlcl, hslots, hextra⟩ := wf_mutcand hwf hv
      have hzl : ((slots.zip (slots.map fun sl => IU sl.op (readV σ sl.src))).zip
          f).length = slots.length := by
        simp [List.length_zip, hlf]
      constructor
      · simp only [stepI, hv, hrange, List.map_append]
        rw [ihenv]
        simp only [List.map_cons, List.map_nil, List.append_cancel_left_eq]
        rw [slotsExec_entries]
        simp only [envSpec, hv]
        rw [hzl, ihlen]
        simp only [List.cons.injEq, and_true, SVal.many.injEq]
        apply List.map_congr_left
        intro i hi
        have hi' : i < slots.length := List.mem_range.mp hi
        have hzget : (((slots.zip (slots.map fun sl =>
            IU sl.op (readV σ sl.src))).zip f).getD i default) =
            ((slots.getD i default, IU (slots.getD i default).op
              (readV σ (slots.getD i default).src)), f.getD i false) := by
          rw [List.getD_eq_getElem?_getD,
            List.getElem?_eq_getElem (by rw [hzl]; exact hi')]
          rw [List.getElem_zip, List.getElem_zip, List.getElem_map]
          simp [List.getD_eq_getElem?_getD, List.getElem?_eq_getElem,
            hi', hlf ▸ hi']
        rw [hzget]
        by_cases hfl : f.getD i false = true
        · rw [if_pos hfl, if_pos hfl]
          have hokd := (hslots _ (getD_mem_of_lt default hi')).2
          exact hsidOf _ (okRef_lt hokd) (okRef_not_mutcand hokd)
        · rw [if_neg hfl, if_neg hfl]
      · simp only [stepI, hv]
        rw [slotsExec_store_length, hzl, ihlen]
        simp [allocCount]

theorem hplen (C : StepCtx) : C.p < C.g.instrs.length :=
  lt_len_of_getI C.hp (by simp)

theorem flags_len (C : StepCtx) : C.flags.length = C.slots.length :=
  (wf_mutcand C.hwf C.hp).1

theorem getI_setMut_self {g : Graph} {p : Nat} (i : Instr)
    (hp : p < g.instrs.length) : getI (setMut g p i) p = i :=
  getI_set_self hp

theorem getI_setMut_ne {g : Graph} {p : Nat} (i : Instr) {q : Nat}
    (h : q ≠ p) : getI (setMut g p i) q = getI g q :=
  getI_set_ne h

theorem setMut_len (g : Graph) (p : Nat) (i : Instr) :
    (setMut g p i).instrs.length = g.instrs.length := by
  simp [setMut]

theorem setMut_outputs (g : Graph) (p : Nat) (i : Instr) :
    (setMut g p i).outputs = g.outputs := rfl

theorem g2_eq_setMut (C : StepCtx) :
    C.g2 = setMut C.g C.p
      (Instr.mutcand C.slots C.extra C.ui (C.flags.set C.k true) C.clones) := by
  simp only [StepCtx.g2, setFlag_instrs, setMut, C.hp]

theorem getI_g2_self (C : StepCtx) :
    getI C.g2 C.p =
      Instr.mutcand C.slots C.extra C.ui (C.flags.set C.k true) C.clones := by
  rw [g2_eq_setMut C]
  exact getI_setMut_self _ (hplen C)

theorem getI_g2_ne (C : StepCtx) {q : Nat} (h : q ≠ C.p) :
    getI C.g2 q = getI C.g q := by
  rw [g2_eq_setMut C]
  exact getI_setMut_ne _ h

theorem g2_len (C : StepCtx) : C.g2.instrs.length = C.g.instrs.length := by
  rw [g2_eq_setMut C]
  exact setMut_len _ _ _

theorem g2_outputs (C : StepCtx) : C.g2.outputs = C.g.outputs := by
  rw [g2_eq_setMut C]
  exact setMut_outputs _ _ _

theorem okRef_setMut {g : Graph} {p : Nat} {slots : List Slot} {e : List Nat}
    {u : Bool} {f cl f2 cl2 : List Bool}
    (hp : getI g p = Instr.mutcand slots e u f cl) (q v : Nat) :
    okRef (setMut g p (Instr.mutcand slots e u f2 cl2)) q v = okRef g q v := by
  by_cases h : v = p
  · subst h
    simp only [okRef, getI_setMut_self _ (lt_len_of_getI hp (by simp)), hp]
  · simp only [okRef, getI_setMut_ne _ h]

theorem isInput_setMut {g : Graph} {p : Nat} {slots : List Slot} {e : List Nat}
    {u : Bool} {f cl f2 cl2 : List Bool}
    (hp : getI g p = Instr.mutcand slots e u f cl) (v : Nat) :
    isInput (setMut g p (Instr.mutcand slots e u f2 cl2)) v = isInput g v := by
  by_cases h : v = p
  · subst h
    simp only [isInput, getI_setMut_self _ (lt_len_of_getI hp (by simp)), hp]
  · simp only [isInput, getI_setMut_ne _ h]

theorem allocCount_setMut {g : Graph} {p : Nat} {slots : List Slot}
    {e : List Nat} {u : Bool} {f cl f2 cl2 : List Bool}
    (hp : getI g p = Instr.mutcand slots e u f cl) (q : Nat) :
    allocCount (getI (setMut g p (Instr.mutcand slots e u f2 cl2)) q) =
      allocCount (getI g q) := by
  by_cases h : q = p
  · subst h
    rw [getI_setMut_self _ (lt_len_of_getI hp (by simp)), hp]
    rfl
  · rw [getI_setMut_ne _ h]

theorem storsBefore_setMut {g : Graph} {p : Nat} {slots : List Slot}
    {e : List Nat} {u : Bool} {f cl f2 cl2 : List Bool}
    (hp : getI g p = Instr.mutcand slots e u f cl) (q : Nat) :
    storsBefore (setMut g p (Instr.mutcand slots e u f2 cl2)) q =
      storsBefore g q := by
  induction q with
  | zero => rfl
  | succ n ih =>
    by_cases h : n < g.instrs.length
    · rw [storsBefore_succ (by rw [setMut_len]; exact h), storsBefore_succ h,
        ih, allocCount_setMut hp]
    · simp only [storsBefore]
      rw [List.take_of_length_le
          (show (setMut g p (Instr.mutcand slots e u f2 cl2)).instrs.length ≤
            n + 1 by rw [setMut_len]; omega),
        List.take_of_length_le (show g.instrs.length ≤ n + 1 by omega)]
      have h3 := ih
      simp only [storsBefore] at h3
      rwa [List.take_of_length_le
          (show (setMut g p (Instr.mutcand slots e u f2 cl2)).instrs.length ≤
            n by rw [setMut_len]; omega),
        List.take_of_length_le (show g.instrs.length ≤ n by omega)] at h3

theorem sidAt_setMut {g : Graph} {p : Nat} {slots : List Slot} {e : List Nat}
    {u : Bool} {f cl f2 cl2 : List Bool}
    (hp : getI g p = Instr.mutcand slots e u f cl) (v : Nat) :
    sidAt (setMut g p (Instr.mutcand slots e u f2 cl2)) v = sidAt g v := by
  by_cases h : v = p
  · subst h
    simp only [sidAt, getI_setMut_self _ (lt_len_of_getI hp (by simp)), hp,
      storsBefore_setMut hp]
  · simp only [sidAt, getI_setMut_ne _ h]
    cases hv : getI g v <;> simp [storsBefore_setMut hp]

theorem beq_proj_setMut {g : Graph} {p : Nat} {slots : List Slot}
    {e : List Nat} {u : Bool} {f cl f2 cl2 : List Bool}
    (hp : getI g p = Instr.mutcand slots e u f cl) (q k0 c0 : Nat) :
    (getI (setMut g p (Instr.mutcand slots e u f2 cl2)) q ==
      Instr.proj k0 c0) = (getI g q == Instr.proj k0 c0) := by
  by_cases h : q = p
  · subst h
    rw [getI_setMut_self _ (lt_len_of_getI hp (by simp)), hp]
    rw [show (Instr.mutcand slots e u f2 cl2 == Instr.proj k0 c0) = false from
        beq_eq_false_iff_ne.mpr (by simp),
      show (Instr.mutcand slots e u f cl == Instr.proj k0 c0) = false from
        beq_eq_false_iff_ne.mpr (by simp)]
  · rw [getI_setMut_ne _ h]

theorem wfInstr_setMut {g : Graph} {p : Nat} {slots : List Slot}
    {e : List Nat} {u : Bool} {f cl f2 cl2 : List Bool}
    (hwf : WFg g = true) (hp : getI g p = Instr.mutcand slots e u f cl)
    (hf2 : f2.length = slots.length) (hcl2 : cl2.length = slots.length)
    (q : Nat) (hq : q < g.instrs.length) :
    wfInstr (setMut g p (Instr.mutcand slots e u f2 cl2)) q = true := by
  have hplt : p < g.instrs.length := lt_len_of_getI hp (by simp)
  have hw := wfI hwf hq
  by_cases hqp : q = p
  · subst hqp
    simp only [wfInstr, getI_setMut_self _ hplt, hp, Bool.and_eq_true,
      beq_iff_eq, List.all_eq_true] at hw ⊢
    simp only [okRef_setMut hp]
    obtain ⟨⟨⟨h1, h2⟩, h3⟩, h4⟩ := hw
    exact ⟨⟨⟨hf2, hcl2⟩, h3⟩, h4⟩
  · have hgq : getI (setMut g p (Instr.mutcand slots e u f2 cl2)) q =
        getI g q := getI_setMut_ne _ hqp
    cases hv : getI g q with
    | proj k0 c0 =>
      simp only [wfInstr, hgq, hv, Bool.and_eq_true, List.all_eq_true,
        decide_eq_true_eq] at hw ⊢
      obtain ⟨⟨h1, h2⟩, h3⟩ := hw
      refine ⟨⟨h1, ?_⟩, ?_⟩
      · by_cases hc0 : c0 = p
        · subst hc0
          simp only [getI_setMut_self _ hplt]
          simp only [hp] at h2
          exact h2
        · rw [getI_setMut_ne _ hc0]
          exact h2
      · intro q' hq'
        rw [setMut_len] at hq'
        have h5 := h3 q' hq'
        rw [beq_proj_setMut hp]
        exact h5
    | input => simp [wfInstr, hgq, hv]
    | freshbuf => simp [wfInstr, hgq, hv]
    | unary o s =>
      simp only [wfInstr, hgq, hv] at hw ⊢
      rw [okRef_setMut hp]
      exact hw
    | binop x y =>
      simp only [wfInstr, hgq, hv] at hw ⊢
      simp only [okRef_setMut hp]
      exact hw
    | view s =>
      simp only [wfInstr, hgq, hv] at hw ⊢
      rw [okRef_setMut hp]
      exact hw
    | copyInto d s =>
      simp only [wfInstr, hgq, hv] at hw ⊢
      simp only [okRef_setMut hp]
      exact hw
    | mutcand slots' e' u' f' cl' =>
      simp only [wfInstr, hgq, hv] at hw ⊢
      have hfn : okRef (setMut g p (Instr.mutcand slots e u f2 cl2)) q =
          okRef g q := funext (okRef_setMut hp q)
      rw [hfn]
      exact hw

theorem WFg_setMut {g : Graph} {p : Nat} {slots : List Slot} {e : List Nat}
    {u : Bool} {f cl f2 cl2 : List Bool}
    (hwf : WFg g = true) (hp : getI g p = Instr.mutcand slots e u f cl)
    (hf2 : f2.length = slots.length) (hcl2 : cl2.length = slots.length) :
    WFg (setMut g p (Instr.mutcand slots e u f2 cl2)) = true := by
  simp only [WFg, Bool.and_eq_true, List.all_eq_true]
  constructor
  · intro q hq
    rw [setMut_len] at hq
    exact wfInstr_setMut hwf hp hf2 hcl2 q (List.mem_range.mp hq)
  · intro o ho
    rw [setMut_outputs] at ho
    have h := wfOut hwf ho
    rw [setMut_len, okRef_setMut hp]
    exact h

theorem WFg_g2 (C : StepCtx) : WFg C.g2 = true := by
  rw [g2_eq_setMut C]
  exact WFg_setMut C.hwf C.hp (by rw [List.length_set]; exact flags_len C)
    (wf_mutcand C.hwf C.hp).2.1

theorem set_getI_self (g : Graph) (p : Nat) :
    g.instrs.set p (getI g p) = g.instrs := by
  by_cases h : p < g.instrs.length
  · apply List.ext_getElem (by simp)
    intro n h1 h2
    have hset := List.getElem_set (l := g.instrs) (n := p) (a := getI g p)
      (m := n)
    by_cases hnp : p = n
    · subst hnp
      rw [List.getElem_set]
      simp [getI, List.getD_eq_getElem?_getD, List.getElem?_eq_getElem h2]
    · rw [List.getElem_set, if_neg hnp]
  · exact List.set_eq_of_length_le (by omega)

theorem setFlag_eq_of_not_mutcand {g : Graph} {p : Nat} (k : Nat)
    (h : ∀ slots e u f cl, getI g p ≠ Instr.mutcand slots e u f cl) :
    setFlag g p k = g := by
  have hm : (match getI g p with
             | Instr.mutcand slots extra ui flags clones =>
               Instr.mutcand slots extra ui (flags.set k true) clones
             | i => i) = getI g p := by
    cases hv : getI g p
    case mutcand s e u f c => exact absurd hv (h _ _ _ _ _)
    all_goals rfl
  rw [setFlag_instrs, hm, set_getI_self]

theorem setClone_eq_of_not_mutcand {g : Graph} {p : Nat} (k : Nat)
    (h : ∀ slots e u f cl, getI g p ≠ Instr.mutcand slots e u f cl) :
    setClone g p k = g := by
  have hm : (match getI g p with
             | Instr.mutcand slots extra ui flags clones =>
               Instr.mutcand slots extra ui flags (clones.set k true)
             | i => i) = getI g p := by
    cases hv : getI g p
    case mutcand s e u f c => exact absurd hv (h _ _ _ _ _)
    all_goals rfl
  rw [setClone_instrs, hm, set_getI_self]

theorem storsBefore_g2 (C : StepCtx) (q : Nat) :
    storsBefore C.g2 q = storsBefore C.g q := by
  rw [g2_eq_setMut C]
  exact storsBefore_setMut C.hp q

theorem sidAt_g2 (C : StepCtx) (v : Nat) : sidAt C.g2 v = sidAt C.g v := by
  rw [g2_eq_setMut C]
  exact sidAt_setMut C.hp v

theorem okRef_g2 (C : StepCtx) (q v : Nat) :
    okRef C.g2 q v = okRef C.g q v := by
  rw [g2_eq_setMut C]
  exact okRef_setMut C.hp q v

theorem isInput_g2 (C : StepCtx) (v : Nat) :
    isInput C.g2 v = isInput C.g v := by
  rw [g2_eq_setMut C]
  exact isInput_setMut C.hp v

theorem findProj_some {g : Graph} {p k x : Nat}
    (h : findProj g p k = some x) :
    getI g x = Instr.proj k p ∧ x < g.instrs.length := by
  have h1 := List.find?_some h
  have h2 := List.mem_range.mp (List.mem_of_find?_eq_some h)
  simp only [decide_eq_true_eq] at h1
  exact ⟨h1, h2⟩

theorem findProj_of_proj {g : Graph} (hwf : WFg g = true) {p k x : Nat}
    (h : getI g x = Instr.proj k p) : findProj g p k = some x := by
  have hx : x < g.instrs.length := lt_len_of_getI h (by simp)
  cases hf : findProj g p k with
  | none =>
    exfalso
    have h0 := List.find?_eq_none.mp hf x (List.mem_range.mpr hx)
    simp [h] at h0
  | some y =>
    obtain ⟨hy, _⟩ := findProj_some hf
    obtain ⟨_, _, huniq⟩ := wf_proj hwf h
    by_cases hxy : y = x
    · rw [hxy]
    · exact absurd hy (huniq y hxy)

theorem bval_def (C : StepCtx) : C.bval = baseOf C.g C.dst := rfl

theorem sb_def (C : StepCtx) : C.sb = sidAt C.g C.bval := rfl

theorem sj_def (C : StepCtx) : C.sj = storsBefore C.g C.p + C.k := rfl

theorem jopt_def (C : StepCtx) : C.jopt = findProj C.g C.p C.k := rfl

theorem proj_of_p_gt (C : StepCtx) {x k0 : Nat}
    (h : getI C.g x = Instr.proj k0 C.p) : C.p < x :=
  (wf_proj C.hwf h).1

theorem dst_facts (C : StepCtx) : okRef C.g C.p C.dst = true :=
  ((wf_mutcand C.hwf C.hp).2.2.1 _ (getD_mem_of_lt default C.hk)).2

theorem dst_lt (C : StepCtx) : C.dst < C.p := okRef_lt (dst_facts C)

theorem bval_base (C : StepCtx) :
    C.bval ≤ C.dst ∧ baseKind C.g C.bval = true ∧
    (∀ s e u f c, getI C.g C.bval ≠ Instr.mutcand s e u f c) :=
  baseOf_le C.hwf C.dst (okRef_not_mutcand (dst_facts C))

theorem bval_lt_p (C : StepCtx) : C.bval < C.p := by
  have h1 := (bval_base C).1
  have h2 := dst_lt C
  omega

theorem bval_not_jproj (C : StepCtx) :
    getI C.g C.bval ≠ Instr.proj C.k C.p := by
  intro h
  have h1 := proj_of_p_gt C h
  have h2 := bval_lt_p C
  omega

theorem sb_block (C : StepCtx) : C.sb < storsBefore C.g C.p := by
  have hbl : C.bval < C.g.instrs.length := lt_trans (bval_lt_p C) (hplen C)
  obtain ⟨h1, h2, h3, h4⟩ := ownerOf_block C.hwf hbl (bval_base C).2.1
  have h5 : ownerOf C.g C.bval + 1 ≤ C.p := by
    have := bval_lt_p C
    omega
  have h6 := storsBefore_mono C.g h5
  rw [sb_def]
  omega

theorem sj_block (C : StepCtx) :
    storsBefore C.g C.p ≤ C.sj ∧ C.sj < storsBefore C.g (C.p + 1) := by
  rw [sj_def]
  constructor
  · omega
  · rw [storsBefore_succ (hplen C), C.hp]
    simp only [allocCount]
    have := C.hk
    omega

theorem sb_ne_sj (C : StepCtx) : C.sb ≠ C.sj := by
  have h1 := sb_block C
  have h2 := (sj_block C).1
  omega

theorem sid_eq_sj (C : StepCtx) {x : Nat} (hx : x < C.g.instrs.length)
    (hb : baseKind C.g x = true) :
    sidAt C.g x = C.sj ↔ getI C.g x = Instr.proj C.k C.p := by
  constructor
  · intro heq
    obtain ⟨h1, h2, h3, h4⟩ := ownerOf_block C.hwf hx hb
    have hj1 := (sj_block C).1
    have hj2 := (sj_block C).2
    have hop : ownerOf C.g x = C.p := by
      by_contra hne
      rcases Nat.lt_or_ge (ownerOf C.g x) C.p with hlt | hge
      · have := storsBefore_mono C.g (show ownerOf C.g x + 1 ≤ C.p by omega)
        omega
      · have hlt2 : C.p < ownerOf C.g x := by omega
        have := storsBefore_mono C.g (show C.p + 1 ≤ ownerOf C.g x by omega)
        omega
    cases hv : getI C.g x with
    | proj k0 c0 =>
      have hc0 : c0 = C.p := by simpa [ownerOf, hv] using hop
      subst hc0
      have hk0 : k0 = C.k := by
        simp only [sidAt, hv] at heq
        rw [sj_def] at heq
        omega
      rw [hk0]
    | mutcand s e u f c => simp [baseKind, hv] at hb
    | view s => simp [baseKind, hv] at hb
    | copyInto d s => simp [baseKind, hv] at hb
    | input =>
      exfalso
      have hxp : x = C.p := by simpa [ownerOf, hv] using hop
      rw [hxp, C.hp] at hv
      exact Instr.noConfusion hv
    | freshbuf =>
      exfalso
      have hxp : x = C.p := by simpa [ownerOf, hv] using hop
      rw [hxp, C.hp] at hv
      exact Instr.noConfusion hv
    | unary o s =>
      exfalso
      have hxp : x = C.p := by simpa [ownerOf, hv] using hop
      rw [hxp, C.hp] at hv
      exact Instr.noConfusion hv
    | binop a b =>
      exfalso
      have hxp : x = C.p := by simpa [ownerOf, hv] using hop
      rw [hxp, C.hp] at hv
      exact Instr.noConfusion hv
  · intro h
    simp only [sidAt, h, sj_def]

theorem sid_eq_sb (C : StepCtx) {x : Nat} (hx : x < C.g.instrs.length)
    (hb : baseKind C.g x = true) :
    sidAt C.g x = C.sb ↔ x = C.bval := by
  constructor
  · intro heq
    have hbl : C.bval < C.g.instrs.length := lt_trans (bval_lt_p C) (hplen C)
    exact sidAt_inj C.hwf hx hbl hb (bval_base C).2.1 (heq.trans (sb_def C))
  · intro h
    rw [h, sb_def]

theorem jopt_iff (C : StepCtx) (x : Nat) :
    (some x = C.jopt) ↔ getI C.g x = Instr.proj C.k C.p := by
  constructor
  · intro h
    have h2 : findProj C.g C.p C.k = some x := by rw [← jopt_def C, ← h]
    exact (findProj_some h2).1
  · intro h
    rw [jopt_def C, findProj_of_proj C.hwf h]

theorem baseOf_g2_spec (C : StepCtx) :
    ∀ v, (∀ s e u f c, getI C.g v ≠ Instr.mutcand s e u f c) →
      baseOf C.g2 v =
        (if getI C.g (baseOf C.g v) = Instr.proj C.k C.p then C.bval
         else baseOf C.g v) := by
  have hwf2 := WFg_g2 C
  intro v
  induction v using Nat.strong_induction_on with
  | _ v ih =>
    intro hnm
    have hvp : v ≠ C.p := by
      intro h
      exact hnm _ _ _ _ _ (by rw [h]; exact C.hp)
    have hg2v : getI C.g2 v = getI C.g v := getI_g2_ne C hvp
    cases hv : getI C.g v with
    | input =>
      have hb : baseOf C.g v = v := baseOf_self (by rw [hv]; trivial)
      have hb2 : baseOf C.g2 v = v := baseOf_self (by rw [hg2v, hv]; trivial)
      rw [hb, hb2, if_neg (by rw [hv]; simp)]
    | freshbuf =>
      have hb : baseOf C.g v = v := baseOf_self (by rw [hv]; trivial)
      have hb2 : baseOf C.g2 v = v := baseOf_self (by rw [hg2v, hv]; trivial)
      rw [hb, hb2, if_neg (by rw [hv]; simp)]
    | unary o s =>
      have hb : baseOf C.g v = v := baseOf_self (by rw [hv]; trivial)
      have hb2 : baseOf C.g2 v = v := baseOf_self (by rw [hg2v, hv]; trivial)
      rw [hb, hb2, if_neg (by rw [hv]; simp)]
    | binop x y =>
      have hb : baseOf C.g v = v := baseOf_self (by rw [hv]; trivial)
      have hb2 : baseOf C.g2 v = v := baseOf_self (by rw [hg2v, hv]; trivial)
      rw [hb, hb2, if_neg (by rw [hv]; simp)]
    | view s =>
      have hok := wf_view C.hwf hv
      have hs := okRef_lt hok
      rw [baseOf_view C.hwf hv, baseOf_view hwf2 (by rw [hg2v]; exact hv)]
      exact ih s hs (okRef_not_mutcand hok)
    | copyInto d s =>
      have hok := (wf_copy C.hwf hv).1
      have hd := okRef_lt hok
      rw [baseOf_copy C.hwf hv, baseOf_copy hwf2 (by rw [hg2v]; exact hv)]
      exact ih d hd (okRef_not_mutcand hok)
    | mutcand s0 e0 u0 f0 cl0 => exact absurd hv (hnm _ _ _ _ _)
    | proj k0 c0 =>
      obtain ⟨hcv, ⟨slots0, e0, u0, f0, cl0, hc0, hk0⟩, _⟩ := wf_proj C.hwf hv
      by_cases hc0p : c0 = C.p
      · subst hc0p
        rw [C.hp] at hc0
        obtain ⟨hs1, hs2, hs3, hs4, hs5⟩ := Instr.mutcand.inj hc0
        subst hs1 hs2 hs3 hs4 hs5
        by_cases hkk : k0 = C.k
        · subst hkk
          have hbg : baseOf C.g v = v :=
            baseOf_proj_unflagged hv C.hp C.hfl
          have hfl2 : (C.flags.set C.k true).getD C.k false = true :=
            getD_set_eq' _ _ _ _ (by rw [flags_len C]; exact C.hk)
          have hbg2 : baseOf C.g2 v = baseOf C.g2 C.dst :=
            baseOf_proj_flagged hwf2 (by rw [hg2v]; exact hv)
              (getI_g2_self C) hfl2
          have hokd := dst_facts C
          have hrec := ih C.dst (lt_trans (dst_lt C) hcv)
            (okRef_not_mutcand hokd)
          rw [hbg2, hrec, hbg, if_pos hv, ← bval_def C]
          simp
        · have hfl2 : (C.flags.set C.k true).getD k0 false =
              C.flags.getD k0 false :=
            getD_set_ne' _ _ _ _ _ (fun h => hkk h.symm)
          by_cases hf : C.flags.getD k0 false = true
          · have hbg : baseOf C.g v =
                baseOf C.g (C.slots.getD k0 default).dst :=
              baseOf_proj_flagged C.hwf hv C.hp hf
            have hbg2 : baseOf C.g2 v =
                baseOf C.g2 (C.slots.getD k0 default).dst :=
              baseOf_proj_flagged hwf2 (by rw [hg2v]; exact hv)
                (getI_g2_self C) (by rw [hfl2]; exact hf)
            have hokd := ((wf_mutcand C.hwf C.hp).2.2.1 _
              (getD_mem_of_lt default hk0)).2
            rw [hbg, hbg2]
            exact ih _ (lt_trans (okRef_lt hokd) hcv) (okRef_not_mutcand hokd)
          · have hf' : C.flags.getD k0 false = false := by
              cases hval : C.flags.getD k0 false
              · rfl
              · exact absurd hval hf
            have hbg : baseOf C.g v = v :=
              baseOf_proj_unflagged hv C.hp hf'
            have hbg2 : baseOf C.g2 v = v :=
              baseOf_proj_unflagged (by rw [hg2v]; exact hv) (getI_g2_self C)
                (by rw [hfl2]; exact hf')
            rw [hbg, hbg2, if_neg (fun hcon => hkk
              (Instr.proj.inj (hv.symm.trans hcon)).1)]
      · have hg2c0 : getI C.g2 c0 = getI C.g c0 := getI_g2_ne C hc0p
        by_cases hf : f0.getD k0 false = true
        · have hbg := baseOf_proj_flagged C.hwf hv hc0 hf
          have hbg2 : baseOf C.g2 v =
              baseOf C.g2 (slots0.getD k0 default).dst :=
            baseOf_proj_flagged hwf2 (by rw [hg2v]; exact hv)
              (hg2c0.trans hc0) hf
          have hokd := ((wf_mutcand C.hwf hc0).2.2.1 _
            (getD_mem_of_lt default hk0)).2
          rw [hbg, hbg2]
          exact ih _ (lt_trans (okRef_lt hokd) hcv) (okRef_not_mutcand hokd)
        · have hf' : f0.getD k0 false = false := by
            cases hval : f0.getD k0 false
            · rfl
            · exact absurd hval hf
          have hbg := baseOf_proj_unflagged hv hc0 hf'
          have hbg2 : baseOf C.g2 v = v :=
            baseOf_proj_unflagged (by rw [hg2v]; exact hv)
              (hg2c0.trans hc0) hf'
          rw [hbg, hbg2, if_neg (fun hcon => hc0p
            (Instr.proj.inj (hv.symm.trans hcon)).2)]

theorem sidOf_exec (IU : Nat → Int → Int) (IB : Int → Int → Int)
    {g : Graph} (hwf : WFg g = true) (ins : List Int) {q v : Nat}
    (hq : q ≤ g.instrs.length) (hv : v < q)
    (hnm : ∀ s e u f c, getI g v ≠ Instr.mutcand s e u f c) :
    sidOf (execPre IU IB g q ins) v = sidAt g (baseOf g v) := by
  obtain ⟨henv, _⟩ := execPre_spec IU IB hwf ins q hq
  simp only [sidOf, henv]
  rw [rangeMap_getD _ _ _ _ hv, envSpec_one hnm]

theorem sidOf_g2_exec (C : StepCtx) (IU : Nat → Int → Int)
    (IB : Int → Int → Int) (ins : List Int) {q v : Nat}
    (hq : q ≤ C.g.instrs.length) (hv : v < q)
    (hnm : ∀ s e u f c, getI C.g v ≠ Instr.mutcand s e u f c) :
    sidOf (execPre IU IB C.g2 q ins) v =
      (if getI C.g (baseOf C.g v) = Instr.proj C.k C.p then C.sb
       else sidAt C.g (baseOf C.g v)) := by
  have hvp : v ≠ C.p := fun h => hnm _ _ _ _ _ (by rw [h]; exact C.hp)
  have hnm2 : ∀ s e u f c, getI C.g2 v ≠ Instr.mutcand s e u f c := by
    rw [getI_g2_ne C hvp]
    exact hnm
  rw [sidOf_exec IU IB (WFg_g2 C) ins (by rw [g2_len C]; exact hq) hv hnm2]
  rw [sidAt_g2 C, baseOf_g2_spec C v hnm]
  by_cases h : getI C.g (baseOf C.g v) = Instr.proj C.k C.p
  · simp only [if_pos h]
    rw [sb_def]
  · simp only [if_neg h]

theorem readV_sim (C : StepCtx) (IU : Nat → Int → Int) (IB : Int → Int → Int)
    (ins : List Int) {q : Nat} (hq : q ≤ C.g.instrs.length)
    {ms : Bool × Bool} (hinv : simInv IU IB C ins q ms) {r : Nat}
    (hok : okRef C.g q r = true)
    (hchk : (if baseOf C.g r = C.bval then ms.2
             else if some (baseOf C.g r) = C.jopt then ms.1
             else true) = true) :
    readV (execPre IU IB C.g2 q ins) r =
      readV (execPre IU IB C.g q ins) r := by
  have hr := okRef_lt hok
  have hnm := okRef_not_mutcand hok
  obtain ⟨hbase1, hbase2, hbase3⟩ := baseOf_le C.hwf r hnm
  have hblen : baseOf C.g r < C.g.instrs.length := by omega
  simp only [readV]
  rw [sidOf_exec IU IB C.hwf ins hq hr hnm,
    sidOf_g2_exec C IU IB ins hq hr hnm]
  obtain ⟨hi1, hi2, hi3, hi4⟩ := hinv
  by_cases hb : baseOf C.g r = C.bval
  · have hcond : ¬ getI C.g (baseOf C.g r) = Instr.proj C.k C.p := by
      rw [hb]
      exact bval_not_jproj C
    rw [if_neg hcond, hb, ← sb_def]
    rw [if_pos hb] at hchk
    exact hi4 hchk
  · by_cases hj : some (baseOf C.g r) = C.jopt
    · have hcond : getI C.g (baseOf C.g r) = Instr.proj C.k C.p :=
        (jopt_iff C _).mp hj
      rw [if_pos hcond]
      have hsj : sidAt C.g (baseOf C.g r) = C.sj := by
        simp only [sidAt, hcond, sj_def]
      rw [hsj]
      rw [if_neg hb, if_pos hj] at hchk
      exact hi3 hchk
    · have hcond : ¬ getI C.g (baseOf C.g r) = Instr.proj C.k C.p :=
        fun h => hj ((jopt_iff C _).mpr h)
      rw [if_neg hcond]
      have hnsb : sidAt C.g (baseOf C.g r) ≠ C.sb :=
        fun h => hb ((sid_eq_sb C hblen hbase2).mp h)
      have hnsj : sidAt C.g (baseOf C.g r) ≠ C.sj :=
        fun h => hcond ((sid_eq_sj C hblen hbase2).mp h)
      exact hi2 _ hnsb hnsj

theorem bval_raw (C : StepCtx) :
    C.bval = baseOf C.g (C.slots.getD C.k default).dst := rfl

theorem foldl_mstep_none (g : Graph) (b : Nat) (j : Option Nat)
    (l : List Instr) :
    l.foldl (fun acc i => acc.bind fun st => mstep g b j st i) none =
      none := by
  induction l with
  | nil => rfl
  | cons x rest ih =>
    simp only [List.foldl_cons, Option.none_bind]
    exact ih

theorem mrun_append (g : Graph) (b : Nat) (j : Option Nat) (st0 : Bool × Bool)
    (l1 l2 : List Instr) :
    mrun g b j st0 (l1 ++ l2) =
      (mrun g b j st0 l1).bind fun st => mrun g b j st l2 := by
  simp only [mrun, List.foldl_append]
  cases hacc : List.foldl (fun acc i => acc.bind fun st => mstep g b j st i)
      (some st0) l1 with
  | none => simp [foldl_mstep_none]
  | some st => simp

theorem mrun_single (g : Graph) (b : Nat) (j : Option Nat) (st : Bool × Bool)
    (a : Instr) : mrun g b j st [a] = mstep g b j st a := by
  simp [mrun]

theorem msAt_base (C : StepCtx) : msAt C (C.p + 1) = some (true, false) := by
  simp [msAt, mrun]

theorem msAt_succ (C : StepCtx) {q : Nat} (h1 : C.p + 1 ≤ q)
    (h2 : q < C.g.instrs.length) :
    msAt C (q + 1) =
      (msAt C q).bind fun st => mstep C.g C.bval C.jopt st (getI C.g q) := by
  have hgi : getI C.g q = C.g.instrs[q] := by
    simp [getI, List.getD_eq_getElem?_getD, List.getElem?_eq_getElem h2]
  simp only [msAt]
  have hq1 : q + 1 - (C.p + 1) = (q - (C.p + 1)) + 1 := by omega
  rw [hq1, List.take_succ, List.getElem?_drop]
  have hq2 : C.p + 1 + (q - (C.p + 1)) = q := by omega
  rw [hq2, List.getElem?_eq_getElem h2]
  simp only [Option.toList_some]
  rw [mrun_append]
  simp only [mrun_single, hgi]

theorem msAt_mono_some (C : StepCtx) {q : Nat} (h1 : C.p + 1 ≤ q)
    (h2 : q ≤ C.g.instrs.length) {stf : Bool × Bool}
    (hrun : mrun C.g C.bval C.jopt (true, false)
      (C.g.instrs.drop (C.p + 1)) = some stf) :
    ∃ st, msAt C q = some st := by
  have hsplit : C.g.instrs.drop (C.p + 1) =
      (C.g.instrs.drop (C.p + 1)).take (q - (C.p + 1)) ++
        (C.g.instrs.drop (C.p + 1)).drop (q - (C.p + 1)) :=
    (List.take_append_drop _ _).symm
  rw [hsplit, mrun_append] at hrun
  cases hms : msAt C q with
  | none =>
    rw [show mrun C.g C.bval C.jopt (true, false)
        ((C.g.instrs.drop (C.p + 1)).take (q - (C.p + 1))) = none from hms]
      at hrun
    simp at hrun
  | some st => exact ⟨st, rfl⟩

theorem msAt_full (C : StepCtx) :
    msAt C C.g.instrs.length =
      mrun C.g C.bval C.jopt (true, false) (C.g.instrs.drop (C.p + 1)) := by
  simp only [msAt]
  rw [List.take_of_length_le (by simp [List.length_drop])]

theorem slotSafe_spec (C : StepCtx) :
    (∀ i, i < C.slots.length → i ≠ C.k →
      baseOf C.g (C.slots.getD i default).dst ≠ C.bval) ∧
    ∃ stf, mrun C.g C.bval C.jopt (true, false)
        (C.g.instrs.drop (C.p + 1)) = some stf ∧
      endCheck C.g C.bval C.jopt stf = true := by
  have h := C.hsafe
  simp only [slotSafe, C.hp] at h
  rw [Bool.and_eq_true] at h
  obtain ⟨h1, h2⟩ := h
  constructor
  · intro i hi hik
    have h3 := List.all_eq_true.mp h1 i (List.mem_range.mpr hi)
    simp only [Bool.or_eq_true, beq_iff_eq, Bool.not_eq_true',
      beq_eq_false_iff_ne] at h3
    rcases h3 with hh | hh
    · exact absurd hh hik
    · rw [bval_raw]
      exact hh
  · cases hm : mrun C.g (baseOf C.g (C.slots.getD C.k default).dst)
        (findProj C.g C.p C.k) (true, false)
        (C.g.instrs.drop (C.p + 1)) with
    | none =>
      rw [hm] at h2
      exact absurd h2 (by simp)
    | some st =>
      rw [hm] at h2
      refine ⟨st, ?_, ?_⟩
      · rw [jopt_def, bval_raw]
        exact hm
      · rw [jopt_def, bval_raw]
        exact h2

theorem set_append_left {α : Type} (l1 l2 : List α) (n : Nat) (a : α)
    (h : n < l1.length) : (l1 ++ l2).set n a = l1.set n a ++ l2 := by
  rw [List.set_append, if_pos h]

theorem wfold_length (sid : Slot → Nat) :
    ∀ (l : List ((Slot × Int) × Bool)) (A : List Int),
      (wfold sid A l).length = A.length := by
  intro l
  induction l with
  | nil => intro A; rfl
  | cons x rest ih =>
    intro A
    simp only [wfold, List.foldl_cons]
    by_cases hx : x.2 = true
    · rw [if_pos hx]
      have := ih (A.set (sid x.1.1) x.1.2)
      simp only [wfold] at this
      rw [this, List.length_set]
    · rw [if_neg hx]
      exact ih A

theorem wfold_set_comm (sid : Slot → Nat) :
    ∀ (l : List ((Slot × Int) × Bool)) (A : List Int) (c : Nat) (v : Int),
      (∀ x ∈ l, x.2 = true → sid x.1.1 ≠ c) →
      wfold sid (A.set c v) l = (wfold sid A l).set c v := by
  intro l
  induction l with
  | nil => intro A c v _; rfl
  | cons x rest ih =>
    intro A c v hne
    simp only [wfold, List.foldl_cons]
    by_cases hx : x.2 = true
    · rw [if_pos hx, if_pos hx]
      rw [List.set_comm _ _ _ (fun hc => hne x (by simp) hx hc.symm)]
      exact ih _ _ _ (fun y hy => hne y (List.mem_cons_of_mem _ hy))
    · rw [if_neg hx, if_neg hx]
      exact ih _ _ _ (fun y hy => hne y (List.mem_cons_of_mem _ hy))

theorem wfold_append (sid : Slot → Nat) :
    ∀ (l : List ((Slot × Int) × Bool)) (A B : List Int),
      (∀ x ∈ l, x.2 = true → sid x.1.1 < A.length) →
      wfold sid (A ++ B) l = wfold sid A l ++ B := by
  intro l
  induction l with
  | nil => intro A B _; rfl
  | cons x rest ih =>
    intro A B hlt
    simp only [wfold, List.foldl_cons]
    by_cases hx : x.2 = true
    · rw [if_pos hx, if_pos hx,
        set_append_left _ _ _ _ (hlt x (by simp) hx)]
      exact ih _ _ (fun y hy hf => by
        rw [List.length_set]
        exact hlt y (List.mem_cons_of_mem _ hy) hf)
    · rw [if_neg hx, if_neg hx]
      exact ih _ _ (fun y hy hf => hlt y (List.mem_cons_of_mem _ hy) hf)

theorem slotsExec_store_split (sid : Slot → Nat) :
    ∀ (l : List ((Slot × Int) × Bool)) (store : List Int),
      (∀ x ∈ l, x.2 = true → sid x.1.1 < store.length) →
      (slotsExec sid store l).1 =
        wfold sid store l ++ l.map (fun x => x.1.2) := by
  intro l
  induction l with
  | nil => intro store _; simp [slotsExec, wfold]
  | cons x rest ih =>
    intro store hlt
    simp only [slotsExec, wfold, List.foldl_cons, List.map_cons]
    by_cases hx : x.2 = true
    · rw [if_pos hx, if_pos hx]
      rw [set_append_left _ _ _ _ (hlt x (by simp) hx)]
      rw [ih (store.set (sid x.1.1) x.1.2 ++ [x.1.2]) (fun y hy hf => by
        have hl := hlt y (List.mem_cons_of_mem _ hy) hf
        simp only [List.length_append, List.length_set, List.length_cons,
          List.length_nil]
        omega)]
      have hw := wfold_append sid rest (store.set (sid x.1.1) x.1.2)
        [x.1.2] (fun y hy hf => by
          rw [List.length_set]
          exact hlt y (List.mem_cons_of_mem _ hy) hf)
      simp only [wfold] at hw ⊢
      rw [hw, List.append_assoc]
      rfl
    · rw [if_neg hx, if_neg hx]
      rw [ih (store ++ [x.1.2]) (fun y hy hf => by
        have hl := hlt y (List.mem_cons_of_mem _ hy) hf
        simp only [List.length_append, List.length_cons, List.length_nil]
        omega)]
      have hw := wfold_append sid rest store [x.1.2]
        (fun y hy hf => hlt y (List.mem_cons_of_mem _ hy) hf)
      simp only [wfold] at hw ⊢
      rw [hw, List.append_assoc]
      rfl

theorem take_set_ge {α : Type} (l : List α) (p m : Nat) (a : α) (h : m ≤ p) :
    (l.set p a).take m = l.take m := by
  apply List.ext_getElem?
  intro n
  rw [List.getElem?_take, List.getElem?_take]
  by_cases hn : n < m
  · rw [if_pos hn, if_pos hn, List.getElem?_set_ne (by omega)]
  · rw [if_neg hn, if_neg hn]

theorem execPre_g2_le_p (C : StepCtx) (IU : Nat → Int → Int)
    (IB : Int → Int → Int) (ins : List Int) {m : Nat} (h : m ≤ C.p) :
    execPre IU IB C.g2 m ins = execPre IU IB C.g m ins := by
  simp only [execPre, g2_eq_setMut C, setMut]
  rw [take_set_ge _ _ _ _ h]

theorem wfold_flag_set (sid : Slot → Nat) :
    ∀ (k : Nat) (zl : List (Slot × Int)) (f : List Bool) (A : List Int),
      k < zl.length → k < f.length → f.getD k false = false →
      (∀ y ∈ zl.zip f, y.2 = true →
        sid y.1.1 ≠ sid (zl.getD k default).1) →
      wfold sid A (zl.zip (f.set k true)) =
        (wfold sid A (zl.zip f)).set (sid (zl.getD k default).1)
          (zl.getD k default).2 := by
  intro k
  induction k with
  | zero =>
    intro zl f A h1 h2 h3 hne
    cases zl with
    | nil => simp at h1
    | cons z zt =>
      cases f with
      | nil => simp at h2
      | cons b bt =>
        have hb : b = false := by simpa using h3
        subst hb
        have hcells : ∀ x ∈ zt.zip bt, x.2 = true → sid x.1.1 ≠ sid z.1 := by
          intro x hx hxf
          have := hne x (List.mem_cons_of_mem _ (by simpa using hx)) hxf
          simpa using this
        have hcomm := wfold_set_comm sid (zt.zip bt) A (sid z.1) z.2 hcells
        simp only [List.set_cons_zero, List.zip_cons_cons, wfold,
          List.foldl_cons, List.getD_cons_zero]
        simp only [wfold] at hcomm
        simpa using hcomm
  | succ k' ih =>
    intro zl f A h1 h2 h3 hne
    cases zl with
    | nil => simp at h1
    | cons z zt =>
      cases f with
      | nil => simp at h2
      | cons b bt =>
        have h1' : k' < zt.length := by simpa using h1
        have h2' : k' < bt.length := by simpa using h2
        have h3' : bt.getD k' false = false := by simpa using h3
        have hne' : ∀ y ∈ zt.zip bt, y.2 = true →
            sid y.1.1 ≠ sid (zt.getD k' default).1 := by
          intro y hy hyf
          have := hne y (List.mem_cons_of_mem _ hy) hyf
          simpa using this
        have hrec := ih zt bt (if b then A.set (sid z.1) z.2 else A)
          h1' h2' h3' hne'
        simp only [List.set_cons_succ, List.zip_cons_cons, wfold,
          List.foldl_cons, List.getD_cons_succ]
        simp only [wfold] at hrec
        by_cases hbv : b = true
        · subst hbv
          simpa using hrec
        · have hbv' : b = false := by
            cases b
            · rfl
            · exact absurd rfl hbv
          subst hbv'
          simpa using hrec

theorem zip3_maps (slots : List Slot) (ress : List Int) (f2 : List Bool)
    (h1 : ress.length = slots.length) :
    ((((slots.zip ress).zip f2).map fun x => (x.1.1, x.2)) = slots.zip f2) ∧
    (f2.length = slots.length →
      ((((slots.zip ress).zip f2).map fun x => x.1.2) = ress)) := by
  induction slots generalizing ress f2 with
  | nil =>
    have hr : ress = [] := List.length_eq_zero.mp h1
    subst hr
    simp
  | cons s st ih =>
    cases ress with
    | nil => simp at h1
    | cons r rt =>
      cases f2 with
      | nil =>
        constructor
        · simp
        · intro h2
          simp at h2
      | cons b bt =>
        have h1' : rt.length = st.length := by simpa using h1
        obtain ⟨ihA, ihB⟩ := ih rt bt h1'
        constructor
        · simp only [List.zip_cons_cons, List.map_cons]
          rw [ihA]
        · intro h2
          have h2' : bt.length = st.length := by simpa using h2
          simp only [List.zip_cons_cons, List.map_cons]
          rw [ihB h2']

theorem wfold_sim (C : StepCtx) (sid sid2 : Slot → Nat) :
    ∀ (l : List ((Slot × Int) × Bool)) (A A2 : List Int) (ms0 : Bool × Bool),
      (∀ x ∈ l, x.2 = true →
        (baseOf C.g x.1.1.dst = C.bval →
          sid x.1.1 = C.sb ∧ sid2 x.1.1 = C.sb) ∧
        (some (baseOf C.g x.1.1.dst) = C.jopt →
          sid x.1.1 = C.sj ∧ sid2 x.1.1 = C.sb) ∧
        (baseOf C.g x.1.1.dst ≠ C.bval →
          some (baseOf C.g x.1.1.dst) ≠ C.jopt →
          sid2 x.1.1 = sid x.1.1 ∧ sid x.1.1 ≠ C.sb ∧ sid x.1.1 ≠ C.sj)) →
      C.sb < A.length → C.sj < A.length →
      storeRel C.sb C.sj A A2 ms0 →
      storeRel C.sb C.sj (wfold sid A l) (wfold sid2 A2 l)
        (mfoldD C.g C.bval C.jopt ms0 l) := by
  intro l
  induction l with
  | nil =>
    intro A A2 ms0 _ _ _ hrel
    exact hrel
  | cons x rest ih =>
    intro A A2 ms0 hcls hsbl hsjl hrel
    obtain ⟨hlen, hoth, hsy, hag⟩ := hrel
    simp only [wfold, mfoldD, List.foldl_cons]
    by_cases hx : x.2 = true
    · rw [if_pos hx, if_pos hx, if_pos hx]
      obtain ⟨hc1, hc2, hc3⟩ := hcls x (by simp) hx
      by_cases hb : baseOf C.g x.1.1.dst = C.bval
      · rw [if_pos hb]
        obtain ⟨hs1, hs2⟩ := hc1 hb
        rw [hs1, hs2]
        refine ih _ _ _ (fun y hy => hcls y (List.mem_cons_of_mem _ hy)) ?_ ?_
          ?_
        · rw [List.length_set]
          exact hsbl
        · rw [List.length_set]
          exact hsjl
        · refine ⟨by rw [List.length_set, List.length_set, hlen], ?_, ?_, ?_⟩
          · intro s hsb' hsj'
            rw [getD_set_ne' _ _ _ _ _ (fun hh => hsb' hh.symm),
              getD_set_ne' _ _ _ _ _ (fun hh => hsb' hh.symm)]
            exact hoth s hsb' hsj'
          · intro hfalse
            exact absurd hfalse (by simp)
          · intro _
            rw [getD_set_eq' _ _ _ _ (by rw [hlen]; exact hsbl),
              getD_set_eq' _ _ _ _ hsbl]
      · rw [if_neg hb]
        by_cases hj : some (baseOf C.g x.1.1.dst) = C.jopt
        · rw [if_pos hj]
          obtain ⟨hs1, hs2⟩ := hc2 hj
          rw [hs1, hs2]
          refine ih _ _ _ (fun y hy => hcls y (List.mem_cons_of_mem _ hy)) ?_
            ?_ ?_
          · rw [List.length_set]
            exact hsbl
          · rw [List.length_set]
            exact hsjl
          · refine ⟨by rw [List.length_set, List.length_set, hlen], ?_, ?_, ?_⟩
            · intro s hsb' hsj'
              rw [getD_set_ne' _ _ _ _ _ (fun hh => hsb' hh.symm),
                getD_set_ne' _ _ _ _ _ (fun hh => hsj' hh.symm)]
              exact hoth s hsb' hsj'
            · intro _
              rw [getD_set_eq' _ _ _ _ (by rw [hlen]; exact hsbl),
                getD_set_eq' _ _ _ _ hsjl]
            · intro hfalse
              exact absurd hfalse (by simp)
        · rw [if_neg hj]
          obtain ⟨hs0, hs1, hs2⟩ := hc3 hb hj
          rw [hs0]
          refine ih _ _ _ (fun y hy => hcls y (List.mem_cons_of_mem _ hy)) ?_
            ?_ ?_
          · rw [List.length_set]
            exact hsbl
          · rw [List.length_set]
            exact hsjl
          · refine ⟨by rw [List.length_set, List.length_set, hlen], ?_, ?_, ?_⟩
            · intro s hsb' hsj'
              by_cases hsc : s = sid x.1.1
              · rw [hsc] at hsb' hsj' ⊢
                by_cases hsl : sid x.1.1 < A.length
                · rw [getD_set_eq' _ _ _ _ (by rw [hlen]; exact hsl),
                    getD_set_eq' _ _ _ _ hsl]
                · rw [List.set_eq_of_length_le (by rw [hlen]; omega),
                    List.set_eq_of_length_le (by omega)]
                  exact hoth _ hsb' hsj'
              · rw [getD_set_ne' _ _ _ _ _ (fun hh => hsc hh.symm),
                  getD_set_ne' _ _ _ _ _ (fun hh => hsc hh.symm)]
                exact hoth s hsb' hsj'
            · intro hms
              rw [getD_set_ne' _ _ _ _ _ hs1, getD_set_ne' _ _ _ _ _ hs2]
              exact hsy hms
            · intro hms
              rw [getD_set_ne' _ _ _ _ _ hs1, getD_set_ne' _ _ _ _ _ hs1]
              exact hag hms
    · rw [if_neg hx, if_neg hx, if_neg hx]
      exact ih _ _ _ (fun y hy => hcls y (List.mem_cons_of_mem _ hy)) hsbl
        hsjl ⟨hlen, hoth, hsy, hag⟩

theorem sidAt_base_lt {g : Graph} (hwf : WFg g = true) {q d : Nat}
    (hok : okRef g q d = true) (hq : q ≤ g.instrs.length) :
    sidAt g (baseOf g d) < storsBefore g q := by
  have hd := okRef_lt hok
  obtain ⟨hb1, hb2, hb3⟩ := baseOf_le hwf d (okRef_not_mutcand hok)
  have hbl : baseOf g d < g.instrs.length := by omega
  obtain ⟨h1, h2, h3, h4⟩ := ownerOf_block hwf hbl hb2
  exact lt_of_lt_of_le h4 (storsBefore_mono g (by omega))

theorem zip3_index {slots : List Slot} {ress : List Int} {f2 : List Bool}
    {x : (Slot × Int) × Bool} (h : x ∈ (slots.zip ress).zip f2) :
    ∃ i, i < slots.length ∧ i < ress.length ∧ i < f2.length ∧
      x = ((slots.getD i default, ress.getD i 0), f2.getD i false) := by
  obtain ⟨i, hi, hx⟩ := List.mem_iff_getElem.mp h
  have hlen := hi
  simp only [List.length_zip, lt_min_iff] at hlen
  obtain ⟨⟨h1, h2⟩, h3⟩ := hlen
  refine ⟨i, h1, h2, h3, ?_⟩
  rw [← hx, List.getElem_zip, List.getElem_zip]
  have e1 : slots.getD i default = slots[i] := by
    simp [List.getD_eq_getElem?_getD, List.getElem?_eq_getElem h1]
  have e2 : ress.getD i 0 = ress[i] := by
    simp [List.getD_eq_getElem?_getD, List.getElem?_eq_getElem h2]
  have e3 : f2.getD i false = f2[i] := by
    simp [List.getD_eq_getElem?_getD, List.getElem?_eq_getElem h3]
  rw [e1, e2, e3]

theorem sim_base (C : StepCtx) (IU : Nat → Int → Int) (IB : Int → Int → Int)
    (ins : List Int) : simInv IU IB C ins (C.p + 1) (true, false) := by
  have hpl := hplen C
  have hpe : execPre IU IB C.g2 C.p ins = execPre IU IB C.g C.p ins :=
    execPre_g2_le_p C IU IB ins le_rfl
  set σp := execPre IU IB C.g C.p ins with hσp
  obtain ⟨henv, hstl⟩ := execPre_spec IU IB C.hwf ins C.p (le_of_lt hpl)
  set ress := C.slots.map (fun sl => IU sl.op (readV σp sl.src)) with hress
  have hress_len : ress.length = C.slots.length := by
    rw [hress]
    exact List.length_map _ _
  set sid := fun sl : Slot => sidOf σp sl.dst with hsid
  have hg : execPre IU IB C.g (C.p + 1) ins =
      stepI IU IB σp (getI C.g C.p) :=
    execPre_succ IU IB C.g ins hpl
  have hg2 : execPre IU IB C.g2 (C.p + 1) ins =
      stepI IU IB σp (getI C.g2 C.p) := by
    rw [execPre_succ IU IB C.g2 ins (by rw [g2_len C]; exact hpl), hpe]
  have hslot_ok : ∀ sl ∈ C.slots, okRef C.g C.p sl.dst = true :=
    fun sl hsl => ((wf_mutcand C.hwf C.hp).2.2.1 sl hsl).2
  have hsid_spec : ∀ sl ∈ C.slots, sid sl = sidAt C.g (baseOf C.g sl.dst) := by
    intro sl hsl
    simp only [hsid]
    exact sidOf_exec IU IB C.hwf ins (le_of_lt hpl)
      (okRef_lt (hslot_ok sl hsl)) (okRef_not_mutcand (hslot_ok sl hsl))
  have hlt : ∀ (f2 : List Bool) (x : (Slot × Int) × Bool),
      x ∈ (C.slots.zip ress).zip f2 → x.2 = true →
      sid x.1.1 < σp.store.length := by
    intro f2 x hx _
    obtain ⟨i, hi1, hi2, hi3, hxe⟩ := zip3_index hx
    have hmem : x.1.1 ∈ C.slots := by
      rw [hxe]
      exact getD_mem_of_lt default hi1
    rw [hsid_spec _ hmem, hstl]
    exact sidAt_base_lt C.hwf (hslot_ok _ hmem) (le_of_lt hpl)
  have hzk_lt : C.k < (C.slots.zip ress).length := by
    simp only [List.length_zip, hress_len, min_self]
    exact C.hk
  have hzk : (C.slots.zip ress).getD C.k default =
      (C.slots.getD C.k default, ress.getD C.k 0) := by
    have hk1 : C.k < C.slots.length := C.hk
    have hk2 : C.k < ress.length := by
      rw [hress_len]
      exact C.hk
    rw [List.getD_eq_getElem?_getD, List.getElem?_eq_getElem hzk_lt,
      List.getElem_zip]
    have e1 : C.slots.getD C.k default = C.slots[C.k] := by
      simp [List.getD_eq_getElem?_getD, List.getElem?_eq_getElem hk1]
    have e2 : ress.getD C.k 0 = ress[C.k] := by
      simp [List.getD_eq_getElem?_getD, List.getElem?_eq_getElem hk2]
    rw [Option.getD_some, e1, e2]
  have hsid_k : sid (C.slots.getD C.k default) = C.sb := by
    have hdm : C.slots.getD C.k default ∈ C.slots :=
      getD_mem_of_lt default C.hk
    rw [hsid_spec _ hdm, sb_def, bval_raw]
  have hcells : ∀ y ∈ (C.slots.zip ress).zip C.flags, y.2 = true →
      sid y.1.1 ≠ sid ((C.slots.zip ress).getD C.k default).1 := by
    intro y hy hyf
    rw [hzk]
    show sid y.1.1 ≠ sid (C.slots.getD C.k default)
    rw [hsid_k]
    obtain ⟨i, hi1, hi2, hi3, hye⟩ := zip3_index hy
    have hymem : y.1.1 ∈ C.slots := by
      rw [hye]
      exact getD_mem_of_lt default hi1
    rw [hsid_spec _ hymem]
    intro hcon
    have hok := hslot_ok _ hymem
    obtain ⟨hb1, hb2, hb3⟩ := baseOf_le C.hwf y.1.1.dst
      (okRef_not_mutcand hok)
    have hblen : baseOf C.g y.1.1.dst < C.g.instrs.length := by
      have := okRef_lt hok
      omega
    have hbv : baseOf C.g y.1.1.dst = C.bval :=
      (sid_eq_sb C hblen hb2).mp hcon
    have hyf' : C.flags.getD i false = true := by
      rw [hye] at hyf
      exact hyf
    have hik : i ≠ C.k := by
      intro hik
      rw [hik] at hyf'
      rw [C.hfl] at hyf'
      exact Bool.noConfusion hyf'
    have hconj := (slotSafe_spec C).1 i hi1 hik
    rw [hye] at hbv
    exact hconj hbv
  have hwfs := wfold_flag_set sid C.k (C.slots.zip ress) C.flags σp.store
    hzk_lt (by rw [flags_len C]; exact C.hk) C.hfl hcells
  have hset_cell : sid ((C.slots.zip ress).getD C.k default).1 = C.sb := by
    rw [hzk]
    exact hsid_k
  have hset_val : ((C.slots.zip ress).getD C.k default).2 =
      ress.getD C.k 0 := by
    rw [hzk]
  set W := wfold sid σp.store ((C.slots.zip ress).zip C.flags) with hWdef
  have hmap1 := (zip3_maps C.slots ress C.flags hress_len).2 (flags_len C)
  have hmap2 := (zip3_maps C.slots ress (C.flags.set C.k true) hress_len).2
    (by rw [List.length_set]; exact flags_len C)
  have hsto_g : (execPre IU IB C.g (C.p + 1) ins).store = W ++ ress := by
    rw [hg, C.hp]
    show (slotsExec sid σp.store ((C.slots.zip ress).zip C.flags)).1 =
      W ++ ress
    rw [slotsExec_store_split sid _ _ (fun x hx hxf => hlt _ x hx hxf), hmap1]
  have hsto_g2 : (execPre IU IB C.g2 (C.p + 1) ins).store =
      W.set C.sb (ress.getD C.k 0) ++ ress := by
    rw [hg2, getI_g2_self C]
    show (slotsExec sid σp.store
        ((C.slots.zip ress).zip (C.flags.set C.k true))).1 =
      W.set C.sb (ress.getD C.k 0) ++ ress
    rw [slotsExec_store_split sid _ _ (fun x hx hxf => hlt _ x hx hxf), hmap2,
      hwfs, hset_cell, hset_val]
  have hinp_g : (execPre IU IB C.g (C.p + 1) ins).inp = σp.inp := by
    rw [hg, C.hp]
    rfl
  have hinp_g2 : (execPre IU IB C.g2 (C.p + 1) ins).inp = σp.inp := by
    rw [hg2, getI_g2_self C]
    rfl
  have hWlen : W.length = storsBefore C.g C.p := by
    rw [hWdef, wfold_length, hstl]
  have hsbW : C.sb < W.length := by
    rw [hWlen]
    exact sb_block C
  have hsjW : storsBefore C.g C.p ≤ C.sj := (sj_block C).1
  refine ⟨?_, ?_, ?_, ?_⟩
  · rw [hinp_g, hinp_g2]
  · intro s hsb' hsj'
    rw [hsto_g, hsto_g2]
    by_cases hsl : s < W.length
    · rw [List.getD_append _ _ _ _ (by rw [List.length_set]; exact hsl),
        List.getD_append _ _ _ _ hsl,
        getD_set_ne' _ _ _ _ _ (fun hh => hsb' hh.symm)]
    · rw [List.getD_append_right _ _ _ _ (by rw [List.length_set]; omega),
        List.getD_append_right _ _ _ _ (by omega), List.length_set]
  · intro _
    rw [hsto_g, hsto_g2]
    rw [List.getD_append _ _ _ _ (by rw [List.length_set]; exact hsbW)]
    rw [getD_set_eq' _ _ _ _ hsbW]
    rw [List.getD_append_right _ _ _ _ (by omega)]
    have hje : C.sj - W.length = C.k := by
      rw [hWlen, sj_def]
      omega
    rw [hje]
  · intro hfalse
    exact absurd hfalse (by simp)

theorem mstep_checkReads {g : Graph} {b : Nat} {j : Option Nat}
    {ms ms' : Bool × Bool} {i : Instr}
    (h : mstep g b j ms i = some ms') :
    checkReads g b j ms i.readsOf = true := by
  by_cases hc : checkReads g b j ms i.readsOf = true
  · exact hc
  · simp only [mstep] at h
    rw [if_neg hc] at h
    exact Option.noConfusion h

theorem checkReads_spec {g : Graph} {b : Nat} {j : Option Nat}
    {ms : Bool × Bool} {rs : List Nat} (h : checkReads g b j ms rs = true) :
    ∀ r ∈ rs, (if baseOf g r = b then ms.2
               else if some (baseOf g r) = j then ms.1 else true) = true := by
  intro r hr
  simp only [checkReads] at h
  exact List.all_eq_true.mp h r hr

theorem simInv_of (C : StepCtx) (IU : Nat → Int → Int) (IB : Int → Int → Int)
    (ins : List Int) (q : Nat) (ms : Bool × Bool)
    (hinp : (execPre IU IB C.g2 q ins).inp = (execPre IU IB C.g q ins).inp)
    (hrel : storeRel C.sb C.sj (execPre IU IB C.g q ins).store
      (execPre IU IB C.g2 q ins).store ms) :
    simInv IU IB C ins q ms :=
  ⟨hinp, hrel.2.1, hrel.2.2.1, hrel.2.2.2⟩

theorem exec_len_eq (C : StepCtx) (IU : Nat → Int → Int)
    (IB : Int → Int → Int) (ins : List Int) {q : Nat}
    (hq : q ≤ C.g.instrs.length) :
    (execPre IU IB C.g2 q ins).store.length =
      (execPre IU IB C.g q ins).store.length := by
  rw [(execPre_spec IU IB C.hwf ins q hq).2,
    (execPre_spec IU IB (WFg_g2 C) ins q (by rw [g2_len C]; exact hq)).2,
    storsBefore_g2]

theorem storeRel_of_simInv (C : StepCtx) {IU : Nat → Int → Int}
    {IB : Int → Int → Int} {ins : List Int} {q : Nat} {ms : Bool × Bool}
    (h : simInv IU IB C ins q ms) (hq : q ≤ C.g.instrs.length) :
    storeRel C.sb C.sj (execPre IU IB C.g q ins).store
      (execPre IU IB C.g2 q ins).store ms :=
  ⟨exec_len_eq C IU IB ins hq, h.2.1, h.2.2.1, h.2.2.2⟩

theorem storeRel_append {sb sj : Nat} {A A2 B : List Int} {ms : Bool × Bool}
    (hsb : sb < A.length) (hsj : sj < A.length)
    (hrel : storeRel sb sj A A2 ms) :
    storeRel sb sj (A ++ B) (A2 ++ B) ms := by
  obtain ⟨hlen, hoth, hsy, hag⟩ := hrel
  refine ⟨by simp [hlen], ?_, ?_, ?_⟩
  · intro s h1 h2
    by_cases hs : s < A.length
    · rw [List.getD_append _ _ _ _ (by rw [hlen]; exact hs),
        List.getD_append _ _ _ _ hs]
      exact hoth s h1 h2
    · rw [List.getD_append_right _ _ _ _ (by rw [hlen]; omega),
        List.getD_append_right _ _ _ _ (by omega), hlen]
  · intro hm
    rw [List.getD_append _ _ _ _ (by rw [hlen]; exact hsb),
      List.getD_append _ _ _ _ hsj]
    exact hsy hm
  · intro hm
    rw [List.getD_append _ _ _ _ (by rw [hlen]; exact hsb),
      List.getD_append _ _ _ _ hsb]
    exact hag hm

theorem mstep_mutcand_eq (g : Graph) (b : Nat) (j : Option Nat)
    (ms : Bool × Bool) (slots2 : List Slot) (ress2 : List Int)
    (f2 : List Bool) (hlen : ress2.length = slots2.length) :
    ((slots2.zip f2).foldl (fun acc sf =>
        if sf.2 then
          if baseOf g sf.1.dst = b then (false, true)
          else if some (baseOf g sf.1.dst) = j then (true, false)
          else acc
        else acc) ms) =
      mfoldD g b j ms ((slots2.zip ress2).zip f2) := by
  have hm := (zip3_maps slots2 ress2 f2 hlen).1
  rw [← hm, List.foldl_map]
  rfl

theorem sim_step (C : StepCtx) (IU : Nat → Int → Int) (IB : Int → Int → Int)
    (ins : List Int) {q : Nat} (hq1 : C.p + 1 ≤ q)
    (hq2 : q < C.g.instrs.length) {ms ms' : Bool × Bool}
    (hms : mstep C.g C.bval C.jopt ms (getI C.g q) = some ms')
    (hinv : simInv IU IB C ins q ms) :
    simInv IU IB C ins (q + 1) ms' := by
  have hql : q ≤ C.g.instrs.length := le_of_lt hq2
  have hqp : q ≠ C.p := by omega
  have hgq2 : getI C.g2 q = getI C.g q := getI_g2_ne C hqp
  have hcr := mstep_checkReads hms
  have hrel := storeRel_of_simInv C hinv hql
  have hi1 := hinv.1
  have hgl : (execPre IU IB C.g q ins).store.length = storsBefore C.g q :=
    (execPre_spec IU IB C.hwf ins q hql).2
  have hg2l : (execPre IU IB C.g2 q ins).store.length = storsBefore C.g q := by
    rw [(execPre_spec IU IB (WFg_g2 C) ins q
      (by rw [g2_len C]; exact hql)).2, storsBefore_g2]
  have hsbq : C.sb < storsBefore C.g q :=
    lt_of_lt_of_le (sb_block C) (storsBefore_mono C.g (by omega))
  have hsjq : C.sj < storsBefore C.g q :=
    lt_of_lt_of_le (sj_block C).2 (storsBefore_mono C.g (by omega))
  have hsucc_g : execPre IU IB C.g (q + 1) ins =
      stepI IU IB (execPre IU IB C.g q ins) (getI C.g q) :=
    execPre_succ IU IB C.g ins hq2
  have hsucc_g2 : execPre IU IB C.g2 (q + 1) ins =
      stepI IU IB (execPre IU IB C.g2 q ins) (getI C.g q) := by
    rw [execPre_succ IU IB C.g2 ins (by rw [g2_len C]; exact hq2), hgq2]
  set σ := execPre IU IB C.g q ins with hσ
  set σ2 := execPre IU IB C.g2 q ins with hσ2
  cases hv : getI C.g q with
  | input =>
    rw [hv] at hms hcr hsucc_g hsucc_g2
    simp only [mstep] at hms
    rw [if_pos hcr] at hms
    have hmse := Option.some.inj hms
    subst hmse
    refine simInv_of C IU IB ins _ _ ?_ ?_
    · rw [hsucc_g, hsucc_g2]
      show σ2.inp.tail = σ.inp.tail
      rw [hi1]
    · rw [hsucc_g, hsucc_g2]
      show storeRel C.sb C.sj (σ.store ++ [σ.inp.headD 0])
        (σ2.store ++ [σ2.inp.headD 0]) ms
      rw [hi1]
      exact storeRel_append (by rw [hgl]; exact hsbq)
        (by rw [hgl]; exact hsjq) hrel
  | freshbuf =>
    rw [hv] at hms hcr hsucc_g hsucc_g2
    simp only [mstep] at hms
    rw [if_pos hcr] at hms
    have hmse := Option.some.inj hms
    subst hmse
    refine simInv_of C IU IB ins _ _ ?_ ?_
    · rw [hsucc_g, hsucc_g2]
      show σ2.inp = σ.inp
      exact hi1
    · rw [hsucc_g, hsucc_g2]
      show storeRel C.sb C.sj (σ.store ++ [0]) (σ2.store ++ [0]) ms
      exact storeRel_append (by rw [hgl]; exact hsbq)
        (by rw [hgl]; exact hsjq) hrel
  | unary o s =>
    rw [hv] at hms hcr hsucc_g hsucc_g2
    simp only [mstep] at hms
    rw [if_pos hcr] at hms
    have hmse := Option.some.inj hms
    subst hmse
    have hok := wf_unary C.hwf hv
    have hchk := checkReads_spec hcr s (by simp [Instr.readsOf])
    have hw : readV σ2 s = readV σ s :=
      readV_sim C IU IB ins hql hinv hok hchk
    refine simInv_of C IU IB ins _ _ ?_ ?_
    · rw [hsucc_g, hsucc_g2]
      show σ2.inp = σ.inp
      exact hi1
    · rw [hsucc_g, hsucc_g2]
      show storeRel C.sb C.sj (σ.store ++ [IU o (readV σ s)])
        (σ2.store ++ [IU o (readV σ2 s)]) ms
      rw [hw]
      exact storeRel_append (by rw [hgl]; exact hsbq)
        (by rw [hgl]; exact hsjq) hrel
  | binop x y =>
    rw [hv] at hms hcr hsucc_g hsucc_g2
    simp only [mstep] at hms
    rw [if_pos hcr] at hms
    have hmse := Option.some.inj hms
    subst hmse
    obtain ⟨hokx, hoky⟩ := wf_binop C.hwf hv
    have hchkx := checkReads_spec hcr x (by simp [Instr.readsOf])
    have hchky := checkReads_spec hcr y (by simp [Instr.readsOf])
    have hwx : readV σ2 x = readV σ x :=
      readV_sim C IU IB ins hql hinv hokx hchkx
    have hwy : readV σ2 y = readV σ y :=
      readV_sim C IU IB ins hql hinv hoky hchky
    refine simInv_of C IU IB ins _ _ ?_ ?_
    · rw [hsucc_g, hsucc_g2]
      show σ2.inp = σ.inp
      exact hi1
    · rw [hsucc_g, hsucc_g2]
      show storeRel C.sb C.sj (σ.store ++ [IB (readV σ x) (readV σ y)])
        (σ2.store ++ [IB (readV σ2 x) (readV σ2 y)]) ms
      rw [hwx, hwy]
      exact storeRel_append (by rw [hgl]; exact hsbq)
        (by rw [hgl]; exact hsjq) hrel
  | view s =>
    rw [hv] at hms hcr hsucc_g hsucc_g2
    simp only [mstep] at hms
    rw [if_pos hcr] at hms
    have hmse := Option.some.inj hms
    subst hmse
    refine simInv_of C IU IB ins _ _ ?_ ?_
    · rw [hsucc_g, hsucc_g2]
      show σ2.inp = σ.inp
      exact hi1
    · rw [hsucc_g, hsucc_g2]
      show storeRel C.sb C.sj σ.store σ2.store ms
      exact hrel
  | proj k0 c0 =>
    rw [hv] at hms hcr hsucc_g hsucc_g2
    simp only [mstep] at hms
    rw [if_pos hcr] at hms
    have hmse := Option.some.inj hms
    subst hmse
    refine simInv_of C IU IB ins _ _ ?_ ?_
    · rw [hsucc_g, hsucc_g2]
      show σ2.inp = σ.inp
      exact hi1
    · rw [hsucc_g, hsucc_g2]
      show storeRel C.sb C.sj σ.store σ2.store ms
      exact hrel
  | copyInto d s =>
    rw [hv] at hms hcr hsucc_g hsucc_g2
    simp only [mstep] at hms
    rw [if_pos hcr] at hms
    obtain ⟨hokd, hoks⟩ := wf_copy C.hwf hv
    have hchk := checkReads_spec hcr s (by simp [Instr.readsOf])
    have hw : readV σ2 s = readV σ s :=
      readV_sim C IU IB ins hql hinv hoks hchk
    have hnmd := okRef_not_mutcand hokd
    have hsidd : sidOf σ d = sidAt C.g (baseOf C.g d) :=
      sidOf_exec IU IB C.hwf ins hql (okRef_lt hokd) hnmd
    have hsidd2 : sidOf σ2 d =
        (if getI C.g (baseOf C.g d) = Instr.proj C.k C.p then C.sb
         else sidAt C.g (baseOf C.g d)) :=
      sidOf_g2_exec C IU IB ins hql (okRef_lt hokd) hnmd
    obtain ⟨hb1, hb2, hb3⟩ := baseOf_le C.hwf d hnmd
    have hdlen : baseOf C.g d < C.g.instrs.length := by
      have := okRef_lt hokd
      omega
    obtain ⟨hlen2, hoth, hsy, hag⟩ := hrel
    refine simInv_of C IU IB ins _ _ ?_ ?_
    · rw [hsucc_g, hsucc_g2]
      show σ2.inp = σ.inp
      exact hi1
    · rw [hsucc_g, hsucc_g2]
      show storeRel C.sb C.sj (σ.store.set (sidOf σ d) (readV σ s))
        (σ2.store.set (sidOf σ2 d) (readV σ2 s)) ms'
      rw [hw, hsidd, hsidd2]
      by_cases hbd : baseOf C.g d = C.bval
      · rw [if_neg (by rw [hbd]; exact bval_not_jproj C), hbd, ← sb_def]
        rw [if_pos hbd] at hms
        refine ⟨by rw [List.length_set, List.length_set, hlen2], ?_, ?_, ?_⟩
        · intro s' h1 h2
          rw [getD_set_ne' _ _ _ _ _ (fun hh => h1 hh.symm),
            getD_set_ne' _ _ _ _ _ (fun hh => h1 hh.symm)]
          exact hoth s' h1 h2
        · intro hm1
          rw [getD_set_eq' _ _ _ _ (by rw [hlen2, hgl]; exact hsbq),
            getD_set_ne' _ _ _ _ _ (sb_ne_sj C)]
          by_cases hsj' : some (baseOf C.g s) = C.jopt
          · rw [if_pos hsj'] at hms
            have hjp := (jopt_iff C _).mp hsj'
            have hsids : sidOf σ s = sidAt C.g (baseOf C.g s) :=
              sidOf_exec IU IB C.hwf ins hql (okRef_lt hoks)
                (okRef_not_mutcand hoks)
            have hsj2 : sidAt C.g (baseOf C.g s) = C.sj := by
              simp only [sidAt, hjp, sj_def]
            simp only [readV, hsids, hsj2]
          · rw [if_neg hsj'] at hms
            by_cases hss : baseOf C.g s = C.bval
            · rw [if_pos hss] at hms
              have hmse := Option.some.inj hms
              have hms1 : ms.1 = true := by
                rw [← hmse] at hm1
                exact hm1
              rw [← hw]
              have hsids2 : sidOf σ2 s =
                  (if getI C.g (baseOf C.g s) = Instr.proj C.k C.p then C.sb
                   else sidAt C.g (baseOf C.g s)) :=
                sidOf_g2_exec C IU IB ins hql (okRef_lt hoks)
                  (okRef_not_mutcand hoks)
              rw [readV, hsids2,
                if_neg (by rw [hss]; exact bval_not_jproj C), hss, ← sb_def]
              exact hsy hms1
            · rw [if_neg hss] at hms
              have hmse := Option.some.inj hms
              rw [← hmse] at hm1
              exact absurd hm1 (by simp)
        · intro _
          rw [getD_set_eq' _ _ _ _ (by rw [hlen2, hgl]; exact hsbq),
            getD_set_eq' _ _ _ _ (by rw [hgl]; exact hsbq)]
      · rw [if_neg hbd] at hms
        by_cases hjd : some (baseOf C.g d) = C.jopt
        · have hjp := (jopt_iff C _).mp hjd
          rw [if_pos hjp]
          have hsjd : sidAt C.g (baseOf C.g d) = C.sj := by
            simp only [sidAt, hjp, sj_def]
          rw [hsjd]
          rw [if_pos hjd] at hms
          have hmse := Option.some.inj hms
          rw [← hmse]
          refine ⟨by rw [List.length_set, List.length_set, hlen2], ?_, ?_, ?_⟩
          · intro s' h1 h2
            rw [getD_set_ne' _ _ _ _ _ (fun hh => h1 hh.symm),
              getD_set_ne' _ _ _ _ _ (fun hh => h2 hh.symm)]
            exact hoth s' h1 h2
          · intro _
            rw [getD_set_eq' _ _ _ _ (by rw [hlen2, hgl]; exact hsbq),
              getD_set_eq' _ _ _ _ (by rw [hgl]; exact hsjq)]
          · intro hfalse
            exact absurd hfalse (by simp)
        · have hnj : ¬ getI C.g (baseOf C.g d) = Instr.proj C.k C.p :=
            fun h => hjd ((jopt_iff C _).mpr h)
          rw [if_neg hnj]
          rw [if_neg hjd] at hms
          have hmse := Option.some.inj hms
          rw [← hmse]
          have hcsb : sidAt C.g (baseOf C.g d) ≠ C.sb :=
            fun h => hbd ((sid_eq_sb C hdlen hb2).mp h)
          have hcsj : sidAt C.g (baseOf C.g d) ≠ C.sj :=
            fun h => hnj ((sid_eq_sj C hdlen hb2).mp h)
          refine ⟨by rw [List.length_set, List.length_set, hlen2], ?_, ?_, ?_⟩
          · intro s' h1 h2
            by_cases hsc : s' = sidAt C.g (baseOf C.g d)
            · rw [hsc] at h1 h2 ⊢
              by_cases hsl : sidAt C.g (baseOf C.g d) < σ.store.length
              · rw [getD_set_eq' _ _ _ _ (by rw [hlen2]; exact hsl),
                  getD_set_eq' _ _ _ _ hsl]
              · rw [List.set_eq_of_length_le (by rw [hlen2]; omega),
                  List.set_eq_of_length_le (by omega)]
                exact hoth _ h1 h2
            · rw [getD_set_ne' _ _ _ _ _ (fun hh => hsc hh.symm),
                getD_set_ne' _ _ _ _ _ (fun hh => hsc hh.symm)]
              exact hoth s' h1 h2
          · intro hm1
            rw [getD_set_ne' _ _ _ _ _ hcsb, getD_set_ne' _ _ _ _ _ hcsj]
            exact hsy hm1
          · intro hm2
            rw [getD_set_ne' _ _ _ _ _ hcsb, getD_set_ne' _ _ _ _ _ hcsb]
            exact hag hm2
  | mutcand slots2 e2 u2 f2 cl2 =>
    rw [hv] at hms hcr hsucc_g hsucc_g2
    simp only [mstep] at hms
    rw [if_pos hcr] at hms
    obtain ⟨hf2l, hcl2l, hslots2, hextra2⟩ := wf_mutcand C.hwf hv
    have hress_eq : slots2.map (fun sl => IU sl.op (readV σ2 sl.src)) =
        slots2.map (fun sl => IU sl.op (readV σ sl.src)) := by
      apply List.map_congr_left
      intro sl hsl
      have hoksrc := (hslots2 sl hsl).1
      have hsrc_mem : sl.src ∈ (Instr.mutcand slots2 e2 u2 f2 cl2).readsOf := by
        simp only [Instr.readsOf, List.mem_append, List.mem_map]
        exact Or.inl ⟨sl, hsl, rfl⟩
      have hchks := checkReads_spec hcr sl.src hsrc_mem
      rw [readV_sim C IU IB ins hql hinv hoksrc hchks]
    set ress2 := slots2.map (fun sl => IU sl.op (readV σ sl.src)) with hress2
    have hress2_len : ress2.length = slots2.length := List.length_map _ _
    have hms' : ms' =
        mfoldD C.g C.bval C.jopt ms ((slots2.zip ress2).zip f2) := by
      have hfold := Option.some.inj hms
      rw [← hfold,
        mstep_mutcand_eq C.g C.bval C.jopt ms slots2 ress2 f2 hress2_len]
    have hcls : ∀ x ∈ (slots2.zip ress2).zip f2, x.2 = true →
        ((baseOf C.g x.1.1.dst = C.bval →
          sidOf σ x.1.1.dst = C.sb ∧ sidOf σ2 x.1.1.dst = C.sb) ∧
         (some (baseOf C.g x.1.1.dst) = C.jopt →
          sidOf σ x.1.1.dst = C.sj ∧ sidOf σ2 x.1.1.dst = C.sb) ∧
         (baseOf C.g x.1.1.dst ≠ C.bval →
          some (baseOf C.g x.1.1.dst) ≠ C.jopt →
          sidOf σ2 x.1.1.dst = sidOf σ x.1.1.dst ∧
          sidOf σ x.1.1.dst ≠ C.sb ∧ sidOf σ x.1.1.dst ≠ C.sj)) := by
      intro x hx _
      obtain ⟨i, hi1, hi2, hi3, hxe⟩ := zip3_index hx
      have hmem : x.1.1 ∈ slots2 := by
        rw [hxe]
        exact getD_mem_of_lt default hi1
      have hokd := (hslots2 _ hmem).2
      have hnmd := okRef_not_mutcand hokd
      have hsd : sidOf σ x.1.1.dst = sidAt C.g (baseOf C.g x.1.1.dst) :=
        sidOf_exec IU IB C.hwf ins hql (okRef_lt hokd) hnmd
      have hsd2 : sidOf σ2 x.1.1.dst =
          (if getI C.g (baseOf C.g x.1.1.dst) = Instr.proj C.k C.p then C.sb
           else sidAt C.g (baseOf C.g x.1.1.dst)) :=
        sidOf_g2_exec C IU IB ins hql (okRef_lt hokd) hnmd
      obtain ⟨hb1, hb2, hb3⟩ := baseOf_le C.hwf x.1.1.dst hnmd
      have hdlen : baseOf C.g x.1.1.dst < C.g.instrs.length := by
        have := okRef_lt hokd
        omega
      refine ⟨?_, ?_, ?_⟩
      · intro hbd
        constructor
        · rw [hsd, hbd, ← sb_def]
        · rw [hsd2, if_neg (by rw [hbd]; exact bval_not_jproj C), hbd,
            ← sb_def]
      · intro hjd
        have hjp := (jopt_iff C _).mp hjd
        constructor
        · rw [hsd]
          simp only [sidAt, hjp, sj_def]
        · rw [hsd2, if_pos hjp]
      · intro hbd hjd
        have hnj : ¬ getI C.g (baseOf C.g x.1.1.dst) = Instr.proj C.k C.p :=
          fun h => hjd ((jopt_iff C _).mpr h)
        refine ⟨by rw [hsd, hsd2, if_neg hnj], ?_, ?_⟩
        · rw [hsd]
          exact fun h => hbd ((sid_eq_sb C hdlen hb2).mp h)
        · rw [hsd]
          exact fun h => hjd ((jopt_iff C _).mpr
            ((sid_eq_sj C hdlen hb2).mp h))
    have hltg : ∀ x ∈ (slots2.zip ress2).zip f2, x.2 = true →
        sidOf σ x.1.1.dst < σ.store.length := by
      intro x hx _
      obtain ⟨i, hi1, hi2, hi3, hxe⟩ := zip3_index hx
      have hmem : x.1.1 ∈ slots2 := by
        rw [hxe]
        exact getD_mem_of_lt default hi1
      have hokd := (hslots2 _ hmem).2
      rw [sidOf_exec IU IB C.hwf ins hql (okRef_lt hokd)
        (okRef_not_mutcand hokd), hgl]
      exact sidAt_base_lt C.hwf hokd hql
    have hltg2 : ∀ x ∈ (slots2.zip ress2).zip f2, x.2 = true →
        sidOf σ2 x.1.1.dst < σ2.store.length := by
      intro x hx _
      obtain ⟨i, hi1, hi2, hi3, hxe⟩ := zip3_index hx
      have hmem : x.1.1 ∈ slots2 := by
        rw [hxe]
        exact getD_mem_of_lt default hi1
      have hokd := (hslots2 _ hmem).2
      rw [sidOf_g2_exec C IU IB ins hql (okRef_lt hokd)
        (okRef_not_mutcand hokd), hg2l]
      by_cases hc : getI C.g (baseOf C.g x.1.1.dst) = Instr.proj C.k C.p
      · rw [if_pos hc]
        exact lt_of_lt_of_le (sb_block C) (storsBefore_mono C.g (by omega))
      · rw [if_neg hc]
        exact sidAt_base_lt C.hwf hokd hql
    refine simInv_of C IU IB ins _ _ ?_ ?_
    · rw [hsucc_g, hsucc_g2]
      show σ2.inp = σ.inp
      exact hi1
    · rw [hsucc_g, hsucc_g2]
      show storeRel C.sb C.sj
        (slotsExec (fun sl => sidOf σ sl.dst) σ.store
          ((slots2.zip ress2).zip f2)).1
        (slotsExec (fun sl => sidOf σ2 sl.dst) σ2.store
          ((slots2.zip (slots2.map
            (fun sl => IU sl.op (readV σ2 sl.src)))).zip f2)).1 ms'
      rw [hress_eq]
      rw [slotsExec_store_split _ _ _ hltg, slotsExec_store_split _ _ _ hltg2]
      rw [hms', (zip3_maps slots2 ress2 f2 hress2_len).2 hf2l]
      apply storeRel_append
      · rw [wfold_length, hgl]
        exact hsbq
      · rw [wfold_length, hgl]
        exact hsjq
      · exact wfold_sim C _ _ _ _ _ _ hcls (by rw [hgl]; exact hsbq)
          (by rw [hgl]; exact hsjq) hrel

theorem sim_chain (C : StepCtx) (IU : Nat → Int → Int) (IB : Int → Int → Int)
    (ins : List Int) :
    ∀ n, C.p + 1 + n ≤ C.g.instrs.length →
      ∃ msv, msAt C (C.p + 1 + n) = some msv ∧
        simInv IU IB C ins (C.p + 1 + n) msv := by
  intro n
  induction n with
  | zero =>
    intro _
    exact ⟨(true, false), msAt_base C, sim_base C IU IB ins⟩
  | succ n ih =>
    intro h
    obtain ⟨msv, hmsv, hinv⟩ := ih (by omega)
    obtain ⟨stf, hrun, hend⟩ := (slotSafe_spec C).2
    obtain ⟨ms2, hms2⟩ := msAt_mono_some C (q := C.p + 1 + (n + 1))
      (by omega) (by omega) hrun
    have heq : C.p + 1 + (n + 1) = (C.p + 1 + n) + 1 := by omega
    rw [heq, msAt_succ C (by omega) (by omega), hmsv,
      Option.some_bind] at hms2
    refine ⟨ms2, ?_, ?_⟩
    · rw [heq, msAt_succ C (by omega) (by omega), hmsv, Option.some_bind,
        hms2]
    · rw [heq]
      exact sim_step C IU IB ins (by omega) (by omega) hms2 hinv

theorem execG_eq (IU : Nat → Int → Int) (IB : Int → Int → Int) (g : Graph)
    (ins : List Int) :
    execG IU IB g ins = execPre IU IB g g.instrs.length ins := by
  simp only [execG, execPre, List.take_length]

theorem inputPositions_g2 (C : StepCtx) :
    inputPositions C.g2 = inputPositions C.g := by
  simp only [inputPositions, g2_len C]
  apply List.filter_congr
  intro v _
  rw [isInput_g2 C]

theorem endCheck_spec (C : StepCtx) {stf : Bool × Bool}
    (hend : endCheck C.g C.bval C.jopt stf = true) :
    checkReads C.g C.bval C.jopt stf C.g.outputs = true ∧
    (isInput C.g C.bval = true → stf.2 = true) := by
  simp only [endCheck, Bool.and_eq_true, Bool.or_eq_true,
    Bool.not_eq_true'] at hend
  obtain ⟨h1, h2⟩ := hend
  refine ⟨h1, ?_⟩
  intro hin
  rcases h2 with hh | hh
  · rw [hin] at hh
    exact Bool.noConfusion hh
  · exact hh

theorem step_obs (C : StepCtx) : obsEq C.g2 C.g := by
  intro IU IB ins
  obtain ⟨stf, hrun, hend⟩ := (slotSafe_spec C).2
  have hlen := hplen C
  obtain ⟨n, hn⟩ : ∃ n, C.p + 1 + n = C.g.instrs.length :=
    ⟨C.g.instrs.length - (C.p + 1), by omega⟩
  obtain ⟨msv, hmsv, hinv⟩ := sim_chain C IU IB ins n (by omega)
  rw [hn] at hmsv hinv
  have hmsv2 : msAt C C.g.instrs.length = some stf := by
    rw [msAt_full C, hrun]
  have hstf : msv = stf := by
    rw [hmsv] at hmsv2
    exact Option.some.inj hmsv2
  subst hstf
  obtain ⟨hcrout, hinp_end⟩ := endCheck_spec C hend
  have hout : ∀ o ∈ C.g.outputs,
      readV (execPre IU IB C.g2 C.g.instrs.length ins) o =
      readV (execPre IU IB C.g C.g.instrs.length ins) o := by
    intro o ho
    exact readV_sim C IU IB ins le_rfl hinv (wfOut C.hwf ho)
      (checkReads_spec hcrout o ho)
  have hinp : ∀ v ∈ inputPositions C.g,
      readV (execPre IU IB C.g2 C.g.instrs.length ins) v =
      readV (execPre IU IB C.g C.g.instrs.length ins) v := by
    intro v hvmem
    have hvlen : v < C.g.instrs.length := by
      simp only [inputPositions, List.mem_filter, List.mem_range] at hvmem
      exact hvmem.1
    have hvin : isInput C.g v = true := by
      simp only [inputPositions, List.mem_filter] at hvmem
      exact hvmem.2
    have hvi : getI C.g v = Instr.input := by
      cases hvv : getI C.g v
      case input => rfl
      all_goals (simp only [isInput, hvv] at hvin; exact Bool.noConfusion hvin)
    have hok : okRef C.g C.g.instrs.length v = true := by
      simp only [okRef, hvi, Bool.and_eq_true, decide_eq_true_eq]
      exact ⟨hvlen, trivial⟩
    have hbase : baseOf C.g v = v := baseOf_self (by rw [hvi]; trivial)
    refine readV_sim C IU IB ins le_rfl hinv hok ?_
    rw [hbase]
    by_cases hvb : v = C.bval
    · rw [if_pos hvb]
      apply hinp_end
      rw [← hvb]
      simp [isInput, hvi]
    · rw [if_neg hvb]
      have hnj : ¬ some v = C.jopt := by
        intro hcon
        have h2 := (jopt_iff C v).mp hcon
        rw [hvi] at h2
        exact Instr.noConfusion h2
      rw [if_neg hnj]
  simp only [obs, execG_eq]
  rw [g2_len C, g2_outputs C, inputPositions_g2 C]
  simp only [Prod.mk.injEq]
  exact ⟨List.map_congr_left hout, List.map_congr_left hinp⟩

theorem obsEq_refl (g : Graph) : obsEq g g := fun _ _ _ => rfl

theorem obsEq_trans {a b c : Graph} (h1 : obsEq a b) (h2 : obsEq b c) :
    obsEq a c := fun IU IB ins => (h1 IU IB ins).trans (h2 IU IB ins)

theorem execPre_eq_of_getI (IU : Nat → Int → Int) (IB : Int → Int → Int)
    {g g' : Graph} (hlen : g'.instrs.length = g.instrs.length)
    (hstep : ∀ st q, q < g.instrs.length →
      stepI IU IB st (getI g' q) = stepI IU IB st (getI g q))
    (ins : List Int) :
    ∀ q, execPre IU IB g' q ins = execPre IU IB g q ins := by
  intro q
  induction q with
  | zero => rfl
  | succ n ih =>
    by_cases h : n < g.instrs.length
    · rw [execPre_succ IU IB g' ins (by rw [hlen]; exact h),
        execPre_succ IU IB g ins h, ih, hstep _ n h]
    · have e1 : execPre IU IB g' (n + 1) ins = execPre IU IB g' n ins := by
        simp only [execPre]
        rw [List.take_of_length_le (by rw [hlen]; omega),
          List.take_of_length_le (by rw [hlen]; omega)]
      have e2 : execPre IU IB g (n + 1) ins = execPre IU IB g n ins := by
        simp only [execPre]
        rw [List.take_of_length_le (by omega),
          List.take_of_length_le (by omega)]
      rw [e1, e2, ih]

theorem obsEq_setClone (g : Graph) (p k : Nat) : obsEq (setClone g p k) g := by
  intro IU IB ins
  cases hv : getI g p
  case mutcand slots e u f cl =>
    have hsc : setClone g p k =
        setMut g p (Instr.mutcand slots e u f (cl.set k true)) := by
      simp only [setClone_instrs, setMut, hv]
    have hlen : (setClone g p k).instrs.length = g.instrs.length := by
      rw [hsc]
      exact setMut_len _ _ _
    have hstep : ∀ st q, q < g.instrs.length →
        stepI IU IB st (getI (setClone g p k) q) =
          stepI IU IB st (getI g q) := by
      intro st q hq
      by_cases hqp : q = p
      · subst hqp
        rw [hsc, getI_setMut_self _ (lt_len_of_getI hv (by simp)), hv]
        rfl
      · rw [hsc, getI_setMut_ne _ hqp]
    have hexec := execPre_eq_of_getI IU IB hlen hstep ins
    have hip : inputPositions (setClone g p k) = inputPositions g := by
      simp only [inputPositions, hlen]
      apply List.filter_congr
      intro v _
      rw [hsc, isInput_setMut hv]
    simp only [obs, execG_eq]
    rw [hlen, hexec, hip]
    rfl
  all_goals {
    rw [setClone_eq_of_not_mutcand k (by
      intro s' e' u' f' c' hcon
      rw [hv] at hcon
      exact Instr.noConfusion hcon)]
  }

theorem WFg_setClone {g : Graph} (hwf : WFg g = true) (p k : Nat) :
    WFg (setClone g p k) = true := by
  cases hv : getI g p
  case mutcand slots e u f cl =>
    have hsc : setClone g p k =
        setMut g p (Instr.mutcand slots e u f (cl.set k true)) := by
      simp only [setClone_instrs, setMut, hv]
    rw [hsc]
    exact WFg_setMut hwf hv (wf_mutcand hwf hv).1
      (by rw [List.length_set]; exact (wf_mutcand hwf hv).2.1)
  all_goals {
    rw [setClone_eq_of_not_mutcand k (by
      intro s' e' u' f' c' hcon
      rw [hv] at hcon
      exact Instr.noConfusion hcon)]
    exact hwf
  }

theorem WFg_setFlag {g : Graph} (hwf : WFg g = true) (p k : Nat) :
    WFg (setFlag g p k) = true := by
  cases hv : getI g p
  case mutcand slots e u f cl =>
    have hsc : setFlag g p k =
        setMut g p (Instr.mutcand slots e u (f.set k true) cl) := by
      simp only [setFlag_instrs, setMut, hv]
    rw [hsc]
    exact WFg_setMut hwf hv
      (by rw [List.length_set]; exact (wf_mutcand hwf hv).1)
      (wf_mutcand hwf hv).2.1
  all_goals {
    rw [setFlag_eq_of_not_mutcand k (by
      intro s' e' u' f' c' hcon
      rw [hv] at hcon
      exact Instr.noConfusion hcon)]
    exact hwf
  }

theorem setFlag_oob {g : Graph} (hwf : WFg g = true) {p k : Nat}
    {slots : List Slot} {e : List Nat} {u : Bool} {f cl : List Bool}
    (hp : getI g p = Instr.mutcand slots e u f cl)
    (hk : ¬ k < slots.length) : setFlag g p k = g := by
  have hfl : f.length = slots.length := (wf_mutcand hwf hp).1
  have hset : f.set k true = f := List.set_eq_of_length_le (by omega)
  have hm : (match getI g p with
             | Instr.mutcand slots extra ui flags clones =>
               Instr.mutcand slots extra ui (flags.set k true) clones
             | i => i) = getI g p := by
    simp only [hp]
    rw [hset]
  rw [setFlag_instrs, hm, set_getI_self]

theorem decideSlot_pres {g0 : Graph} {st : Graph × Nat} {p k : Nat}
    (hwf : WFg st.1 = true) (hobs : obsEq st.1 g0) :
    WFg (decideSlot st p k).1 = true ∧ obsEq (decideSlot st p k).1 g0 := by
  cases hv : getI st.1 p
  case mutcand slots e u f cl =>
    simp only [decideSlot, hv]
    by_cases h1 : f.getD k false = true
    · rw [if_pos h1]
      exact ⟨hwf, hobs⟩
    · rw [if_neg h1]
      by_cases h2 : cl.getD k false = true
      · rw [if_pos h2]
        exact ⟨hwf, hobs⟩
      · rw [if_neg h2]
        by_cases h3 : (isInput st.1 (resolveV st.1 (slots.getD k default).dst)
            && !u) = true
        · rw [if_pos h3]
          exact ⟨WFg_setClone hwf p k,
            obsEq_trans (obsEq_setClone st.1 p k) hobs⟩
        · rw [if_neg h3]
          by_cases h4 : slotSafe st.1 p k = true
          · rw [if_pos h4]
            refine ⟨WFg_setFlag hwf p k, ?_⟩
            by_cases hk : k < slots.length
            · have hfl : f.getD k false = false := by
                cases hfv : f.getD k false
                · rfl
                · exact absurd hfv h1
              exact obsEq_trans (step_obs ⟨st.1, p, k, slots, e, u, f, cl,
                hwf, hv, hk, hfl, h4⟩) hobs
            · rw [setFlag_oob hwf hv hk]
              exact hobs
          · rw [if_neg h4]
            exact ⟨WFg_setClone hwf p k,
              obsEq_trans (obsEq_setClone st.1 p k) hobs⟩
  all_goals {
    simp only [decideSlot, hv]
    exact ⟨hwf, hobs⟩
  }

theorem foldl_decideSlot_pres (g0 : Graph) (p : Nat) (ks : List Nat) :
    ∀ (st : Graph × Nat), WFg st.1 = true → obsEq st.1 g0 →
      WFg (ks.foldl (fun acc k => decideSlot acc p k) st).1 = true ∧
      obsEq (ks.foldl (fun acc k => decideSlot acc p k) st).1 g0 := by
  induction ks with
  | nil =>
    intro st h1 h2
    exact ⟨h1, h2⟩
  | cons k rest ih =>
    intro st h1 h2
    simp only [List.foldl_cons]
    obtain ⟨h1', h2'⟩ := decideSlot_pres h1 h2
    exact ih _ h1' h2'

theorem decideCand_pres {g0 : Graph} {st : Graph × Nat} {p : Nat}
    (h1 : WFg st.1 = true) (h2 : obsEq st.1 g0) :
    WFg (decideCand st p).1 = true ∧ obsEq (decideCand st p).1 g0 := by
  cases hv : getI st.1 p
  case mutcand slots e u f cl =>
    simp only [decideCand, hv]
    exact foldl_decideSlot_pres g0 p _ st h1 h2
  all_goals {
    simp only [decideCand, hv]
    exact ⟨h1, h2⟩
  }

theorem foldl_decideCand_pres (g0 : Graph) (ps : List Nat) :
    ∀ (st : Graph × Nat), WFg st.1 = true → obsEq st.1 g0 →
      WFg (ps.foldl decideCand st).1 = true ∧
      obsEq (ps.foldl decideCand st).1 g0 := by
  induction ps with
  | nil =>
    intro st h1 h2
    exact ⟨h1, h2⟩
  | cons p rest ih =>
    intro st h1 h2
    simp only [List.foldl_cons]
    obtain ⟨h1', h2'⟩ := decideCand_pres h1 h2
    exact ih _ h1' h2'

theorem pass_obs {g : Graph} (hwf : WFg g = true) : obsEq (pass g).1 g := by
  simp only [pass]
  exact (foldl_decideCand_pres g _ (g, 0) hwf (obsEq_refl g)).2

/-- C1: for every graph the pass accepts (well-formed per §7) and every
caller input, under every interpretation of the opaque elementwise ops, the
rewritten graph returns the same output values and leaves the same final
contents in the caller-visible input tensors as the original graph. -/
theorem C1_semantic_preservation {g : Graph} (hwf : WFg g = true)
    (IU : Nat → Int → Int) (IB : Int → Int → Int) (ins : List Int) :
    obs IU IB (pass g).1 ins = obs IU IB g ins :=
  pass_obs hwf IU IB ins

theorem C1_semantic_preservation_witness :
    WFg Gchain = true ∧
    obs (fun o x => x * x + o) (fun a b => a - b) (pass Gchain).1 [5, 7] =
      obs (fun o x => x * x + o) (fun a b => a - b) Gchain [5, 7] :=
  ⟨by decide, C1_semantic_preservation (by decide) _ _ _⟩

theorem mstep_no_write {g : Graph} {b : Nat} {j : Option Nat} {sy : Bool}
    {i : Instr} {st1 : Bool × Bool} (hnw : writesB g b i = false)
    (hm : mstep g b j (sy, false) i = some st1) : st1.2 = false := by
  cases i
  case copyInto d s =>
    simp only [mstep] at hm
    by_cases hc : checkReads g b j (sy, false)
        (Instr.copyInto d s).readsOf = true
    · rw [if_pos hc] at hm
      simp only [writesB, beq_eq_false_iff_ne] at hnw
      rw [if_neg hnw] at hm
      by_cases hj : some (baseOf g d) = j
      · rw [if_pos hj] at hm
        rw [← Option.some.inj hm]
      · rw [if_neg hj] at hm
        rw [← Option.some.inj hm]
    · rw [if_neg hc] at hm
      exact Option.noConfusion hm
  case mutcand slots e u f cl =>
    simp only [mstep] at hm
    by_cases hc : checkReads g b j (sy, false)
        (Instr.mutcand slots e u f cl).readsOf = true
    · rw [if_pos hc] at hm
      simp only [writesB] at hnw
      have hany := List.any_eq_false.mp hnw
      have hfold : ∀ (l : List (Slot × Bool)) (acc : Bool × Bool),
          acc.2 = false →
          (∀ sf ∈ l, sf.2 = true → (baseOf g sf.1.dst == b) = false) →
          (l.foldl (fun acc sf =>
            if sf.2 then
              if baseOf g sf.1.dst = b then (false, true)
              else if some (baseOf g sf.1.dst) = j then (true, false)
              else acc
            else acc) acc).2 = false := by
        intro l
        induction l with
        | nil =>
          intro acc h _
          exact h
        | cons sf rest ihl =>
          intro acc h hnwl
          simp only [List.foldl_cons]
          by_cases hsf : sf.2 = true
          · rw [if_pos hsf]
            have hb2 := hnwl sf (by simp) hsf
            rw [beq_eq_false_iff_ne] at hb2
            rw [if_neg hb2]
            by_cases hj : some (baseOf g sf.1.dst) = j
            · rw [if_pos hj]
              exact ihl _ rfl
                (fun y hy => hnwl y (List.mem_cons_of_mem _ hy))
            · rw [if_neg hj]
              exact ihl _ h
                (fun y hy => hnwl y (List.mem_cons_of_mem _ hy))
          · rw [if_neg hsf]
            exact ihl _ h (fun y hy => hnwl y (List.mem_cons_of_mem _ hy))
      rw [← Option.some.inj hm]
      refine hfold (slots.zip f) (sy, false) rfl ?_
      intro sf hsf hf
      have h2 := hany sf hsf
      cases hX : (baseOf g sf.1.dst == b)
      · rfl
      · exfalso
        apply h2
        rw [hf, hX]
        rfl
    · rw [if_neg hc] at hm
      exact Option.noConfusion hm
  all_goals {
    simp only [mstep] at hm
    split at hm
    · rw [← Option.some.inj hm]
    · exact Option.noConfusion hm
  }

theorem mrun_ag_false {g : Graph} {b : Nat} {j : Option Nat} :
    ∀ (l : List Instr) (sy : Bool) (st' : Bool × Bool),
      (∀ i ∈ l, writesB g b i = false) →
      mrun g b j (sy, false) l = some st' → st'.2 = false := by
  intro l
  induction l with
  | nil =>
    intro sy st' _ h
    rw [← Option.some.inj h]
  | cons i rest ih =>
    intro sy st' hw hrun
    simp only [mrun, List.foldl_cons, Option.some_bind] at hrun
    cases hm : mstep g b j (sy, false) i with
    | none =>
      rw [hm, foldl_mstep_none] at hrun
      exact Option.noConfusion hrun
    | some st1 =>
      rw [hm] at hrun
      have hst1 : st1.2 = false := mstep_no_write (hw i (by simp)) hm
      have hst1e : st1 = (st1.1, false) := by rw [← hst1]
      rw [hst1e] at hrun
      exact ih st1.1 st' (fun i2 hi2 => hw i2 (List.mem_cons_of_mem _ hi2))
        hrun

theorem readsB_exists {g : Graph} {b : Nat} {i : Instr}
    (h : readsB g b i = true) : ∃ r ∈ i.readsOf, baseOf g r = b := by
  simp only [readsB, List.any_eq_true, beq_iff_eq] at h
  exact h

theorem checkReads_false {g : Graph} {b : Nat} {j : Option Nat}
    {st : Bool × Bool} (hst : st.2 = false) {rs : List Nat}
    (h : ∃ r ∈ rs, baseOf g r = b) : checkReads g b j st rs = false := by
  obtain ⟨r, hr, hb⟩ := h
  simp only [checkReads]
  rw [List.all_eq_false]
  refine ⟨r, hr, ?_⟩
  rw [if_pos hb, hst]
  simp

theorem mstep_none_of_badRead {g : Graph} {b : Nat} {j : Option Nat}
    {st : Bool × Bool} {i : Instr} (hst : st.2 = false)
    (h : readsB g b i = true) : mstep g b j st i = none := by
  have hcf := @checkReads_false g b j st hst i.readsOf (readsB_exists h)
  have hne : ¬ checkReads g b j st i.readsOf = true := by
    rw [hcf]
    simp
  simp only [mstep]
  rw [if_neg hne]

theorem mem_take_drop_getI {g : Graph} {p q : Nat}
    (hq : q ≤ g.instrs.length) {i : Instr}
    (h : i ∈ (g.instrs.drop (p + 1)).take (q - (p + 1))) :
    ∃ q', p < q' ∧ q' < q ∧ getI g q' = i := by
  obtain ⟨n, hn, hi⟩ := List.mem_iff_getElem.mp h
  have hlen := hn
  simp only [List.length_take, List.length_drop, lt_min_iff] at hlen
  refine ⟨p + 1 + n, by omega, by omega, ?_⟩
  have h1 : ((g.instrs.drop (p + 1)).take (q - (p + 1)))[n]? = some i := by
    rw [List.getElem?_eq_getElem hn, hi]
  rw [List.getElem?_take, if_pos hlen.1, List.getElem?_drop] at h1
  simp only [getI, List.getD_eq_getElem?_getD, h1, Option.getD_some]

theorem slotSafe_false_of_read {g : Graph} {p k q : Nat}
    {slots : List Slot} {e : List Nat} {u : Bool} {f cl : List Bool}
    (hp : getI g p = Instr.mutcand slots e u f cl)
    (hq1 : p < q) (hq2 : q < g.instrs.length)
    (hread : readsB g (baseOf g (slots.getD k default).dst) (getI g q) =
      true)
    (hnw : ∀ q', p < q' → q' < q →
      writesB g (baseOf g (slots.getD k default).dst) (getI g q') = false) :
    slotSafe g p k = false := by
  simp only [slotSafe, hp]
  set b := baseOf g (slots.getD k default).dst with hb
  set j := findProj g p k with hj
  have hsplit :=
    (List.take_append_drop (q - (p + 1)) (g.instrs.drop (p + 1))).symm
  rw [hsplit, mrun_append]
  cases hpre : mrun g b j (true, false)
      ((g.instrs.drop (p + 1)).take (q - (p + 1))) with
  | none => simp
  | some st1 =>
    rw [Option.some_bind]
    have hst1 : st1.2 = false := by
      refine mrun_ag_false _ true st1 ?_ hpre
      intro i hi
      obtain ⟨q', hq1', hq2', hgi⟩ := mem_take_drop_getI (le_of_lt hq2) hi
      rw [← hgi]
      exact hnw q' hq1' hq2'
    have hdd : (g.instrs.drop (p + 1)).drop (q - (p + 1)) =
        g.instrs.drop q := by
      rw [List.drop_drop]
      congr 1
      omega
    rw [hdd, List.drop_eq_getElem_cons hq2]
    have hgq : g.instrs[q] = getI g q := by
      simp [getI, List.getD_eq_getElem?_getD, List.getElem?_eq_getElem hq2]
    rw [hgq]
    have hmn : mstep g b j st1 (getI g q) = none :=
      mstep_none_of_badRead hst1 hread
    simp only [mrun, List.foldl_cons, Option.some_bind, hmn,
      foldl_mstep_none]
    simp

theorem mem_drop_getI {g : Graph} {p : Nat} {i : Instr}
    (h : i ∈ g.instrs.drop (p + 1)) :
    ∃ q', p < q' ∧ q' < g.instrs.length ∧ getI g q' = i := by
  obtain ⟨n, hn, hi⟩ := List.mem_iff_getElem.mp h
  have hlen := hn
  simp only [List.length_drop] at hlen
  refine ⟨p + 1 + n, by omega, by omega, ?_⟩
  have h1 : (g.instrs.drop (p + 1))[n]? = some i := by
    rw [List.getElem?_eq_getElem hn, hi]
  rw [List.getElem?_drop] at h1
  simp only [getI, List.getD_eq_getElem?_getD, h1, Option.getD_some]

theorem slotSafe_false_of_output_read {g : Graph} {p k : Nat}
    {slots : List Slot} {e : List Nat} {u : Bool} {f cl : List Bool}
    (hp : getI g p = Instr.mutcand slots e u f cl)
    (hout : ∃ o ∈ g.outputs,
      baseOf g o = baseOf g (slots.getD k default).dst)
    (hnw : ∀ q', p < q' → q' < g.instrs.length →
      writesB g (baseOf g (slots.getD k default).dst) (getI g q') = false) :
    slotSafe g p k = false := by
  simp only [slotSafe, hp]
  set b := baseOf g (slots.getD k default).dst with hb
  set j := findProj g p k with hj
  cases hrun : mrun g b j (true, false) (g.instrs.drop (p + 1)) with
  | none => simp
  | some st =>
    have hst : st.2 = false := by
      refine mrun_ag_false _ true st ?_ hrun
      intro i hi
      obtain ⟨q', hq1', hq2', hgi⟩ := mem_drop_getI hi
      rw [← hgi]
      exact hnw q' hq1' hq2'
    have hcf : checkReads g b j st g.outputs = false :=
      checkReads_false hst hout
    simp only [endCheck, hcf]
    simp

/-- C3 counterexample: in the `test_view_inplaced2` scenario the mutated
argument is a view of the graph input; a second view of the same base is a
declared graph output, i.e. an alias of the base is live after the call —
and yet the pass rewrites the candidate in place and marks nothing
clone-only. -/
theorem C3_counterexample :
    (∃ slots e u f cl, getI GviewAfter 3 = Instr.mutcand slots e u f cl ∧
      (slots.getD 0 default).dst = 1) ∧
    baseOf GviewAfter 2 = baseOf GviewAfter 1 ∧
    GviewAfter.outputs = [2] ∧
    flagged (pass GviewAfter).1 3 0 = true ∧
    cloneCount (pass GviewAfter).1 = 0 := by
  exact ⟨⟨[⟨0, 1, 1⟩], [], false, [false], [false], by decide, by decide⟩,
    by decide, by decide, by decide, by decide⟩

/-- C3 (amended): liveness only blocks reinplacing up to the point where the
rewritten call republishes the base.  If some value whose storage is the
mutated argument's base is read after the candidate — by a later
instruction, or at the end of the program because such a value is a
declared graph output — and no write into that base (a copy into it or an
already-rewritten slot mutating it) comes in between, the safety scan
rejects the slot, the decision step never rewrites the (undecided) slot in
place, and the full pass preserves the program's observable behaviour, so
every live use still sees its original value. -/
theorem C3_liveness_blocking {g : Graph} (hwf : WFg g = true) {p k : Nat}
    {slots : List Slot} {e : List Nat} {u : Bool} {f cl : List Bool}
    (hp : getI g p = Instr.mutcand slots e u f cl)
    (hread : (∃ q, p < q ∧ q < g.instrs.length ∧
        readsB g (baseOf g (slots.getD k default).dst) (getI g q) = true ∧
        ∀ q', p < q' → q' < q →
          writesB g (baseOf g (slots.getD k default).dst) (getI g q') =
            false) ∨
      ((∃ o ∈ g.outputs,
          baseOf g o = baseOf g (slots.getD k default).dst) ∧
        ∀ q', p < q' → q' < g.instrs.length →
          writesB g (baseOf g (slots.getD k default).dst) (getI g q') =
            false)) :
    slotSafe g p k = false ∧
    (∀ c : Nat, f.getD k false = false →
      flagged (decideSlot (g, c) p k).1 p k = false) ∧
    obsEq (pass g).1 g := by
  have hss : slotSafe g p k = false := by
    rcases hread with ⟨q, hq1, hq2, hr, hnw⟩ | ⟨hout, hnw⟩
    · exact slotSafe_false_of_read hp hq1 hq2 hr hnw
    · exact slotSafe_false_of_output_read hp hout hnw
  refine ⟨hss, ?_, pass_obs hwf⟩
  intro c hf
  simp only [decideSlot, hp]
  rw [if_neg (show ¬ f.getD k false = true by rw [hf]; simp)]
  by_cases h2 : cl.getD k false = true
  · rw [if_pos h2]
    simp only [flagged, hp]
    exact hf
  · rw [if_neg h2]
    by_cases h3 : (isInput g (resolveV g (slots.getD k default).dst) &&
        !u) = true
    · rw [if_pos h3]
      show flagged (setClone g p k) p k = false
      rw [flagged_setClone]
      simp only [flagged, hp]
      exact hf
    · rw [if_neg h3]
      rw [if_neg (show ¬ slotSafe g p k = true by rw [hss]; simp)]
      show flagged (setClone g p k) p k = false
      rw [flagged_setClone]
      simp only [flagged, hp]
      exact hf

theorem C3_liveness_blocking_witness :
    (WFg GdontModifyLive = true ∧
      slotSafe GdontModifyLive 3 0 = false ∧
      flagged (decideSlot (GdontModifyLive, 0) 3 0).1 3 0 = false) ∧
    (WFg GdontModifyViewOfLive = true ∧
      slotSafe GdontModifyViewOfLive 4 0 = false ∧
      flagged (decideSlot (GdontModifyViewOfLive, 0) 4 0).1 4 0 = false) := by
  have h1 := @C3_liveness_blocking GdontModifyLive (by decide) 3 0
    [⟨3, 2, 2⟩] [1] false [false] [false] (by decide)
    (Or.inr ⟨⟨2, by decide, by decide⟩,
      fun q' hq1 hq2 => by
        have hq4 : q' = 4 := by
          have hl : GdontModifyLive.instrs.length = 5 := by decide
          rw [hl] at hq2
          omega
        rw [hq4]
        decide⟩)
  have h2 := @C3_liveness_blocking GdontModifyViewOfLive (by decide) 4 0
    [⟨3, 3, 3⟩] [1] false [false] [false] (by decide)
    (Or.inl ⟨6, by decide, by decide, by decide,
      fun q' hq1 hq2 => by
        have hq5 : q' = 5 := by omega
        rw [hq5]
        decide⟩)
  exact ⟨⟨by decide, h1.1, h1.2.1 0 (by decide)⟩,
    ⟨by decide, h2.1, h2.2.1 0 (by decide)⟩⟩

end Reinplace
